import Mathlib

/-!
# Intervals with open/closed endpoints and ordered interval sets

A shallow embedding of the Go package `interval` (`interval.go`, `set.go`).

* Go `int` coordinates are modelled by `Int`; the operations embedded here only
  compare coordinates, so machine overflow plays no role.
* A Go slice of intervals is modelled by a `List Interval`; in-place writes are
  modelled by the list they leave behind.
* An index out of range (a Go run-time failure) is modelled by `none`.
-/

namespace interval

/-- The Go struct `Interval`: two coordinates and two inclusion flags. -/
structure Interval where
  Begin : Int
  IncBegin : Bool
  End : Int
  IncEnd : Bool
deriving DecidableEq, Repr, Inhabited

namespace Interval

/-- The Go zero value `Interval{}`. -/
def zero : Interval := ⟨0, false, 0, false⟩

/-- Go `Interval.IsEmpty`. -/
def IsEmpty (i : Interval) : Bool :=
  if i.Begin < i.End then false
  else if i.Begin = i.End then !i.IncBegin || !i.IncEnd
  else true

/-- Go `Interval.Equal`. -/
def Equal (i x : Interval) : Bool :=
  (decide (i.Begin = x.Begin) && decide (i.End = x.End) &&
    decide (i.IncBegin = x.IncBegin) && decide (i.IncEnd = x.IncEnd)) ||
  (x.IsEmpty && i.IsEmpty)

/-- Go `Interval.LtBeginOf`. -/
def LtBeginOf (i x : Interval) : Bool :=
  if x.IsEmpty then false
  else if i.IsEmpty then false
  else if i.End < x.Begin then true
  else if i.End = x.Begin then !i.IncEnd || !x.IncBegin
  else false

/-- Go `Interval.LeEndOf`. -/
def LeEndOf (i x : Interval) : Bool :=
  if x.IsEmpty then false
  else if i.IsEmpty then false
  else if i.End < x.End then true
  else if i.End = x.End then !i.IncEnd || x.IncEnd
  else false

/-- Go `Interval.Contains`. -/
def Contains (i x : Interval) : Bool :=
  if x.IsEmpty then true
  else if i.IsEmpty then false
  else if i.Begin > x.Begin then false
  else if i.End < x.End then false
  else if i.Begin < x.Begin ∧ i.End > x.End then true
  else if i.Begin = x.Begin ∧ (i.IncBegin || !x.IncBegin) = true then true
  else decide (i.End = x.End) && (i.IncEnd || !x.IncEnd)

/-- Go `maybeEmpty`. -/
def maybeEmpty (x : Interval) : Interval :=
  if x.IsEmpty then zero else x

/-- Go `Interval.Intersect`: the argument `x` is a by-value copy that the two
`if` statements update in turn. -/
def Intersect (i x : Interval) : Interval :=
  if x.IsEmpty || i.IsEmpty then zero
  else
    let x1 : Interval :=
      if i.Begin > x.Begin then { x with Begin := i.Begin, IncBegin := i.IncBegin }
      else if i.Begin = x.Begin ∧ i.IncBegin = false then { x with IncBegin := false }
      else x
    let x2 : Interval :=
      if i.End < x1.End then { x1 with End := i.End, IncEnd := i.IncEnd }
      else if i.End = x1.End ∧ i.IncEnd = false then { x1 with IncEnd := false }
      else x1
    maybeEmpty x2

/-- Go `Interval.Bisect`. -/
def Bisect (i x : Interval) : Interval × Interval :=
  let in_ := i.Intersect x
  if in_.IsEmpty then
    if i.LtBeginOf x then (i, zero) else (zero, i)
  else
    (maybeEmpty ⟨i.Begin, i.IncBegin, in_.Begin, !in_.IncBegin⟩,
     maybeEmpty ⟨in_.End, !in_.IncEnd, i.End, i.IncEnd⟩)

/-- Go `Interval.Adjoin`. -/
def Adjoin (i x : Interval) : Interval :=
  if x.IsEmpty || i.IsEmpty then zero
  else if i.Begin = x.End ∧ (i.IncBegin || x.IncEnd) = true then
    { x with End := i.End, IncEnd := i.IncEnd }
  else if i.End = x.Begin ∧ (i.IncEnd || x.IncBegin) = true then
    { x with Begin := i.Begin, IncBegin := i.IncBegin }
  else zero

/-- Go `Interval.Encompass`. -/
def Encompass (i x : Interval) : Interval :=
  if x.IsEmpty then i
  else if i.IsEmpty then x
  else
    let x1 : Interval :=
      if i.Begin < x.Begin then { x with Begin := i.Begin, IncBegin := i.IncBegin }
      else if i.Begin = x.Begin ∧ i.IncBegin = true then { x with IncBegin := true }
      else x
    let x2 : Interval :=
      if i.End > x1.End then { x1 with End := i.End, IncEnd := i.IncEnd }
      else if i.End = x1.End ∧ i.IncEnd = true then { x1 with IncEnd := true }
      else x1
    x2

/-- Point membership: coordinate `p` lies in `i`, respecting endpoint openness. -/
def Mem (p : Int) (i : Interval) : Prop :=
  (i.Begin < p ∨ (i.Begin = p ∧ i.IncBegin = true)) ∧
  (p < i.End ∨ (p = i.End ∧ i.IncEnd = true))

instance (p : Int) (i : Interval) : Decidable (Mem p i) :=
  inferInstanceAs (Decidable ((i.Begin < p ∨ (i.Begin = p ∧ i.IncBegin = true)) ∧
    (p < i.End ∨ (p = i.End ∧ i.IncEnd = true))))

end Interval

/-- The binary-search loop of the Go standard library function `sort.Search`:
`for i < j { h := (i+j)/2; if !f(h) { i = h+1 } else { j = h } }; return i`.
The first argument bounds the number of iterations; `j - i` iterations always
suffice, see `sortSearchLoop_fuel`. -/
def sortSearchLoop (f : Nat → Bool) : Nat → Nat → Nat → Nat
  | 0, i, _ => i
  | fuel + 1, i, j =>
    if i < j then
      let h := (i + j) / 2
      if !f h then sortSearchLoop f fuel (h + 1) j else sortSearchLoop f fuel i h
    else i

/-- Go `sort.Search(n, f)`. -/
def sortSearch (n : Nat) (f : Nat → Bool) : Nat :=
  sortSearchLoop f n 0 n

/-- The Go struct `OrderedSet`. -/
structure OrderedSet where
  intervals : List Interval
deriving DecidableEq, Repr

/-- Go `equalIntervals`. -/
def equalIntervals (s1 s2 : List Interval) : Bool :=
  if s1.length ≠ s2.length then false
  else (List.zip s1 s2).all (fun q => q.1.Equal q.2)

/-- A call of a Go iterator closure over the values it still has to return:
the next value, or `Interval{}` once the index has left its range. -/
def next (it : List Interval) : Interval × List Interval :=
  match it with
  | [] => (Interval.zero, [])
  | v :: rest => (v, rest)

/-- Go `adjoinOrAppend`. -/
def adjoinOrAppend (intervals : List Interval) (x : Interval) : List Interval :=
  match intervals.getLast? with
  | none => intervals ++ [x]
  | some l =>
    let ad := l.Adjoin x
    if ad.IsEmpty then intervals ++ [x] else intervals.dropLast ++ [ad]

namespace OrderedSet

/-- Go `OrderedSet.Copy`. -/
def Copy (s : OrderedSet) : OrderedSet := ⟨[] ++ s.intervals⟩

/-- Go `OrderedSet.Len`. -/
def Len (s : OrderedSet) : Nat := s.intervals.length

/-- Go `OrderedSet.IsEmpty`. -/
def IsEmpty (s : OrderedSet) : Bool := decide (s.intervals.length = 0)

/-- Go `OrderedSet.Equal`. -/
def Equal (s x : OrderedSet) : Bool := equalIntervals s.intervals x.intervals

/-- Go `OrderedSet.Bound`. -/
def Bound (s : OrderedSet) : Interval :=
  match s.intervals with
  | [] => Interval.zero
  | [a] => a
  | a :: b :: t => a.Encompass ((b :: t).getLastD Interval.zero)

/-- Go `OrderedSet.searchLow`; `sort.Search` only probes indices below the
length, where `getD` is the stored interval. -/
def searchLow (s : OrderedSet) (x : Interval) : Nat :=
  sortSearch s.intervals.length
    (fun i => !(s.intervals.getD i Interval.zero).LtBeginOf x)

/-- Go `OrderedSet.searchHigh`. -/
def searchHigh (s : OrderedSet) (x : Interval) : Nat :=
  sortSearch s.intervals.length
    (fun i => x.LtBeginOf (s.intervals.getD i Interval.zero))

/-- Go `OrderedSet.Contains`. -/
def Contains (s : OrderedSet) (x : Interval) : Bool :=
  let idx := s.searchLow x
  if idx = s.intervals.length then false
  else (s.intervals.getD idx Interval.zero).Contains x

/-- Go `OrderedSet.Intervals`. -/
def Intervals (s : OrderedSet) : List Interval := [] ++ s.intervals

/-- Go `OrderedSet.Iterator`. The returned closure is modelled by the list of
the values it returns while its index stays within `[low, high]`, in the order
it returns them; every later call returns `Interval{}` (see `next`). Here
`high + 1 = searchHigh bound`, so the indices are `low ≤ idx < searchHigh bound`. -/
def Iterator (s : OrderedSet) (bound : Interval) (forward : Bool) : List Interval :=
  if bound.IsEmpty then []
  else
    let low := s.searchLow bound
    let high1 := s.searchHigh bound
    let run := (s.intervals.take high1).drop low
    if forward then run else run.reverse

/-- Go `OrderedSet.Add`: the new set and the returned flag; `none` is an index
out of range. -/
def Add (s : OrderedSet) (x : Interval) : Option (OrderedSet × Bool) :=
  if x.IsEmpty then some (s, false)
  else
    let low := s.searchLow x
    if low = s.intervals.length then
      some (⟨adjoinOrAppend s.intervals x⟩, true)
    else
      match s.intervals[low]? with
      | none => none
      | some sl =>
        if sl.Contains x then some (s, false)
        else
          let newIntervals := s.intervals.take low
          if x.LtBeginOf sl then
            some (⟨adjoinOrAppend (adjoinOrAppend newIntervals x) sl
                    ++ s.intervals.drop (low + 1)⟩, true)
          else
            let left := (x.Bisect sl).1
            let right := (x.Bisect sl).2
            if !left.IsEmpty && right.IsEmpty then
              some (⟨adjoinOrAppend (adjoinOrAppend newIntervals left) sl
                      ++ s.intervals.drop (low + 1)⟩, true)
            else
              let high := s.searchHigh x
              if high = 0 then none
              else
                match s.intervals[high - 1]? with
                | none => none
                | some sh =>
                  let x2 := (x.Encompass sl).Encompass sh
                  let pushed := adjoinOrAppend newIntervals x2
                  match s.intervals[high]? with
                  | some nx =>
                    some (⟨adjoinOrAppend pushed nx ++ s.intervals.drop (high + 1)⟩, true)
                  | none => some (⟨pushed⟩, true)

/-- The tail of Go `OrderedSet.Remove` when `x` reaches past the end of
`intervals[low]`: the remnants `left` and `right` are written at `low`,
`low + 1`, and the run up to `high` is cut out. `none` is an index or a slice
bound out of range. -/
def removeRun (l : List Interval) (low high : Nat) (left right : Interval) :
    Option (List Interval) :=
  let st1 : List Interval × Nat :=
    if !left.IsEmpty then (l.set low left, low + 1) else (l, low)
  if !right.IsEmpty then
    if st1.2 < l.length then
      let l2 := st1.1.set st1.2 right
      let low2 := st1.2 + 1
      if low2 ≤ high then some (l2.take low2 ++ l2.drop high) else none
    else none
  else
    if st1.2 ≤ high then some (st1.1.take st1.2 ++ st1.1.drop high) else none

/-- Go `OrderedSet.Remove`: the new set and the returned flag; `none` is an
index or a slice bound out of range. -/
def Remove (s : OrderedSet) (x : Interval) : Option (OrderedSet × Bool) :=
  if s.IsEmpty || x.IsEmpty then some (s, false)
  else
    let low := s.searchLow x
    if low = s.intervals.length then some (s, false)
    else
      match s.intervals[low]? with
      | none => none
      | some sl =>
        let left := (sl.Bisect x).1
        let right := (sl.Bisect x).2
        if x.LeEndOf sl then
          if left.IsEmpty then
            if right.IsEmpty then
              some (⟨s.intervals.take low ++ s.intervals.drop (low + 1)⟩, true)
            else if sl.Equal right then some (s, false)
            else some (⟨s.intervals.set low right⟩, true)
          else if right.IsEmpty then some (⟨s.intervals.set low left⟩, true)
          else if low + 2 ≤ s.intervals.length then
            some (⟨(((s.intervals.take (low + 2) ++ s.intervals.drop (low + 1)).set low left).set
                    (low + 1) right)⟩, true)
          else some (⟨s.intervals.set low left ++ [right]⟩, true)
        else
          let high := s.searchHigh x
          if high = 0 then none
          else
            match s.intervals[high - 1]? with
            | none => none
            | some sh =>
              match removeRun s.intervals low high left (sh.Bisect x).2 with
              | none => none
              | some l => some (⟨l⟩, true)

end OrderedSet

/-- The closure returned by Go `OrderedSet.Iterator`, as the variables it
captures: either `emptyIterator`, or the stored intervals together with `low`,
`high`, the running `idx` and the `stride`. The Go `int` indices are integers:
`high` is `-1` when `searchHigh` returns `0`, and a backward run ends with
`idx = low - 1`. -/
inductive IteratorFunc where
  | emptyIterator : IteratorFunc
  | closure (intervals : List Interval) (low high idx stride : Int) : IteratorFunc
deriving DecidableEq, Repr

/-- Go `OrderedSet.Iterator`, returning the closure itself. The list
`OrderedSet.Iterator` holds what the successive calls of this closure return,
see `drain_iteratorClosure`. -/
def OrderedSet.IteratorClosure (s : OrderedSet) (bound : Interval) (forward : Bool) :
    IteratorFunc :=
  if bound.IsEmpty then IteratorFunc.emptyIterator
  else
    let low : Int := s.searchLow bound
    let high : Int := (s.searchHigh bound : Int) - 1
    if !forward then IteratorFunc.closure s.intervals low high high (-1)
    else IteratorFunc.closure s.intervals low high low 1

/-- One call of the closure: the interval it returns and the closure with its
updated `idx`; `none` is an index out of range. -/
def IteratorFunc.call : IteratorFunc → Option (Interval × IteratorFunc)
  | IteratorFunc.emptyIterator => some (Interval.zero, IteratorFunc.emptyIterator)
  | IteratorFunc.closure l low high idx stride =>
    if idx < low ∨ idx > high then
      some (Interval.zero, IteratorFunc.closure l low high idx stride)
    else if idx < 0 then none
    else
      match l[idx.toNat]? with
      | none => none
      | some x => some (x, IteratorFunc.closure l low high (idx + stride) stride)

/-- The interval returned by call number `k`, counted from `0`, of successive
calls of a closure. -/
def IteratorFunc.nth : Nat → IteratorFunc → Option Interval
  | 0, it => it.call.map Prod.fst
  | k + 1, it =>
    match it.call with
    | none => none
    | some r => IteratorFunc.nth k r.2

/-- The intervals a closure returns before its first empty one, as the loops
`for x := it(); !x.IsEmpty(); x = it()` consume it; the first argument bounds
the number of calls. -/
def IteratorFunc.drain : Nat → IteratorFunc → Option (List Interval)
  | 0, _ => none
  | fuel + 1, it =>
    match it.call with
    | none => none
    | some r =>
      if r.1.IsEmpty then some []
      else (IteratorFunc.drain fuel r.2).map (fun t => r.1 :: t)

/-- The loop of Go `Union`: `a.Add(x)` for every value the iterator returns
before its first empty one. -/
def unionLoop (a : OrderedSet) : List Interval → Option OrderedSet
  | [] => some a
  | x :: rest =>
    if x.IsEmpty then some a
    else
      match a.Add x with
      | none => none
      | some r => unionLoop r.1 rest

/-- Go `Union`. -/
def Union (a b : OrderedSet) : Option OrderedSet :=
  let a1 := if a.Len < b.Len then b else a
  let b1 := if a.Len < b.Len then a else b
  unionLoop a1.Copy (b1.Iterator b1.Bound true)

/-- The loop of Go `Intersect`, bounded by a number of iterations: `x`, `y`
are the current intervals, `xit`, `yit` the values the two iterators still
have to return, `acc` the intervals appended so far. `none` means the bound was
reached before the loop ended. -/
def intersectLoop : Nat → Interval → List Interval → Interval → List Interval →
    List Interval → Option (List Interval)
  | 0, _, _, _, _, _ => none
  | fuel + 1, x, xit, y, yit, acc =>
    if !x.IsEmpty && !y.IsEmpty then
      if x.LtBeginOf y then intersectLoop fuel (next xit).1 (next xit).2 y yit acc
      else if y.LtBeginOf x then intersectLoop fuel x xit (next yit).1 (next yit).2 acc
      else
        let in_ := x.Intersect y
        if !in_.IsEmpty then
          let right := (x.Bisect y).2
          if !right.IsEmpty then intersectLoop fuel right xit y yit (acc ++ [in_])
          else intersectLoop fuel (next xit).1 (next xit).2 y yit (acc ++ [in_])
        else intersectLoop fuel x xit y yit acc
    else some acc

/-- Go `Intersect`, run for at most `fuel` iterations of its loop. -/
def IntersectWithin (fuel : Nat) (a b : OrderedSet) : Option OrderedSet :=
  let xit := a.Iterator b.Bound true
  let yit := b.Iterator a.Bound true
  (intersectLoop fuel (next xit).1 (next xit).2 (next yit).1 (next yit).2 []).map
    OrderedSet.mk

/-- Go `Intersect`: the loop ends within `2 * (a.Len + b.Len) + 3` iterations
on all operands (`intersectLoop_terminates`), and more iterations never change
a result (`intersectLoop_fuel_mono`). -/
def Intersect (a b : OrderedSet) : Option OrderedSet :=
  IntersectWithin (2 * (a.Len + b.Len) + 3) a b

/-- The loop of Go `Subtract`, bounded by a number of iterations: `x`, `y` are
the current intervals, `xit`, `yit` the values the two iterators still have to
return, `acc` the intervals appended so far. `none` means the bound was reached
before the loop ended. -/
def subtractLoop : Nat → Interval → List Interval → Interval → List Interval →
    List Interval → Option (List Interval)
  | 0, _, _, _, _, _ => none
  | fuel + 1, x, xit, y, yit, acc =>
    if !x.IsEmpty then
      if y.IsEmpty then
        subtractLoop fuel (next xit).1 (next xit).2 y yit (acc ++ [x])
      else
        let left := (x.Bisect y).1
        let right := (x.Bisect y).2
        let acc1 := if !left.IsEmpty then acc ++ [left] else acc
        if right.IsEmpty then subtractLoop fuel (next xit).1 (next xit).2 y yit acc1
        else subtractLoop fuel right xit (next yit).1 (next yit).2 acc1
    else some acc

/-- Go `Subtract`: every iteration of its loop consumes a value of one of the
two iterators, so `a.Len + b.Len + 3` iterations are enough. -/
def Subtract (a b : OrderedSet) : Option OrderedSet :=
  let xit := a.Iterator a.Bound true
  let yit := b.Iterator a.Bound true
  (subtractLoop (a.Len + b.Len + 3) (next xit).1 (next xit).2 (next yit).1 (next yit).2
    []).map OrderedSet.mk

/-- The loop of Go `Difference`, bounded by a number of iterations; `push` is
`adjoinOrAppend` on the intervals collected so far. `none` means the bound was
reached before the loop ended. -/
def differenceLoop : Nat → Interval → List Interval → Interval → List Interval →
    List Interval → Option (List Interval)
  | 0, _, _, _, _, _ => none
  | fuel + 1, x, xit, y, yit, acc =>
    if x.IsEmpty then
      if y.IsEmpty then some acc
      else differenceLoop fuel x xit (next yit).1 (next yit).2 (adjoinOrAppend acc y)
    else if y.IsEmpty then
      differenceLoop fuel (next xit).1 (next xit).2 y yit (adjoinOrAppend acc x)
    else if x.LtBeginOf y then
      differenceLoop fuel (next xit).1 (next xit).2 y yit (adjoinOrAppend acc x)
    else if y.LtBeginOf x then
      differenceLoop fuel x xit (next yit).1 (next yit).2 (adjoinOrAppend acc y)
    else
      let leftx := (x.Bisect y).1
      let rightx := (x.Bisect y).2
      let lefty := (y.Bisect x).1
      let righty := (y.Bisect x).2
      let acc1 := if !leftx.IsEmpty then adjoinOrAppend acc leftx else acc
      let xn := if rightx.IsEmpty then next xit else (rightx, xit)
      let acc2 := if !lefty.IsEmpty then adjoinOrAppend acc1 lefty else acc1
      let yn := if righty.IsEmpty then next yit else (righty, yit)
      differenceLoop fuel xn.1 xn.2 yn.1 yn.2 acc2

/-- Go `Difference`: every iteration of its loop consumes a value of one of the
two iterators, so `a.Len + b.Len + 3` iterations are enough. -/
def Difference (a b : OrderedSet) : Option OrderedSet :=
  let xit := a.Iterator a.Bound true
  let yit := b.Iterator b.Bound true
  (differenceLoop (a.Len + b.Len + 3) (next xit).1 (next xit).2 (next yit).1 (next yit).2
    []).map OrderedSet.mk

/-- The set `s` covers coordinate `p`: `p` lies in some stored interval. -/
def Covers (s : OrderedSet) (p : Int) : Prop :=
  ∃ i ∈ s.intervals, Interval.Mem p i

/-- Separation of consecutive stored intervals: `a` is `LtBeginOf` `b` and the
two cannot be adjoined. -/
def Separated (a b : Interval) : Prop :=
  a.LtBeginOf b = true ∧ (a.Adjoin b).IsEmpty = true

/-- A well-formed set: no stored interval is empty, each stored interval is
`LtBeginOf` the next one, and no two consecutive ones have a non-empty `Adjoin`. -/
def WellFormed (s : OrderedSet) : Prop :=
  (∀ i ∈ s.intervals, i.IsEmpty = false) ∧ List.Chain' Separated s.intervals

instance (a b : Interval) : Decidable (Separated a b) :=
  inferInstanceAs (Decidable (a.LtBeginOf b = true ∧ (a.Adjoin b).IsEmpty = true))

/-- Executable check of `List.Chain' Separated`. -/
def separatedChain : List Interval → Bool
  | [] => true
  | [_] => true
  | a :: b :: t => (a.LtBeginOf b && (a.Adjoin b).IsEmpty) && separatedChain (b :: t)

instance (s : OrderedSet) : Decidable (WellFormed s) :=
  decidable_of_iff ((∀ i ∈ s.intervals, i.IsEmpty = false) ∧ separatedChain s.intervals = true)
    (by
      have key : ∀ l : List Interval, separatedChain l = true ↔ List.Chain' Separated l := by
        intro l
        induction l with
        | nil => simp [separatedChain]
        | cons a t ih =>
          cases t with
          | nil => simp [separatedChain]
          | cons b t =>
            rw [List.chain'_cons, ← ih]
            simp [separatedChain, Separated]
      rw [key]
      rfl)

instance (s : OrderedSet) (p : Int) : Decidable (Covers s p) :=
  inferInstanceAs (Decidable (∃ i ∈ s.intervals, Interval.Mem p i))

/-- The interval `z` is non-empty and lies within `a`, endpoint by endpoint. -/
def Within (z a : Interval) : Prop :=
  z.IsEmpty = false ∧
  (a.Begin < z.Begin ∨ (a.Begin = z.Begin ∧ (z.IncBegin = true → a.IncBegin = true))) ∧
  (z.End < a.End ∨ (z.End = a.End ∧ (z.IncEnd = true → a.IncEnd = true)))

/-- The list holding `z` if `z` is non-empty, and nothing otherwise. -/
def keep (z : Interval) : List Interval :=
  if z.IsEmpty then [] else [z]

/-- What `Bisect` leaves of the first interval of a run before `x`. -/
def leftRemnant (mid : List Interval) (x : Interval) : Interval :=
  match mid.head? with
  | none => Interval.zero
  | some f => (f.Bisect x).1

/-- What `Bisect` leaves of the last interval of a run after `x`. -/
def rightRemnant (mid : List Interval) (x : Interval) : Interval :=
  match mid.getLast? with
  | none => Interval.zero
  | some g => (g.Bisect x).2

/-- A sequence of non-empty intervals, each `LtBeginOf` all later ones. -/
def Ascending (l : List Interval) : Prop :=
  l.Pairwise (fun a b => a.LtBeginOf b = true) ∧ ∀ i ∈ l, i.IsEmpty = false

/-- The interval with both coordinates doubled. Doubling commutes with every
operation on intervals; the odd coordinates of a doubled interval stand for the
positions strictly between two neighbouring integer coordinates, so the points
of the doubled intervals tell apart what integer points alone cannot, such as
`[0,1]` and `[0,0],[1,1]`. -/
def dbl (i : Interval) : Interval := ⟨2 * i.Begin, i.IncBegin, 2 * i.End, i.IncEnd⟩

/-- Coverage that also sees the positions between the integer coordinates:
`p` lies in the doubled copy of a stored interval. An even `p` is the integer
coordinate `p / 2`, so this refines `Covers`. -/
def FineCovers (s : OrderedSet) (p : Int) : Prop :=
  ∃ i ∈ s.intervals, Interval.Mem p (dbl i)

/-- The least point of the doubled copy of a non-empty interval. -/
def lo (i : Interval) : Int := 2 * i.Begin + (if i.IncBegin then 0 else 1)

/-- The greatest point of the doubled copy of a non-empty interval. -/
def hi (i : Interval) : Int := 2 * i.End - (if i.IncEnd then 0 else 1)

/-! ## Interval lemmas -/

namespace Interval

theorem isEmpty_eq_false_iff (i : Interval) :
    i.IsEmpty = false ↔ i.Begin < i.End ∨ (i.Begin = i.End ∧ i.IncBegin = true ∧ i.IncEnd = true) := by
  unfold IsEmpty
  split_ifs with h1 h2
  · simp [h1]
  · simp [h2]
  · simp; omega

theorem isEmpty_eq_true_iff (i : Interval) :
    i.IsEmpty = true ↔ i.End < i.Begin ∨ (i.Begin = i.End ∧ (i.IncBegin = false ∨ i.IncEnd = false)) := by
  unfold IsEmpty
  split_ifs with h1 h2
  · simp; omega
  · simp [h2]
  · simp; omega

theorem not_mem_of_isEmpty {i : Interval} (h : i.IsEmpty = true) (p : Int) : ¬ Mem p i := by
  rw [isEmpty_eq_true_iff] at h
  unfold Mem
  rcases i with ⟨b, ib, e, ie⟩
  simp only at h ⊢
  cases ib <;> cases ie <;> simp at h ⊢ <;> omega

theorem mem_maybeEmpty (i : Interval) (p : Int) : Mem p (maybeEmpty i) ↔ Mem p i := by
  unfold maybeEmpty
  split_ifs with h
  · constructor
    · intro h0; exact absurd h0 (not_mem_of_isEmpty (by decide) p)
    · intro h0; exact absurd h0 (not_mem_of_isEmpty h p)
  · rfl

theorem mem_intersect (i x : Interval) (p : Int) :
    Mem p (i.Intersect x) ↔ (Mem p i ∧ Mem p x) := by
  by_cases h : (x.IsEmpty || i.IsEmpty) = true
  · unfold Intersect
    rw [if_pos h]
    constructor
    · intro h0; exact absurd h0 (not_mem_of_isEmpty (by decide) p)
    · rintro ⟨h1, h2⟩
      simp only [Bool.or_eq_true] at h
      rcases h with h | h
      · exact absurd h2 (not_mem_of_isEmpty h p)
      · exact absurd h1 (not_mem_of_isEmpty h p)
  · unfold Intersect
    rw [if_neg h, mem_maybeEmpty]
    rcases i with ⟨ib, iib, ie, iie⟩
    rcases x with ⟨xb, xib, xe, xie⟩
    simp only [Mem]
    cases iib <;> cases iie <;> cases xib <;> cases xie <;> simp <;> split_ifs <;> simp_all <;> omega

theorem zero_isEmpty : zero.IsEmpty = true := by decide

theorem maybeEmpty_isEmpty (i : Interval) : (maybeEmpty i).IsEmpty = i.IsEmpty := by
  unfold maybeEmpty
  split_ifs with h
  · rw [h]; decide
  · rfl

theorem maybeEmpty_of_nonempty {i : Interval} (h : i.IsEmpty = false) : maybeEmpty i = i := by
  unfold maybeEmpty; simp [h]

theorem maybeEmpty_of_isEmpty {i : Interval} (h : i.IsEmpty = true) : maybeEmpty i = zero := by
  unfold maybeEmpty; simp [h]

theorem ltBeginOf_iff (i x : Interval) :
    i.LtBeginOf x = true ↔ x.IsEmpty = false ∧ i.IsEmpty = false ∧
      (i.End < x.Begin ∨ (i.End = x.Begin ∧ (i.IncEnd = false ∨ x.IncBegin = false))) := by
  unfold LtBeginOf
  split_ifs with h1 h2 h3 h4
  · simp [h1]
  · simp [h2]
  · simp [h1, h2, h3]
  · simp [h1, h2, h4]
  · simp [h1, h2]; omega

theorem intersect_of_isEmpty {i x : Interval} (h : x.IsEmpty = true ∨ i.IsEmpty = true) :
    i.Intersect x = zero := by
  unfold Intersect
  rw [if_pos (by simpa using h)]

theorem intersect_fields {i x : Interval} (h : (i.Intersect x).IsEmpty = false) :
    i.IsEmpty = false ∧ x.IsEmpty = false ∧
    ((i.Begin < x.Begin ∧ (i.Intersect x).Begin = x.Begin ∧ (i.Intersect x).IncBegin = x.IncBegin) ∨
     (i.Begin = x.Begin ∧ (i.Intersect x).Begin = x.Begin ∧
        (i.Intersect x).IncBegin = (i.IncBegin && x.IncBegin)) ∨
     (x.Begin < i.Begin ∧ (i.Intersect x).Begin = i.Begin ∧ (i.Intersect x).IncBegin = i.IncBegin)) ∧
    ((i.End < x.End ∧ (i.Intersect x).End = i.End ∧ (i.Intersect x).IncEnd = i.IncEnd) ∨
     (i.End = x.End ∧ (i.Intersect x).End = x.End ∧
        (i.Intersect x).IncEnd = (i.IncEnd && x.IncEnd)) ∨
     (x.End < i.End ∧ (i.Intersect x).End = x.End ∧ (i.Intersect x).IncEnd = x.IncEnd)) := by
  have hi : i.IsEmpty = false := by
    cases hc : i.IsEmpty
    · rfl
    · rw [intersect_of_isEmpty (Or.inr hc)] at h; exact absurd h (by decide)
  have hx : x.IsEmpty = false := by
    cases hc : x.IsEmpty
    · rfl
    · rw [intersect_of_isEmpty (Or.inl hc)] at h; exact absurd h (by decide)
  refine ⟨hi, hx, ?_⟩
  unfold Intersect at h ⊢
  simp only [hi, hx, Bool.or_self, Bool.false_eq_true, if_false] at h ⊢
  rw [maybeEmpty_isEmpty] at h
  rw [maybeEmpty_of_nonempty h]
  clear h hi hx
  rcases i with ⟨ib, iib, ie, iie⟩
  rcases x with ⟨xb, xib, xe, xie⟩
  simp only
  constructor
  · cases iib <;> cases xib <;> split_ifs <;> simp_all <;> omega
  · cases iie <;> cases xie <;> split_ifs <;> simp_all <;> omega

theorem maybeEmpty_point_begin (b : Int) (f g : Bool) :
    maybeEmpty ⟨b, f, b, !(f && g)⟩ = maybeEmpty ⟨b, f, b, !g⟩ := by
  cases f <;> cases g <;> simp [maybeEmpty, IsEmpty]

theorem maybeEmpty_point_end (e : Int) (f g : Bool) :
    maybeEmpty ⟨e, !(f && g), e, f⟩ = maybeEmpty ⟨e, !g, e, f⟩ := by
  cases f <;> cases g <;> simp [maybeEmpty, IsEmpty]

theorem maybeEmpty_eq_zero_of_le {b e : Int} (f g : Bool) (h : e ≤ b) (hfg : e = b → (f && g) = false) :
    maybeEmpty ⟨b, f, e, g⟩ = zero := by
  apply maybeEmpty_of_isEmpty
  rw [isEmpty_eq_true_iff]
  simp only
  rcases lt_or_eq_of_le h with h1 | h1
  · exact Or.inl h1
  · right
    refine ⟨h1.symm, ?_⟩
    have := hfg h1
    cases f <;> cases g <;> simp_all

theorem bisect_of_overlap {i x : Interval} (h : (i.Intersect x).IsEmpty = false) :
    i.Bisect x = (maybeEmpty ⟨i.Begin, i.IncBegin, x.Begin, !x.IncBegin⟩,
                  maybeEmpty ⟨x.End, !x.IncEnd, i.End, i.IncEnd⟩) := by
  obtain ⟨hi, hx, hb, he⟩ := intersect_fields h
  unfold Bisect
  simp only [h, Bool.false_eq_true, if_false]
  congr 1
  · rcases hb with ⟨h1, h2, h3⟩ | ⟨h1, h2, h3⟩ | ⟨h1, h2, h3⟩
    · rw [h2, h3]
    · rw [h2, h3, ← h1]
      exact maybeEmpty_point_begin _ _ _
    · rw [h2, h3, maybeEmpty_eq_zero_of_le _ _ (le_refl _) (by intro _; cases i.IncBegin <;> rfl),
        maybeEmpty_eq_zero_of_le _ _ (le_of_lt h1) (by intro hc; omega)]
  · rcases he with ⟨h1, h2, h3⟩ | ⟨h1, h2, h3⟩ | ⟨h1, h2, h3⟩
    · rw [h2, h3, maybeEmpty_eq_zero_of_le _ _ (le_refl _) (by intro _; cases i.IncEnd <;> rfl),
        maybeEmpty_eq_zero_of_le _ _ (le_of_lt h1) (by intro hc; omega)]
    · rw [h2, h3, h1]
      exact maybeEmpty_point_end _ _ _
    · rw [h2, h3]

theorem bisect_of_disjoint {i x : Interval} (h : (i.Intersect x).IsEmpty = true) :
    i.Bisect x = if i.LtBeginOf x then (i, zero) else (zero, i) := by
  unfold Bisect
  simp only [h, if_true]

end Interval

/-! ## Binary search -/

theorem sortSearchLoop_eq (f : Nat → Bool) (n k : Nat)
    (hlo : ∀ m, m < k → f m = false) (hhi : ∀ m, k ≤ m → m < n → f m = true) :
    ∀ fuel i j, i ≤ k → k ≤ j → j ≤ n → j - i ≤ fuel → sortSearchLoop f fuel i j = k := by
  intro fuel
  induction fuel with
  | zero =>
    intro i j hik hkj _ hf
    simp only [sortSearchLoop]
    omega
  | succ fuel ih =>
    intro i j hik hkj hjn hf
    simp only [sortSearchLoop]
    by_cases hij : i < j
    · rw [if_pos hij]
      have h1 : i ≤ (i + j) / 2 := by omega
      have h2 : (i + j) / 2 < j := by omega
      cases hfh : f ((i + j) / 2)
      · simp only [Bool.not_false, if_true]
        have : (i + j) / 2 < k := by
          by_contra hc
          have := hhi ((i + j) / 2) (by omega) (by omega)
          rw [hfh] at this
          exact absurd this (by decide)
        exact ih _ _ (by omega) hkj hjn (by omega)
      · simp only [Bool.not_true, Bool.false_eq_true, if_false]
        have : k ≤ (i + j) / 2 := by
          by_contra hc
          have := hlo ((i + j) / 2) (by omega)
          rw [hfh] at this
          exact absurd this (by decide)
        exact ih _ _ hik this (by omega) (by omega)
    · rw [if_neg hij]
      omega

theorem sortSearch_eq (f : Nat → Bool) (n k : Nat) (hk : k ≤ n)
    (hlo : ∀ m, m < k → f m = false) (hhi : ∀ m, k ≤ m → m < n → f m = true) :
    sortSearch n f = k :=
  sortSearchLoop_eq f n k hlo hhi n 0 n (Nat.zero_le _) hk (le_refl _) (by omega)

/-- More iterations than `j - i` never change the result of the search loop. -/
theorem sortSearchLoop_fuel (f : Nat → Bool) :
    ∀ fuel1 fuel2 i j, j - i ≤ fuel1 → j - i ≤ fuel2 →
      sortSearchLoop f fuel1 i j = sortSearchLoop f fuel2 i j := by
  intro fuel1
  induction fuel1 with
  | zero =>
    intro fuel2 i j h1 _
    cases fuel2 with
    | zero => rfl
    | succ m =>
      simp only [sortSearchLoop]
      rw [if_neg (by omega)]
  | succ fuel1 ih =>
    intro fuel2 i j h1 h2
    cases fuel2 with
    | zero =>
      simp only [sortSearchLoop]
      rw [if_neg (by omega)]
    | succ m =>
      simp only [sortSearchLoop]
      by_cases hij : i < j
      · rw [if_pos hij, if_pos hij]
        cases f ((i + j) / 2)
        · simp only [Bool.not_false, if_true]
          exact ih _ _ _ (by omega) (by omega)
        · simp only [Bool.not_true, Bool.false_eq_true, if_false]
          exact ih _ _ _ (by omega) (by omega)
      · rw [if_neg hij, if_neg hij]

theorem searchLow_eq_of_split (pre post : List Interval) (x : Interval)
    (h1 : ∀ a ∈ pre, a.LtBeginOf x = true) (h2 : ∀ a ∈ post, a.LtBeginOf x = false) :
    OrderedSet.searchLow ⟨pre ++ post⟩ x = pre.length := by
  unfold OrderedSet.searchLow
  apply sortSearch_eq
  · simp
  · intro m hm
    rw [List.getD_append _ _ _ _ hm, List.getD_eq_getElem _ _ hm, h1 _ (List.getElem_mem _)]
    rfl
  · intro m hm hn
    simp only [List.length_append] at hn
    rw [List.getD_append_right _ _ _ _ hm, List.getD_eq_getElem _ _ (by omega),
      h2 _ (List.getElem_mem _)]
    rfl

theorem searchHigh_eq_of_split (pre post : List Interval) (x : Interval)
    (h1 : ∀ a ∈ pre, x.LtBeginOf a = false) (h2 : ∀ a ∈ post, x.LtBeginOf a = true) :
    OrderedSet.searchHigh ⟨pre ++ post⟩ x = pre.length := by
  unfold OrderedSet.searchHigh
  apply sortSearch_eq
  · simp
  · intro m hm
    rw [List.getD_append _ _ _ _ hm, List.getD_eq_getElem _ _ hm, h1 _ (List.getElem_mem _)]
  · intro m hm hn
    simp only [List.length_append] at hn
    rw [List.getD_append_right _ _ _ _ hm, List.getD_eq_getElem _ _ (by omega),
      h2 _ (List.getElem_mem _)]

/-! ## Separation of stored intervals -/

theorem adjoin_isEmpty_of_ltBeginOf {a b : Interval} (h : a.LtBeginOf b = true) :
    (a.Adjoin b).IsEmpty = true ↔ ¬ (a.End = b.Begin ∧ (a.IncEnd = true ∨ b.IncBegin = true)) := by
  rw [Interval.ltBeginOf_iff] at h
  obtain ⟨hb, ha, hlt⟩ := h
  have ha2 := (Interval.isEmpty_eq_false_iff a).1 ha
  have hb2 := (Interval.isEmpty_eq_false_iff b).1 hb
  unfold Interval.Adjoin
  simp only [ha, hb, Bool.or_self, Bool.false_eq_true, if_false]
  rcases a with ⟨ab, aib, ae, aie⟩
  rcases b with ⟨bb, bib, be, bie⟩
  simp only at ha2 hb2 hlt ⊢
  clear ha hb
  split_ifs with h1 h2
  · exfalso
    cases aib <;> cases aie <;> cases bib <;> cases bie <;> simp_all <;> omega
  · simp only [Interval.isEmpty_eq_true_iff]
    cases aib <;> cases aie <;> cases bib <;> cases bie <;> simp_all <;> omega
  · simp only [Interval.zero_isEmpty, true_iff]
    cases aib <;> cases aie <;> cases bib <;> cases bie <;> simp_all

theorem separated_iff (a b : Interval) :
    Separated a b ↔ a.IsEmpty = false ∧ b.IsEmpty = false ∧
      (a.End < b.Begin ∨ (a.End = b.Begin ∧ a.IncEnd = false ∧ b.IncBegin = false)) := by
  unfold Separated
  constructor
  · rintro ⟨h1, h2⟩
    rw [adjoin_isEmpty_of_ltBeginOf h1] at h2
    rw [Interval.ltBeginOf_iff] at h1
    obtain ⟨hb, ha, hlt⟩ := h1
    refine ⟨ha, hb, ?_⟩
    cases hA : a.IncEnd <;> cases hB : b.IncBegin <;> simp_all
  · rintro ⟨ha, hb, h⟩
    have h1 : a.LtBeginOf b = true := by
      rw [Interval.ltBeginOf_iff]
      refine ⟨hb, ha, ?_⟩
      rcases h with h | ⟨h, h', _⟩
      · exact Or.inl h
      · exact Or.inr ⟨h, Or.inl h'⟩
    refine ⟨h1, ?_⟩
    rw [adjoin_isEmpty_of_ltBeginOf h1]
    rintro ⟨h3, h4⟩
    rcases h with h | ⟨_, h5, h6⟩
    · omega
    · rw [h5, h6] at h4
      simp at h4

theorem Separated.ltBeginOf {a b : Interval} (h : Separated a b) : a.LtBeginOf b = true := h.1

theorem separated_trans {a b c : Interval} (h1 : Separated a b) (h2 : Separated b c) :
    Separated a c := by
  rw [separated_iff] at *
  obtain ⟨ha, hb, h1⟩ := h1
  obtain ⟨_, hc, h2⟩ := h2
  refine ⟨ha, hc, ?_⟩
  rw [Interval.isEmpty_eq_false_iff] at hb
  rcases hb with hb | ⟨hb, hb1, hb2⟩
  · left; omega
  · rcases h1 with h1 | ⟨_, _, h1⟩
    · left; omega
    · rw [hb1] at h1; exact absurd h1 (by decide)

theorem wellFormed_iff_pairwise (s : OrderedSet) :
    WellFormed s ↔ (∀ i ∈ s.intervals, i.IsEmpty = false) ∧ s.intervals.Pairwise Separated := by
  haveI : IsTrans Interval Separated := ⟨fun _ _ _ => separated_trans⟩
  unfold WellFormed
  rw [List.chain'_iff_pairwise]

/-! ## Splitting a well-formed sequence around an interval -/

theorem ltBeginOf_asymm {a b : Interval} (h : a.LtBeginOf b = true) : b.LtBeginOf a = false := by
  cases hc : b.LtBeginOf a
  · rfl
  · rw [Interval.ltBeginOf_iff] at h hc
    obtain ⟨hb, ha, h⟩ := h
    obtain ⟨_, _, hc⟩ := hc
    rw [Interval.isEmpty_eq_false_iff] at ha hb
    rcases a with ⟨ab, aib, ae, aie⟩
    rcases b with ⟨bb, bib, be, bie⟩
    simp only at *
    cases aib <;> cases aie <;> cases bib <;> cases bie <;> simp_all <;> omega

theorem not_ltBeginOf_of_separated {a b x : Interval} (h : Separated a b)
    (ha : a.LtBeginOf x = false) : b.LtBeginOf x = false := by
  cases hc : b.LtBeginOf x
  · rfl
  · exfalso
    rw [separated_iff] at h
    obtain ⟨hae, hbe, h⟩ := h
    rw [Interval.ltBeginOf_iff] at hc
    obtain ⟨hx, _, hc⟩ := hc
    have : a.LtBeginOf x = true := by
      rw [Interval.ltBeginOf_iff]
      refine ⟨hx, hae, ?_⟩
      rw [Interval.isEmpty_eq_false_iff] at hbe
      rcases a with ⟨ab, aib, ae, aie⟩
      rcases b with ⟨bb, bib, be, bie⟩
      rcases x with ⟨xb, xib, xe, xie⟩
      simp only at *
      cases aie <;> cases bib <;> cases bie <;> simp_all <;> omega
    rw [ha] at this
    exact absurd this (by decide)

theorem ltBeginOf_of_separated {a b x : Interval} (h : Separated a b)
    (ha : x.LtBeginOf a = true) : x.LtBeginOf b = true := by
  rw [separated_iff] at h
  obtain ⟨hae, hbe, h⟩ := h
  rw [Interval.ltBeginOf_iff] at ha ⊢
  obtain ⟨_, hx, ha⟩ := ha
  refine ⟨hbe, hx, ?_⟩
  rw [Interval.isEmpty_eq_false_iff] at hae
  rcases a with ⟨ab, aib, ae, aie⟩
  rcases b with ⟨bb, bib, be, bie⟩
  rcases x with ⟨xb, xib, xe, xie⟩
  simp only at *
  cases aib <;> cases aie <;> cases bib <;> simp_all <;> omega

theorem split_of_mono (q : Interval → Bool)
    (hmono : ∀ a b, Separated a b → q a = false → q b = false) :
    ∀ l : List Interval, l.Pairwise Separated →
      ∃ pre post, l = pre ++ post ∧ (∀ a ∈ pre, q a = true) ∧ (∀ a ∈ post, q a = false) := by
  intro l
  induction l with
  | nil => intro _; exact ⟨[], [], rfl, by simp, by simp⟩
  | cons a t ih =>
    intro hp
    rw [List.pairwise_cons] at hp
    cases hq : q a
    · refine ⟨[], a :: t, rfl, by simp, ?_⟩
      intro b hb
      rcases List.mem_cons.1 hb with rfl | hb
      · exact hq
      · exact hmono a b (hp.1 b hb) hq
    · obtain ⟨pre, post, h1, h2, h3⟩ := ih hp.2
      refine ⟨a :: pre, post, by rw [h1]; rfl, ?_, h3⟩
      intro b hb
      rcases List.mem_cons.1 hb with rfl | hb
      · exact hq
      · exact h2 b hb

/-- Every well-formed sequence splits, for any `x`, into the stored intervals
before `x`, those touching `x`, and those after `x`. -/
theorem split3 (l : List Interval) (x : Interval) (hp : l.Pairwise Separated) :
    ∃ pre mid post, l = pre ++ mid ++ post ∧
      (∀ a ∈ pre, a.LtBeginOf x = true) ∧
      (∀ a ∈ mid, a.LtBeginOf x = false ∧ x.LtBeginOf a = false) ∧
      (∀ a ∈ post, x.LtBeginOf a = true) := by
  obtain ⟨pre, rest, h1, h2, h3⟩ :=
    split_of_mono (fun a => a.LtBeginOf x) (fun a b h => not_ltBeginOf_of_separated h) l hp
  have hrest : rest.Pairwise Separated := by
    rw [h1, List.pairwise_append] at hp
    exact hp.2.1
  obtain ⟨mid, post, h4, h5, h6⟩ :=
    split_of_mono (fun a => !x.LtBeginOf a)
      (fun a b h ha => by
        simp only [Bool.not_eq_false'] at ha ⊢
        exact ltBeginOf_of_separated h ha) rest hrest
  refine ⟨pre, mid, post, by rw [h1, h4, List.append_assoc], h2, ?_, ?_⟩
  · intro a ha
    refine ⟨h3 a (by rw [h4]; exact List.mem_append_left _ ha), ?_⟩
    simpa using h5 a ha
  · intro a ha
    simpa using h6 a ha

theorem searchLow_split3 (pre mid post : List Interval) (x : Interval)
    (h1 : ∀ a ∈ pre, a.LtBeginOf x = true)
    (h2 : ∀ a ∈ mid, a.LtBeginOf x = false ∧ x.LtBeginOf a = false)
    (h3 : ∀ a ∈ post, x.LtBeginOf a = true) :
    OrderedSet.searchLow ⟨pre ++ mid ++ post⟩ x = pre.length := by
  rw [List.append_assoc]
  apply searchLow_eq_of_split _ _ _ h1
  intro a ha
  rcases List.mem_append.1 ha with ha | ha
  · exact (h2 a ha).1
  · exact ltBeginOf_asymm (h3 a ha)

theorem searchHigh_split3 (pre mid post : List Interval) (x : Interval)
    (h1 : ∀ a ∈ pre, a.LtBeginOf x = true)
    (h2 : ∀ a ∈ mid, a.LtBeginOf x = false ∧ x.LtBeginOf a = false)
    (h3 : ∀ a ∈ post, x.LtBeginOf a = true) :
    OrderedSet.searchHigh ⟨pre ++ mid ++ post⟩ x = pre.length + mid.length := by
  rw [← List.length_append]
  apply searchHigh_eq_of_split _ _ _ _ h3
  intro a ha
  rcases List.mem_append.1 ha with ha | ha
  · exact ltBeginOf_asymm (h1 a ha)
  · exact (h2 a ha).2

/-! ## Union of a set with itself, and the defect of Contains -/

theorem contains_self {x : Interval} (h : x.IsEmpty = false) : x.Contains x = true := by
  unfold Interval.Contains
  simp [h]

theorem equal_self (x : Interval) : x.Equal x = true := by
  unfold Interval.Equal
  simp

theorem equalIntervals_self (l : List Interval) : equalIntervals l l = true := by
  unfold equalIntervals
  simp only [ne_eq, not_true_eq_false, if_false, List.all_eq_true]
  intro q hq
  have : q.1 = q.2 := by
    induction l with
    | nil => simp at hq
    | cons a t ih =>
      simp only [List.zip_cons_cons, List.mem_cons] at hq
      rcases hq with rfl | hq
      · rfl
      · exact ih hq
  rw [this]
  exact equal_self _

theorem add_of_mem {a : OrderedSet} (h : WellFormed a) {x : Interval} (hx : x ∈ a.intervals) :
    a.Add x = some (a, false) := by
  rw [wellFormed_iff_pairwise] at h
  obtain ⟨hne, hp⟩ := h
  have hxe := hne x hx
  obtain ⟨pre, post, hl⟩ := List.append_of_mem hx
  rw [hl, List.pairwise_append, List.pairwise_cons] at hp
  have hlow : a.searchLow x = pre.length := by
    have : a = ⟨pre ++ x :: post⟩ := by cases a; simp only at hl; rw [hl]
    rw [this]
    apply searchLow_eq_of_split
    · intro b hb
      exact (hp.2.2 b hb x (List.mem_cons_self _ _)).1
    · intro b hb
      rcases List.mem_cons.1 hb with rfl | hb
      · cases hc : b.LtBeginOf b
        · rfl
        · rw [ltBeginOf_asymm hc] at hc; exact absurd hc (by decide)
      · exact ltBeginOf_asymm (hp.2.1.1 b hb).1
  have hget : a.intervals[pre.length]? = some x := by
    rw [hl, List.getElem?_append_right (le_refl _)]
    simp
  have hlen : pre.length ≠ a.intervals.length := by
    rw [hl]; simp
  unfold OrderedSet.Add
  simp only [hxe, Bool.false_eq_true, if_false, hlow, hget, hlen, contains_self hxe, if_true]

theorem unionLoop_of_subset {a : OrderedSet} (h : WellFormed a) :
    ∀ ys : List Interval, (∀ y ∈ ys, y ∈ a.intervals) → unionLoop a ys = some a := by
  intro ys
  induction ys with
  | nil => intro _; rfl
  | cons y t ih =>
    intro hs
    unfold unionLoop
    rw [add_of_mem h (hs y (List.mem_cons_self _ _))]
    split_ifs
    · rfl
    · exact ih (fun z hz => hs z (List.mem_cons_of_mem _ hz))

theorem mem_of_mem_iterator {s : OrderedSet} {b x : Interval} {fw : Bool}
    (h : x ∈ s.Iterator b fw) : x ∈ s.intervals := by
  unfold OrderedSet.Iterator at h
  split_ifs at h
  · simp at h
  · exact List.mem_of_mem_take (List.mem_of_mem_drop h)
  · rw [List.mem_reverse] at h
    exact List.mem_of_mem_take (List.mem_of_mem_drop h)

/-- C9: `Union` is idempotent: for every well-formed set `a`, `Union(a, a)`
returns a set that is `Equal` to `a`. -/
theorem union_idempotent (a : OrderedSet) (h : WellFormed a) :
    ∃ u, Union a a = some u ∧ u.Equal a = true := by
  refine ⟨a, ?_, equalIntervals_self _⟩
  unfold Union
  simp only [lt_self_iff_false, if_false]
  have : a.Copy = a := by cases a; simp [OrderedSet.Copy]
  rw [this]
  exact unionLoop_of_subset h _ (fun y hy => mem_of_mem_iterator hy)

theorem union_idempotent_witness :
    WellFormed ⟨[⟨0, true, 3, true⟩, ⟨5, true, 8, false⟩]⟩ ∧
    ∃ u, Union ⟨[⟨0, true, 3, true⟩, ⟨5, true, 8, false⟩]⟩
        ⟨[⟨0, true, 3, true⟩, ⟨5, true, 8, false⟩]⟩ = some u ∧
      u.Equal ⟨[⟨0, true, 3, true⟩, ⟨5, true, 8, false⟩]⟩ = true :=
  ⟨by decide, union_idempotent _ (by decide)⟩

/-- C5: `[0,5).Contains([0,5])` returns true although the receiver is open at 5
and the argument is closed there. -/
theorem contains_open_end_closed_arg :
    Interval.Contains ⟨0, true, 5, false⟩ ⟨0, true, 5, true⟩ = true ∧
    Interval.IsEmpty ⟨0, true, 5, false⟩ = false ∧ Interval.IsEmpty ⟨0, true, 5, true⟩ = false ∧
    Interval.Mem 5 ⟨0, true, 5, true⟩ ∧ ¬ Interval.Mem 5 ⟨0, true, 5, false⟩ := by
  decide

/-- C3: adding `[0,5]` to the well-formed set `{[0,5)}` leaves it unchanged, so
coordinate 5 of the added interval is not covered afterwards. -/
theorem add_misses_closed_end :
    WellFormed ⟨[⟨0, true, 5, false⟩]⟩ ∧
    OrderedSet.Add ⟨[⟨0, true, 5, false⟩]⟩ ⟨0, true, 5, true⟩
      = some (⟨[⟨0, true, 5, false⟩]⟩, false) ∧
    Interval.Mem 5 ⟨0, true, 5, true⟩ ∧ ¬ Covers ⟨[⟨0, true, 5, false⟩]⟩ 5 := by
  decide

/-- C7: `Union({[0,5)}, {[0,5]})` is `{[0,5)}` while `Union({[0,5]}, {[0,5)})`
is `{[0,5]}`, and the two are not `Equal`. -/
theorem union_not_commutative :
    WellFormed ⟨[⟨0, true, 5, false⟩]⟩ ∧ WellFormed ⟨[⟨0, true, 5, true⟩]⟩ ∧
    Union ⟨[⟨0, true, 5, false⟩]⟩ ⟨[⟨0, true, 5, true⟩]⟩ = some ⟨[⟨0, true, 5, false⟩]⟩ ∧
    Union ⟨[⟨0, true, 5, true⟩]⟩ ⟨[⟨0, true, 5, false⟩]⟩ = some ⟨[⟨0, true, 5, true⟩]⟩ ∧
    OrderedSet.Equal ⟨[⟨0, true, 5, false⟩]⟩ ⟨[⟨0, true, 5, true⟩]⟩ = false := by
  decide

/-- C8: `Union({[0,5)}, {[0,5]})` does not cover coordinate 5 although the
second operand does. -/
theorem union_misses_point :
    Union ⟨[⟨0, true, 5, false⟩]⟩ ⟨[⟨0, true, 5, true⟩]⟩ = some ⟨[⟨0, true, 5, false⟩]⟩ ∧
    Covers ⟨[⟨0, true, 5, true⟩]⟩ 5 ∧ ¬ Covers ⟨[⟨0, true, 5, false⟩]⟩ 5 := by
  decide

/-! ## Points of the two parts of Bisect -/

theorem intersect_isEmpty_iff (i x : Interval) :
    (i.Intersect x).IsEmpty = true ↔
      (i.IsEmpty = true ∨ x.IsEmpty = true ∨ i.LtBeginOf x = true ∨ x.LtBeginOf i = true) := by
  cases hi : i.IsEmpty
  · cases hx : x.IsEmpty
    · unfold Interval.Intersect
      simp only [hi, hx, Bool.or_self, Bool.false_eq_true, if_false, false_or]
      rw [Interval.maybeEmpty_isEmpty, Interval.ltBeginOf_iff, Interval.ltBeginOf_iff,
        Interval.isEmpty_eq_true_iff]
      simp only [hi, hx, true_and]
      rw [Interval.isEmpty_eq_false_iff] at hi hx
      rcases i with ⟨ib, iib, ie, iie⟩
      rcases x with ⟨xb, xib, xe, xie⟩
      simp only at hi hx ⊢
      cases iib <;> cases iie <;> cases xib <;> cases xie <;> split_ifs <;> simp_all <;> omega
    · rw [Interval.intersect_of_isEmpty (Or.inl hx)]
      simp [Interval.zero_isEmpty]
  · rw [Interval.intersect_of_isEmpty (Or.inr hi)]
    simp [Interval.zero_isEmpty]

theorem overlap_not_ltBeginOf {i x : Interval} (h : (i.Intersect x).IsEmpty = false) :
    i.LtBeginOf x = false ∧ x.LtBeginOf i = false := by
  constructor
  · cases hc : i.LtBeginOf x
    · rfl
    · have := (intersect_isEmpty_iff i x).2 (Or.inr (Or.inr (Or.inl hc)))
      rw [h] at this; exact absurd this (by decide)
  · cases hc : x.LtBeginOf i
    · rfl
    · have := (intersect_isEmpty_iff i x).2 (Or.inr (Or.inr (Or.inr hc)))
      rw [h] at this; exact absurd this (by decide)

theorem not_ltBeginOf_iff {i x : Interval} (hi : i.IsEmpty = false) (hx : x.IsEmpty = false) :
    i.LtBeginOf x = false ↔
      (x.Begin < i.End ∨ (i.End = x.Begin ∧ i.IncEnd = true ∧ x.IncBegin = true)) := by
  rw [← Bool.not_eq_true, Interval.ltBeginOf_iff]
  simp only [hi, hx, true_and]
  cases i.IncEnd <;> cases x.IncBegin <;> simp <;> omega

theorem not_mem_of_ltBeginOf {a x : Interval} (h : a.LtBeginOf x = true) (p : Int)
    (ha : Interval.Mem p a) : ¬ Interval.Mem p x := by
  rw [Interval.ltBeginOf_iff] at h
  obtain ⟨_, _, h⟩ := h
  unfold Interval.Mem at *
  rcases a with ⟨ab, aib, ae, aie⟩
  rcases x with ⟨xb, xib, xe, xie⟩
  simp only at *
  cases aie <;> cases xib <;> simp_all <;> omega

theorem mem_bisect_fst (i : Interval) {x : Interval} (hx : x.IsEmpty = false) (p : Int) :
    Interval.Mem p (i.Bisect x).1 ↔
      (Interval.Mem p i ∧ (p < x.Begin ∨ (p = x.Begin ∧ x.IncBegin = false))) := by
  cases hov : (i.Intersect x).IsEmpty
  · rw [Interval.bisect_of_overlap hov, Interval.mem_maybeEmpty]
    obtain ⟨hi, _, _, _⟩ := Interval.intersect_fields hov
    obtain ⟨hn1, hn2⟩ := overlap_not_ltBeginOf hov
    rw [not_ltBeginOf_iff hi hx] at hn1
    rw [not_ltBeginOf_iff hx hi] at hn2
    rw [Interval.isEmpty_eq_false_iff] at hi hx
    clear hov
    unfold Interval.Mem
    rcases i with ⟨ib, iib, ie, iie⟩
    rcases x with ⟨xb, xib, xe, xie⟩
    simp only at *
    cases iib <;> cases iie <;> cases xib <;> cases xie <;> simp_all <;> omega
  · rw [Interval.bisect_of_disjoint hov]
    rw [intersect_isEmpty_iff] at hov
    by_cases hlt : i.LtBeginOf x = true
    · rw [if_pos hlt]
      simp only
      rw [Interval.ltBeginOf_iff] at hlt
      obtain ⟨_, _, hlt⟩ := hlt
      unfold Interval.Mem
      rcases i with ⟨ib, iib, ie, iie⟩
      rcases x with ⟨xb, xib, xe, xie⟩
      simp only at *
      cases iie <;> cases xib <;> simp_all <;> omega
    · rw [if_neg hlt]
      simp only
      constructor
      · intro h0; exact absurd h0 (Interval.not_mem_of_isEmpty (by decide) p)
      · rintro ⟨h1, h2⟩
        exfalso
        rcases hov with hov | hov | hov | hov
        · exact Interval.not_mem_of_isEmpty hov p h1
        · rw [hx] at hov; exact absurd hov (by decide)
        · exact hlt hov
        · rw [Interval.ltBeginOf_iff] at hov
          obtain ⟨_, _, hov⟩ := hov
          rw [Interval.isEmpty_eq_false_iff] at hx
          unfold Interval.Mem at h1
          rcases i with ⟨ib, iib, ie, iie⟩
          rcases x with ⟨xb, xib, xe, xie⟩
          simp only at *
          cases iib <;> cases xib <;> cases xie <;> simp_all <;> omega

theorem mem_bisect_snd (i : Interval) {x : Interval} (hx : x.IsEmpty = false) (p : Int) :
    Interval.Mem p (i.Bisect x).2 ↔
      (Interval.Mem p i ∧ (x.End < p ∨ (p = x.End ∧ x.IncEnd = false))) := by
  cases hov : (i.Intersect x).IsEmpty
  · rw [Interval.bisect_of_overlap hov, Interval.mem_maybeEmpty]
    obtain ⟨hi, _, _, _⟩ := Interval.intersect_fields hov
    obtain ⟨hn1, hn2⟩ := overlap_not_ltBeginOf hov
    rw [not_ltBeginOf_iff hi hx] at hn1
    rw [not_ltBeginOf_iff hx hi] at hn2
    rw [Interval.isEmpty_eq_false_iff] at hi hx
    clear hov
    unfold Interval.Mem
    rcases i with ⟨ib, iib, ie, iie⟩
    rcases x with ⟨xb, xib, xe, xie⟩
    simp only at *
    cases iib <;> cases iie <;> cases xib <;> cases xie <;> simp_all <;> omega
  · rw [Interval.bisect_of_disjoint hov]
    rw [intersect_isEmpty_iff] at hov
    by_cases hlt : i.LtBeginOf x = true
    · rw [if_pos hlt]
      simp only
      constructor
      · intro h0; exact absurd h0 (Interval.not_mem_of_isEmpty (by decide) p)
      · rintro ⟨h1, h2⟩
        exfalso
        rw [Interval.ltBeginOf_iff] at hlt
        obtain ⟨_, _, hlt⟩ := hlt
        rw [Interval.isEmpty_eq_false_iff] at hx
        unfold Interval.Mem at h1
        rcases i with ⟨ib, iib, ie, iie⟩
        rcases x with ⟨xb, xib, xe, xie⟩
        simp only at *
        cases iie <;> cases xib <;> cases xie <;> simp_all <;> omega
    · rw [if_neg hlt]
      simp only
      constructor
      · intro h1
        refine ⟨h1, ?_⟩
        rcases hov with hov | hov | hov | hov
        · exact absurd h1 (Interval.not_mem_of_isEmpty hov p)
        · rw [hx] at hov; exact absurd hov (by decide)
        · exact absurd hov hlt
        · rw [Interval.ltBeginOf_iff] at hov
          obtain ⟨_, _, hov⟩ := hov
          unfold Interval.Mem at h1
          rcases i with ⟨ib, iib, ie, iie⟩
          rcases x with ⟨xb, xib, xe, xie⟩
          simp only at *
          cases iib <;> cases xie <;> simp_all <;> omega
      · exact fun h => h.1

/-! ## Shape of the two parts of Bisect -/

theorem separated_of_within_right {p a z : Interval} (h : Separated p a) (hz : Within z a) :
    Separated p z := by
  rw [separated_iff] at *
  obtain ⟨hp, ha, h⟩ := h
  obtain ⟨hz1, hz2, hz3⟩ := hz
  refine ⟨hp, hz1, ?_⟩
  rcases p with ⟨pb, pib, pe, pie⟩
  rcases a with ⟨ab, aib, ae, aie⟩
  rcases z with ⟨zb, zib, ze, zie⟩
  simp only at *
  cases aib <;> cases zib <;> cases pie <;> simp_all <;> omega

theorem separated_of_within_left {a q z : Interval} (h : Separated a q) (hz : Within z a) :
    Separated z q := by
  rw [separated_iff] at *
  obtain ⟨ha, hq, h⟩ := h
  obtain ⟨hz1, hz2, hz3⟩ := hz
  refine ⟨hz1, hq, ?_⟩
  rcases q with ⟨qb, qib, qe, qie⟩
  rcases a with ⟨ab, aib, ae, aie⟩
  rcases z with ⟨zb, zib, ze, zie⟩
  simp only at *
  cases aie <;> cases zie <;> cases qib <;> simp_all <;> omega

theorem bisect_fst_within {i x : Interval} (h : (i.Bisect x).1.IsEmpty = false) :
    Within (i.Bisect x).1 i := by
  cases hov : (i.Intersect x).IsEmpty
  · obtain ⟨hn1, hn2⟩ := overlap_not_ltBeginOf hov
    obtain ⟨hi, hx, _, _⟩ := Interval.intersect_fields hov
    rw [Interval.bisect_of_overlap hov] at h ⊢
    simp only at h ⊢
    rw [Interval.maybeEmpty_isEmpty] at h
    rw [Interval.maybeEmpty_of_nonempty h]
    refine ⟨h, Or.inr ⟨rfl, fun h => h⟩, ?_⟩
    rw [not_ltBeginOf_iff hi hx] at hn1
    simp only
    clear hov hn2 h
    rcases i with ⟨ib, iib, ie, iie⟩
    rcases x with ⟨xb, xib, xe, xie⟩
    simp only at *
    cases iie <;> cases xib <;> simp_all <;> omega
  · rw [Interval.bisect_of_disjoint hov] at h ⊢
    split_ifs at h ⊢ with hlt
    · simp only at h ⊢
      exact ⟨h, Or.inr ⟨rfl, fun h => h⟩, Or.inr ⟨rfl, fun h => h⟩⟩
    · simp only at h
      exact absurd h (by decide)

theorem bisect_snd_within {i x : Interval} (h : (i.Bisect x).2.IsEmpty = false) :
    Within (i.Bisect x).2 i := by
  cases hov : (i.Intersect x).IsEmpty
  · obtain ⟨hn1, hn2⟩ := overlap_not_ltBeginOf hov
    obtain ⟨hi, hx, _, _⟩ := Interval.intersect_fields hov
    rw [Interval.bisect_of_overlap hov] at h ⊢
    simp only at h ⊢
    rw [Interval.maybeEmpty_isEmpty] at h
    rw [Interval.maybeEmpty_of_nonempty h]
    refine ⟨h, ?_, Or.inr ⟨rfl, fun h => h⟩⟩
    rw [not_ltBeginOf_iff hx hi] at hn2
    simp only
    clear hov hn1 h
    rcases i with ⟨ib, iib, ie, iie⟩
    rcases x with ⟨xb, xib, xe, xie⟩
    simp only at *
    cases iib <;> cases xie <;> simp_all <;> omega
  · rw [Interval.bisect_of_disjoint hov] at h ⊢
    split_ifs at h ⊢ with hlt
    · simp only at h
      exact absurd h (by decide)
    · simp only at h ⊢
      exact ⟨h, Or.inr ⟨rfl, fun h => h⟩, Or.inr ⟨rfl, fun h => h⟩⟩

theorem bisect_separated {i x : Interval} (hx : x.IsEmpty = false)
    (h1 : (i.Bisect x).1.IsEmpty = false) (h2 : (i.Bisect x).2.IsEmpty = false) :
    Separated (i.Bisect x).1 (i.Bisect x).2 := by
  cases hov : (i.Intersect x).IsEmpty
  · rw [Interval.bisect_of_overlap hov] at h1 h2 ⊢
    simp only at h1 h2 ⊢
    rw [Interval.maybeEmpty_isEmpty] at h1 h2
    rw [Interval.maybeEmpty_of_nonempty h1, Interval.maybeEmpty_of_nonempty h2, separated_iff]
    refine ⟨h1, h2, ?_⟩
    simp only
    rw [Interval.isEmpty_eq_false_iff] at hx
    cases hb : x.IncBegin <;> cases he : x.IncEnd <;> simp_all
  · rw [Interval.bisect_of_disjoint hov] at h1 h2
    split_ifs at h1 h2
    · simp [Interval.zero_isEmpty] at h2
    · simp [Interval.zero_isEmpty] at h1

theorem leEndOf_iff (i x : Interval) :
    i.LeEndOf x = true ↔ x.IsEmpty = false ∧ i.IsEmpty = false ∧
      (i.End < x.End ∨ (i.End = x.End ∧ (i.IncEnd = false ∨ x.IncEnd = true))) := by
  unfold Interval.LeEndOf
  split_ifs with h1 h2 h3 h4
  · simp [h1]
  · simp [h2]
  · simp [h1, h2, h3]
  · simp [h1, h2, h4]
  · simp [h1, h2]; omega

theorem bisect_snd_isEmpty_of_not_leEndOf {i x : Interval} (hi : i.IsEmpty = false)
    (hx : x.IsEmpty = false) (hn : i.LtBeginOf x = false) (hle : x.LeEndOf i = false) :
    (i.Bisect x).2.IsEmpty = true := by
  rw [← Bool.not_eq_true, leEndOf_iff] at hle
  simp only [hi, hx, true_and] at hle
  cases hov : (i.Intersect x).IsEmpty
  · rw [Interval.bisect_of_overlap hov]
    simp only
    rw [Interval.maybeEmpty_isEmpty, Interval.isEmpty_eq_true_iff]
    simp only
    cases hb : x.IncEnd <;> cases he : i.IncEnd <;> simp_all <;> omega
  · exfalso
    rw [intersect_isEmpty_iff] at hov
    rcases hov with hov | hov | hov | hov
    · rw [hi] at hov; exact absurd hov (by decide)
    · rw [hx] at hov; exact absurd hov (by decide)
    · rw [hn] at hov; exact absurd hov (by decide)
    · rw [Interval.ltBeginOf_iff] at hov
      obtain ⟨_, _, hov⟩ := hov
      rw [Interval.isEmpty_eq_false_iff] at hi
      rcases i with ⟨ib, iib, ie, iie⟩
      rcases x with ⟨xb, xib, xe, xie⟩
      simp only at *
      cases iib <;> cases iie <;> cases xie <;> simp_all <;> omega

theorem ltBeginOf_of_leEndOf_separated {x a m : Interval} (h : x.LeEndOf a = true)
    (hs : Separated a m) : x.LtBeginOf m = true := by
  rw [leEndOf_iff] at h
  rw [separated_iff] at hs
  obtain ⟨_, hx, h⟩ := h
  obtain ⟨_, hm, hs⟩ := hs
  rw [Interval.ltBeginOf_iff]
  refine ⟨hm, hx, ?_⟩
  rcases a with ⟨ab, aib, ae, aie⟩
  rcases x with ⟨xb, xib, xe, xie⟩
  rcases m with ⟨mb, mib, me, mie⟩
  simp only at *
  cases aie <;> cases xie <;> cases mib <;> simp_all <;> omega

theorem bisect_snd_ne_self {i x : Interval} (hov : (i.Intersect x).IsEmpty = false)
    (h2 : (i.Bisect x).2.IsEmpty = false) : i.Equal (i.Bisect x).2 = false := by
  obtain ⟨hn1, hn2⟩ := overlap_not_ltBeginOf hov
  obtain ⟨hi, hx, _, _⟩ := Interval.intersect_fields hov
  rw [Interval.bisect_of_overlap hov] at h2 ⊢
  simp only at h2 ⊢
  rw [Interval.maybeEmpty_isEmpty] at h2
  rw [Interval.maybeEmpty_of_nonempty h2]
  rw [not_ltBeginOf_iff hx hi] at hn2
  unfold Interval.Equal
  rw [h2, hi]
  rw [Interval.isEmpty_eq_false_iff] at hi hx
  clear hov hn1 h2
  rcases i with ⟨ib, iib, ie, iie⟩
  rcases x with ⟨xb, xib, xe, xie⟩
  simp only at *
  cases iib <;> cases xie <;> simp_all <;> omega

theorem eq_of_equal_of_nonempty {i z : Interval} (h : i.Equal z = true) (hi : i.IsEmpty = false) :
    i = z := by
  unfold Interval.Equal at h
  rw [hi] at h
  rcases i with ⟨ib, iib, ie, iie⟩
  rcases z with ⟨zb, zib, ze, zie⟩
  simp only [Bool.and_false, Bool.or_false, Bool.and_eq_true, decide_eq_true_eq] at h
  obtain ⟨⟨⟨h1, h2⟩, h3⟩, h4⟩ := h
  simp [h1, h2, h3, h4]

/-! ## The affected run of Remove as a list -/

theorem keep_of_isEmpty {z : Interval} (h : z.IsEmpty = true) : keep z = [] := by
  unfold keep; simp [h]

theorem keep_of_nonempty {z : Interval} (h : z.IsEmpty = false) : keep z = [z] := by
  unfold keep; simp [h]

theorem mem_keep {z a : Interval} : a ∈ keep z ↔ (a = z ∧ z.IsEmpty = false) := by
  unfold keep
  cases h : z.IsEmpty <;> simp

theorem removeRun_eq (pre mid post : List Interval) (left right : Interval) (hmid : mid ≠ [])
    (h2 : left.IsEmpty = false → right.IsEmpty = false → 2 ≤ mid.length) :
    OrderedSet.removeRun (pre ++ mid ++ post) pre.length (pre.length + mid.length) left right
      = some (pre ++ keep left ++ keep right ++ post) := by
  obtain ⟨m, mid', rfl⟩ := List.exists_cons_of_ne_nil hmid
  have hdrop : ∀ l1 : List Interval, l1.length = pre.length + (mid'.length + 1) →
      (l1 ++ post).drop (pre.length + (mid'.length + 1)) = post := by
    intro l1 hl
    rw [← hl, List.drop_left]
  unfold OrderedSet.removeRun
  cases hl : left.IsEmpty <;> cases hr : right.IsEmpty
  · -- both remnants survive
    have hlen := h2 hl hr
    obtain ⟨m2, mid'', rfl⟩ : ∃ m2 mid'', mid' = m2 :: mid'' := by
      cases mid' with
      | nil => simp at hlen
      | cons m2 t => exact ⟨m2, t, rfl⟩
    simp only [Bool.not_false, if_true, List.length_append, List.length_cons,
      keep_of_nonempty hl, keep_of_nonempty hr]
    have e1 : (pre ++ m :: m2 :: mid'' ++ post).set pre.length left
        = pre ++ left :: m2 :: mid'' ++ post := by
      rw [List.append_assoc, List.set_append_right _ _ (le_refl _)]
      simp
    rw [e1]
    have e2 : (pre ++ left :: m2 :: mid'' ++ post).set (pre.length + 1) right
        = (pre ++ [left]) ++ right :: mid'' ++ post := by
      have : pre ++ left :: m2 :: mid'' ++ post = (pre ++ [left]) ++ (m2 :: mid'' ++ post) := by
        simp
      rw [this, List.set_append_right _ _ (by simp)]
      simp
    rw [e2]
    rw [if_pos (by omega), if_pos (by omega)]
    congr 1
    have e3 : (pre ++ [left] ++ right :: mid'' ++ post).take (pre.length + 1 + 1)
        = pre ++ [left] ++ [right] := by
      have : pre ++ [left] ++ right :: mid'' ++ post
          = (pre ++ [left] ++ [right]) ++ (mid'' ++ post) := by simp
      rw [this, List.take_left' (by simp)]
    have e4 : (pre ++ [left] ++ right :: mid'' ++ post).drop (pre.length + (mid''.length + 1 + 1))
        = post := by
      have : pre ++ [left] ++ right :: mid'' ++ post
          = (pre ++ [left] ++ right :: mid'') ++ post := by simp
      rw [this, List.drop_left' (by simp)]
    rw [e3, e4]
  · -- only the left remnant survives
    simp only [Bool.not_false, if_true, Bool.not_true, Bool.false_eq_true, if_false,
      List.length_append, List.length_cons, keep_of_nonempty hl, keep_of_isEmpty hr]
    have e1 : (pre ++ m :: mid' ++ post).set pre.length left
        = (pre ++ [left]) ++ (mid' ++ post) := by
      rw [List.append_assoc, List.set_append_right _ _ (le_refl _)]
      simp
    rw [e1, if_pos (by omega)]
    congr 1
    rw [List.take_left' (by simp)]
    have : pre ++ [left] ++ (mid' ++ post) = (pre ++ [left] ++ mid') ++ post := by simp
    rw [this, List.drop_left' (by simp)]
    simp
  · -- only the right remnant survives
    simp only [Bool.not_false, if_true, Bool.not_true, Bool.false_eq_true, if_false,
      List.length_append, List.length_cons, keep_of_nonempty hr, keep_of_isEmpty hl]
    have e1 : (pre ++ m :: mid' ++ post).set pre.length right
        = (pre ++ [right]) ++ (mid' ++ post) := by
      rw [List.append_assoc, List.set_append_right _ _ (le_refl _)]
      simp
    rw [e1, if_pos (by omega), if_pos (by omega)]
    congr 1
    rw [List.take_left' (by simp)]
    have : pre ++ [right] ++ (mid' ++ post) = (pre ++ [right] ++ mid') ++ post := by simp
    rw [this, List.drop_left' (by simp)]
    simp
  · -- nothing survives
    simp only [Bool.not_true, Bool.false_eq_true, if_false,
      List.length_append, List.length_cons, keep_of_isEmpty hr, keep_of_isEmpty hl]
    rw [if_pos (by omega)]
    congr 1
    have : pre ++ m :: mid' ++ post = pre ++ (m :: mid' ++ post) := by simp
    rw [this, List.take_left' rfl]
    have : pre ++ (m :: mid' ++ post) = (pre ++ m :: mid') ++ post := by simp
    rw [this, List.drop_left' (by simp)]
    simp

/-! ## Helpers for the cases of Remove -/

theorem getElem?_split (pre : List Interval) (sl : Interval) (rest : List Interval) :
    (pre ++ sl :: rest)[pre.length]? = some sl := by
  rw [List.getElem?_append_right (le_refl _)]
  simp

theorem set_split (pre : List Interval) (sl z : Interval) (rest : List Interval) :
    (pre ++ sl :: rest).set pre.length z = pre ++ z :: rest := by
  rw [List.set_append_right _ _ (le_refl _)]
  simp

theorem drop_split (pre : List Interval) (sl : Interval) (rest : List Interval) :
    (pre ++ sl :: rest).drop (pre.length + 1) = rest := by
  have : pre ++ sl :: rest = (pre ++ [sl]) ++ rest := by simp
  rw [this, List.drop_left' (by simp)]

theorem take_split (pre rest : List Interval) : (pre ++ rest).take pre.length = pre :=
  List.take_left' rfl

theorem leEndOf_of_ltBeginOf {x a : Interval} (h : x.LtBeginOf a = true) :
    x.LeEndOf a = true := by
  rw [Interval.ltBeginOf_iff] at h
  obtain ⟨ha, hx, h⟩ := h
  rw [leEndOf_iff]
  refine ⟨ha, hx, ?_⟩
  rw [Interval.isEmpty_eq_false_iff] at ha
  rcases a with ⟨ab, aib, ae, aie⟩
  rcases x with ⟨xb, xib, xe, xie⟩
  simp only at *
  cases aib <;> cases aie <;> cases xie <;> simp_all <;> omega

theorem overlap_of_not_ltBeginOf {i x : Interval} (hi : i.IsEmpty = false)
    (hx : x.IsEmpty = false) (h1 : i.LtBeginOf x = false) (h2 : x.LtBeginOf i = false) :
    (i.Intersect x).IsEmpty = false := by
  cases hc : (i.Intersect x).IsEmpty
  · rfl
  · rw [intersect_isEmpty_iff, hi, hx, h1, h2] at hc
    simp at hc

theorem bisect_of_ltBeginOf {x sl : Interval} (h : x.LtBeginOf sl = true) :
    sl.Bisect x = (Interval.zero, sl) := by
  have hd : (sl.Intersect x).IsEmpty = true :=
    (intersect_isEmpty_iff sl x).2 (Or.inr (Or.inr (Or.inr h)))
  rw [Interval.bisect_of_disjoint hd, ltBeginOf_asymm h]
  simp

theorem leftRemnant_cons (f : Interval) (t : List Interval) (x : Interval) :
    leftRemnant (f :: t) x = (f.Bisect x).1 := rfl

theorem rightRemnant_concat (t : List Interval) (g x : Interval) :
    rightRemnant (t ++ [g]) x = (g.Bisect x).2 := by
  unfold rightRemnant
  rw [List.getLast?_concat]

theorem remnant_nil (x : Interval) :
    keep (leftRemnant [] x) = [] ∧ keep (rightRemnant [] x) = [] := by
  constructor <;> rfl

/-! ## The effect of Remove -/

/-- The effect of `Remove` on a well-formed set: the stored intervals before
`x` and after `x` stay, and the run touching `x` is replaced by what `Bisect`
leaves of its first interval before `x` and of its last interval after `x`. -/
theorem remove_shape (l : List Interval) (x : Interval) (hwf : WellFormed ⟨l⟩)
    (hx : x.IsEmpty = false) :
    ∃ pre mid post,
      l = pre ++ mid ++ post ∧
      (∀ a ∈ pre, a.LtBeginOf x = true) ∧
      (∀ a ∈ mid, a.LtBeginOf x = false ∧ x.LtBeginOf a = false) ∧
      (∀ a ∈ post, x.LtBeginOf a = true) ∧
      OrderedSet.Remove ⟨l⟩ x =
        some (⟨pre ++ keep (leftRemnant mid x) ++ keep (rightRemnant mid x) ++ post⟩,
          !mid.isEmpty) := by
  rw [wellFormed_iff_pairwise] at hwf
  obtain ⟨hne, hp⟩ := hwf
  simp only at hne hp
  obtain ⟨pre, mid, post, rfl, h1, h2, h3⟩ := split3 l x hp
  refine ⟨pre, mid, post, rfl, h1, h2, h3, ?_⟩
  have hlow := searchLow_split3 pre mid post x h1 h2 h3
  have hhigh := searchHigh_split3 pre mid post x h1 h2 h3
  unfold OrderedSet.Remove
  simp only [hx, Bool.or_false, hlow, hhigh, OrderedSet.IsEmpty]
  cases mid with
  | nil =>
    simp only [List.append_nil, remnant_nil, List.isEmpty_nil, Bool.not_true]
    cases post with
    | nil =>
      simp only [List.append_nil]
      split_ifs <;> rfl
    | cons sl tl =>
      have hsl := h3 sl (List.mem_cons_self _ _)
      rw [if_neg (by simp), if_neg (by simp), getElem?_split]
      simp only [bisect_of_ltBeginOf hsl, leEndOf_of_ltBeginOf hsl, if_true,
        Interval.zero_isEmpty, equal_self]
      have : sl.IsEmpty = false := hne sl (by simp)
      simp [this]
  | cons sl mid' =>
    have hsl := h2 sl (List.mem_cons_self _ _)
    have hsle : sl.IsEmpty = false := hne sl (by simp)
    have hov := overlap_of_not_ltBeginOf hsle hx hsl.1 hsl.2
    rw [if_neg (by simp), if_neg (by simp)]
    have hget : (pre ++ sl :: mid' ++ post)[pre.length]? = some sl := by
      rw [List.append_assoc]; exact getElem?_split _ _ _
    simp only [hget, List.isEmpty_cons, Bool.not_false, leftRemnant_cons]
    have hpm : ∀ m ∈ mid', Separated sl m := by
      intro m hm
      rw [List.append_assoc, List.pairwise_append] at hp
      have := hp.2.1
      rw [List.cons_append, List.pairwise_cons] at this
      exact this.1 m (List.mem_append_left _ hm)
    by_cases hle : x.LeEndOf sl = true
    · -- `x` ends within `sl`: the run is `sl` alone
      have hmid : mid' = [] := by
        cases mid' with
        | nil => rfl
        | cons m t =>
          exfalso
          have h4 := ltBeginOf_of_leEndOf_separated hle (hpm m (List.mem_cons_self _ _))
          rw [(h2 m (by simp)).2] at h4
          exact absurd h4 (by decide)
      subst hmid
      have hr : rightRemnant [sl] x = (sl.Bisect x).2 := rfl
      rw [if_pos hle, hr]
      have hneq := bisect_snd_ne_self hov
      generalize (sl.Bisect x).1 = L at *
      generalize (sl.Bisect x).2 = R at *
      have e0 : pre ++ [sl] ++ post = pre ++ sl :: post := by simp
      rw [e0]
      cases hL : L.IsEmpty <;> cases hR : R.IsEmpty
      · simp only [Bool.false_eq_true, if_false, keep_of_nonempty hL, keep_of_nonempty hR,
          set_split]
        cases post with
        | nil =>
          rw [if_neg (by simp)]
          simp
        | cons q post' =>
          rw [if_pos (by simp)]
          have e1 : (pre ++ sl :: q :: post').take (pre.length + 2) = pre ++ [sl, q] := by
            have : pre ++ sl :: q :: post' = (pre ++ [sl, q]) ++ post' := by simp
            rw [this, List.take_left' (by simp)]
          rw [e1, drop_split]
          have e2 : pre ++ [sl, q] ++ q :: post' = pre ++ sl :: (q :: q :: post') := by simp
          rw [e2, set_split]
          have e3 : pre ++ L :: q :: q :: post' = (pre ++ [L]) ++ q :: (q :: post') := by simp
          rw [e3]
          have e4 : pre.length + 1 = (pre ++ [L]).length := by simp
          rw [e4, set_split]
          simp
      · simp only [Bool.false_eq_true, if_false, if_true, keep_of_nonempty hL,
          keep_of_isEmpty hR, set_split]
        simp
      · simp only [Bool.false_eq_true, if_false, if_true, keep_of_nonempty hR,
          keep_of_isEmpty hL, set_split, hneq hR]
        simp
      · simp only [if_true, keep_of_isEmpty hR, keep_of_isEmpty hL, take_split, drop_split]
        simp
    · -- `x` reaches past the end of `sl`
      rw [if_neg hle, if_neg (by simp)]
      have hle' : x.LeEndOf sl = false := by simpa using hle
      have hR0 := bisect_snd_isEmpty_of_not_leEndOf hsle hx hsl.1 hle'
      obtain ⟨t, g, ht⟩ : ∃ t g, sl :: mid' = t ++ [g] :=
        ⟨(sl :: mid').dropLast, (sl :: mid').getLast (by simp),
          (List.dropLast_concat_getLast (by simp)).symm⟩
      have hcond : (sl.Bisect x).1.IsEmpty = false → (g.Bisect x).2.IsEmpty = false →
          2 ≤ (t ++ [g]).length := by
        intro _ hg
        by_contra hlen
        have ht0 : t = [] := by
          cases t with
          | nil => rfl
          | cons a t => simp at hlen
        subst ht0
        simp only [List.nil_append, List.cons.injEq] at ht
        rw [← ht.1, hR0] at hg
        exact absurd hg (by decide)
      rw [ht, rightRemnant_concat]
      have hidx : (pre ++ (t ++ [g]) ++ post)[pre.length + (t ++ [g]).length - 1]? = some g := by
        have : pre ++ (t ++ [g]) ++ post = (pre ++ t) ++ g :: post := by simp
        rw [this]
        have e : pre.length + (t ++ [g]).length - 1 = (pre ++ t).length := by simp
        rw [e, getElem?_split]
      rw [hidx]
      simp only
      rw [removeRun_eq pre (t ++ [g]) post _ _ (by simp) hcond]

/-! ## Remove preserves well-formedness -/

theorem pairwise_replace_mid {pre mid post news : List Interval}
    (hp : (pre ++ mid ++ post).Pairwise Separated) (hn : news.Pairwise Separated)
    (hw : ∀ z ∈ news, ∃ a ∈ mid, Within z a) :
    (pre ++ news ++ post).Pairwise Separated := by
  rw [List.pairwise_append, List.pairwise_append] at hp ⊢
  obtain ⟨⟨hpre, _, hpm⟩, hpost, hall⟩ := hp
  refine ⟨⟨hpre, hn, ?_⟩, hpost, ?_⟩
  · intro a ha b hb
    obtain ⟨m, hm, hwm⟩ := hw b hb
    exact separated_of_within_right (hpm a ha m hm) hwm
  · intro a ha b hb
    rcases List.mem_append.1 ha with ha | ha
    · exact hall a (List.mem_append_left _ ha) b hb
    · obtain ⟨m, hm, hwm⟩ := hw a ha
      exact separated_of_within_left (hall m (List.mem_append_right _ hm) b hb) hwm

theorem leftRemnant_within {mid : List Interval} {x : Interval}
    (h : (leftRemnant mid x).IsEmpty = false) :
    ∃ f t, mid = f :: t ∧ leftRemnant mid x = (f.Bisect x).1 ∧ Within (leftRemnant mid x) f := by
  cases mid with
  | nil =>
    have h0 : (leftRemnant [] x).IsEmpty = true := rfl
    rw [h0] at h
    exact absurd h (by decide)
  | cons f t => exact ⟨f, t, rfl, rfl, bisect_fst_within h⟩

theorem rightRemnant_within {mid : List Interval} {x : Interval}
    (h : (rightRemnant mid x).IsEmpty = false) :
    ∃ t g, mid = t ++ [g] ∧ rightRemnant mid x = (g.Bisect x).2 ∧
      Within (rightRemnant mid x) g := by
  rcases List.eq_nil_or_concat mid with rfl | ⟨t, g, rfl⟩
  · have h0 : (rightRemnant [] x).IsEmpty = true := rfl
    rw [h0] at h
    exact absurd h (by decide)
  · rw [List.concat_eq_append] at h ⊢
    rw [rightRemnant_concat] at h ⊢
    exact ⟨t, g, rfl, rfl, bisect_snd_within h⟩

theorem remnants_pairwise {mid : List Interval} {x : Interval} (hx : x.IsEmpty = false)
    (hp : mid.Pairwise Separated) :
    (keep (leftRemnant mid x) ++ keep (rightRemnant mid x)).Pairwise Separated := by
  cases hL : (leftRemnant mid x).IsEmpty
  · cases hR : (rightRemnant mid x).IsEmpty
    · rw [keep_of_nonempty hL, keep_of_nonempty hR]
      simp only [List.singleton_append, List.pairwise_cons, List.mem_singleton, forall_eq,
        List.not_mem_nil, false_implies, implies_true, List.Pairwise.nil, and_true]
      obtain ⟨f, t, hf, hfl, hfw⟩ := leftRemnant_within hL
      obtain ⟨t', g, hg, hgr, hgw⟩ := rightRemnant_within hR
      cases t with
      | nil =>
        have hfg : g = f := by
          rw [hf] at hg
          cases t' with
          | nil => simp at hg; exact hg.symm
          | cons a t'' =>
            have := congrArg List.length hg
            simp at this
        subst hfg
        rw [hfl, hgr]
        rw [hfl] at hL
        rw [hgr] at hR
        exact bisect_separated hx hL hR
      | cons m t =>
        have hgm : g ∈ m :: t := by
          have h1 : (f :: m :: t).getLast? = some g := by rw [← hf, hg, List.getLast?_concat]
          rw [List.getLast?_cons_cons] at h1
          exact List.mem_of_getLast?_eq_some h1
        rw [hf, List.pairwise_cons] at hp
        exact separated_of_within_right (separated_of_within_left (hp.1 g hgm) hfw) hgw
    · rw [keep_of_isEmpty hR, List.append_nil, keep_of_nonempty hL]
      exact List.pairwise_singleton _ _
  · rw [keep_of_isEmpty hL, List.nil_append]
    unfold keep
    split_ifs
    · exact List.Pairwise.nil
    · exact List.pairwise_singleton _ _

theorem remnants_within {mid : List Interval} {x z : Interval}
    (hz : z ∈ keep (leftRemnant mid x) ++ keep (rightRemnant mid x)) :
    ∃ a ∈ mid, Within z a := by
  rcases List.mem_append.1 hz with hz | hz
  · rw [mem_keep] at hz
    obtain ⟨hzl, hze⟩ := hz
    obtain ⟨f, t, hf, _, hfw⟩ := leftRemnant_within hze
    exact ⟨f, by rw [hf]; simp, by rw [hzl]; exact hfw⟩
  · rw [mem_keep] at hz
    obtain ⟨hzr, hze⟩ := hz
    obtain ⟨t, g, hg, _, hgw⟩ := rightRemnant_within hze
    exact ⟨g, by rw [hg]; simp, by rw [hzr]; exact hgw⟩

/-- C2: `Remove` preserves the invariants of an ordered set: for every
well-formed set `s` and every interval `x`, `s.Remove(x)` returns and the
sequence stored afterwards is again well-formed. -/
theorem remove_wellFormed (s : OrderedSet) (x : Interval) (h : WellFormed s) :
    ∃ r b, s.Remove x = some (r, b) ∧ WellFormed r := by
  cases hx : x.IsEmpty
  · obtain ⟨l⟩ := s
    obtain ⟨pre, mid, post, hl, _, _, _, hrem⟩ := remove_shape l x h hx
    refine ⟨_, _, hrem, ?_⟩
    rw [wellFormed_iff_pairwise] at h ⊢
    obtain ⟨hne, hp⟩ := h
    simp only at hne hp ⊢
    rw [hl] at hne hp
    have hmidp : mid.Pairwise Separated := by
      rw [List.pairwise_append, List.pairwise_append] at hp
      exact hp.1.2.1
    constructor
    · intro i hi
      simp only [List.append_assoc, List.mem_append] at hi hne
      rcases hi with hi | hi | hi | hi
      · exact hne i (Or.inl hi)
      · exact ((mem_keep.1 hi).1) ▸ (mem_keep.1 hi).2
      · exact ((mem_keep.1 hi).1) ▸ (mem_keep.1 hi).2
      · exact hne i (Or.inr (Or.inr hi))
    · rw [List.append_assoc pre]
      exact pairwise_replace_mid hp (remnants_pairwise hx hmidp) (fun z hz => remnants_within hz)
  · refine ⟨s, false, ?_, h⟩
    unfold OrderedSet.Remove
    simp [hx]

theorem remove_wellFormed_witness :
    WellFormed ⟨[⟨0, true, 10, true⟩]⟩ ∧
    ∃ r b, OrderedSet.Remove ⟨[⟨0, true, 10, true⟩]⟩ ⟨3, true, 5, true⟩ = some (r, b) ∧
      WellFormed r :=
  ⟨by decide, remove_wellFormed _ _ (by decide)⟩

/-! ## Remove removes exactly the points of its argument -/

theorem covers_append (a b : List Interval) (p : Int) :
    Covers ⟨a ++ b⟩ p ↔ (Covers ⟨a⟩ p ∨ Covers ⟨b⟩ p) := by
  unfold Covers
  simp only [List.mem_append]
  constructor
  · rintro ⟨i, hi | hi, hm⟩
    · exact Or.inl ⟨i, hi, hm⟩
    · exact Or.inr ⟨i, hi, hm⟩
  · rintro (⟨i, hi, hm⟩ | ⟨i, hi, hm⟩)
    · exact ⟨i, Or.inl hi, hm⟩
    · exact ⟨i, Or.inr hi, hm⟩

theorem covers_keep (z : Interval) (p : Int) : Covers ⟨keep z⟩ p ↔ Interval.Mem p z := by
  unfold Covers
  constructor
  · rintro ⟨i, hi, hm⟩
    rw [mem_keep] at hi
    rw [← hi.1]; exact hm
  · intro hm
    refine ⟨z, ?_, hm⟩
    rw [mem_keep]
    refine ⟨rfl, ?_⟩
    cases hc : z.IsEmpty
    · rfl
    · exact absurd hm (Interval.not_mem_of_isEmpty hc p)

theorem not_mem_iff (x : Interval) (p : Int) :
    ¬ Interval.Mem p x ↔
      ((p < x.Begin ∨ (p = x.Begin ∧ x.IncBegin = false)) ∨
       (x.End < p ∨ (p = x.End ∧ x.IncEnd = false))) := by
  unfold Interval.Mem
  rcases x with ⟨xb, xib, xe, xie⟩
  simp only
  cases xib <;> cases xie <;> simp <;> omega

theorem not_before_of_separated {f a x : Interval} {p : Int} (hs : Separated f a)
    (hx : x.IsEmpty = false) (hf : f.LtBeginOf x = false) (hm : Interval.Mem p a) :
    ¬ (p < x.Begin ∨ (p = x.Begin ∧ x.IncBegin = false)) := by
  rw [separated_iff] at hs
  obtain ⟨hfe, _, hs⟩ := hs
  rw [not_ltBeginOf_iff hfe hx] at hf
  unfold Interval.Mem at hm
  rcases f with ⟨fb, fib, fe, fie⟩
  rcases a with ⟨ab, aib, ae, aie⟩
  rcases x with ⟨xb, xib, xe, xie⟩
  simp only at *
  cases fie <;> cases aib <;> cases xib <;> simp_all <;> omega

theorem not_after_of_separated {a g x : Interval} {p : Int} (hs : Separated a g)
    (hx : x.IsEmpty = false) (hg : x.LtBeginOf g = false) (hm : Interval.Mem p a) :
    ¬ (x.End < p ∨ (p = x.End ∧ x.IncEnd = false)) := by
  rw [separated_iff] at hs
  obtain ⟨_, hge, hs⟩ := hs
  rw [not_ltBeginOf_iff hx hge] at hg
  unfold Interval.Mem at hm
  rcases g with ⟨gb, gib, ge, gie⟩
  rcases a with ⟨ab, aib, ae, aie⟩
  rcases x with ⟨xb, xib, xe, xie⟩
  simp only at *
  cases gib <;> cases aie <;> cases xie <;> simp_all <;> omega

theorem mem_remnants {mid : List Interval} {x : Interval} (hx : x.IsEmpty = false)
    (hp : mid.Pairwise Separated)
    (h2 : ∀ a ∈ mid, a.LtBeginOf x = false ∧ x.LtBeginOf a = false) (p : Int) :
    (Interval.Mem p (leftRemnant mid x) ∨ Interval.Mem p (rightRemnant mid x)) ↔
      ((∃ a ∈ mid, Interval.Mem p a) ∧ ¬ Interval.Mem p x) := by
  constructor
  · rintro (h | h)
    · have hne : (leftRemnant mid x).IsEmpty = false := by
        cases hc : (leftRemnant mid x).IsEmpty
        · rfl
        · exact absurd h (Interval.not_mem_of_isEmpty hc p)
      obtain ⟨f, t, hf, hfl, _⟩ := leftRemnant_within hne
      rw [hfl, mem_bisect_fst f hx] at h
      exact ⟨⟨f, by rw [hf]; simp, h.1⟩, (not_mem_iff x p).2 (Or.inl h.2)⟩
    · have hne : (rightRemnant mid x).IsEmpty = false := by
        cases hc : (rightRemnant mid x).IsEmpty
        · rfl
        · exact absurd h (Interval.not_mem_of_isEmpty hc p)
      obtain ⟨t, g, hg, hgr, _⟩ := rightRemnant_within hne
      rw [hgr, mem_bisect_snd g hx] at h
      exact ⟨⟨g, by rw [hg]; simp, h.1⟩, (not_mem_iff x p).2 (Or.inr h.2)⟩
  · rintro ⟨⟨a, ha, hm⟩, hnx⟩
    rw [not_mem_iff] at hnx
    rcases hnx with hb | hb
    · left
      obtain ⟨f, t, rfl⟩ := List.exists_cons_of_ne_nil (List.ne_nil_of_mem ha)
      rw [leftRemnant_cons, mem_bisect_fst f hx]
      refine ⟨?_, hb⟩
      rcases List.mem_cons.1 ha with rfl | hat
      · exact hm
      · exfalso
        rw [List.pairwise_cons] at hp
        exact not_before_of_separated (hp.1 a hat) hx (h2 f (by simp)).1 hm hb
    · right
      rcases List.eq_nil_or_concat mid with rfl | ⟨t, g, rfl⟩
      · simp at ha
      · rw [List.concat_eq_append] at ha hp h2 ⊢
        rw [rightRemnant_concat, mem_bisect_snd g hx]
        refine ⟨?_, hb⟩
        rcases List.mem_append.1 ha with hat | hag
        · exfalso
          rw [List.pairwise_append] at hp
          exact not_after_of_separated (hp.2.2 a hat g (by simp)) hx (h2 g (by simp)).2 hm hb
        · rw [List.mem_singleton] at hag
          rw [← hag]; exact hm

/-- C4: `Remove` removes exactly the points of `x`: for every well-formed set
`s`, every interval `x` and every coordinate `p`, `s.Remove(x)` returns and the
set covers `p` afterwards if and only if `s` covered `p` before and `p` does not
lie in `x`. -/
theorem remove_covers (s : OrderedSet) (x : Interval) (h : WellFormed s) :
    ∃ r b, s.Remove x = some (r, b) ∧
      ∀ p : Int, Covers r p ↔ (Covers s p ∧ ¬ Interval.Mem p x) := by
  cases hx : x.IsEmpty
  · obtain ⟨l⟩ := s
    obtain ⟨pre, mid, post, hl, h1, h2, h3, hrem⟩ := remove_shape l x h hx
    refine ⟨_, _, hrem, ?_⟩
    intro p
    rw [wellFormed_iff_pairwise] at h
    obtain ⟨hne, hp⟩ := h
    simp only at hne hp
    rw [hl] at hp
    have hmidp : mid.Pairwise Separated := by
      rw [List.pairwise_append, List.pairwise_append] at hp
      exact hp.1.2.1
    have hmr := mem_remnants hx hmidp h2 p
    rw [hl]
    simp only [covers_append, covers_keep]
    have hpre : Covers ⟨pre⟩ p → ¬ Interval.Mem p x := by
      rintro ⟨a, ha, hm⟩
      exact not_mem_of_ltBeginOf (h1 a ha) p hm
    have hpost : Covers ⟨post⟩ p → ¬ Interval.Mem p x := by
      rintro ⟨a, ha, hm⟩ hmx
      exact not_mem_of_ltBeginOf (h3 a ha) p hmx hm
    have key : ∀ (A L R M P X : Prop), (A → ¬X) → (P → ¬X) → ((L ∨ R) ↔ (M ∧ ¬X)) →
        ((((A ∨ L) ∨ R) ∨ P) ↔ (((A ∨ M) ∨ P) ∧ ¬X)) := by
      intro A L R M P X h1 h2 h3
      constructor
      · rintro (((ha | hl) | hr) | hp)
        · exact ⟨Or.inl (Or.inl ha), h1 ha⟩
        · exact ⟨Or.inl (Or.inr (h3.1 (Or.inl hl)).1), (h3.1 (Or.inl hl)).2⟩
        · exact ⟨Or.inl (Or.inr (h3.1 (Or.inr hr)).1), (h3.1 (Or.inr hr)).2⟩
        · exact ⟨Or.inr hp, h2 hp⟩
      · rintro ⟨(ha | hm) | hp, hx⟩
        · exact Or.inl (Or.inl (Or.inl ha))
        · rcases h3.2 ⟨hm, hx⟩ with hl | hr
          · exact Or.inl (Or.inl (Or.inr hl))
          · exact Or.inl (Or.inr hr)
        · exact Or.inr hp
    exact key _ _ _ _ _ _ hpre hpost hmr
  · refine ⟨s, false, ?_, ?_⟩
    · unfold OrderedSet.Remove
      simp [hx]
    · intro p
      have := Interval.not_mem_of_isEmpty hx p
      tauto

theorem remove_covers_witness :
    WellFormed ⟨[⟨0, true, 10, true⟩]⟩ ∧
    ∃ r b, OrderedSet.Remove ⟨[⟨0, true, 10, true⟩]⟩ ⟨3, true, 5, true⟩ = some (r, b) ∧
      ∀ p : Int, Covers r p ↔
        (Covers ⟨[⟨0, true, 10, true⟩]⟩ p ∧ ¬ Interval.Mem p ⟨3, true, 5, true⟩) :=
  ⟨by decide, remove_covers _ _ (by decide)⟩

/-! ## Covering of one interval by another -/

theorem within_refl {a : Interval} (h : a.IsEmpty = false) : Within a a :=
  ⟨h, Or.inr ⟨rfl, fun h => h⟩, Or.inr ⟨rfl, fun h => h⟩⟩

theorem within_trans {a b c : Interval} (h1 : Within a b) (h2 : Within b c) : Within a c := by
  obtain ⟨ha, h1b, h1e⟩ := h1
  obtain ⟨_, h2b, h2e⟩ := h2
  refine ⟨ha, ?_, ?_⟩
  · rcases h1b with h | ⟨h, h'⟩ <;> rcases h2b with k | ⟨k, k'⟩
    · left; omega
    · left; omega
    · left; omega
    · right; exact ⟨by omega, fun hh => k' (h' hh)⟩
  · rcases h1e with h | ⟨h, h'⟩ <;> rcases h2e with k | ⟨k, k'⟩
    · left; omega
    · left; omega
    · left; omega
    · right; exact ⟨by omega, fun hh => k' (h' hh)⟩

theorem within_nonempty {a b : Interval} (h : Within a b) : b.IsEmpty = false := by
  obtain ⟨ha, hb, he⟩ := h
  rw [Interval.isEmpty_eq_false_iff] at ha ⊢
  rcases a with ⟨ab, aib, ae, aie⟩
  rcases b with ⟨bb, bib, be, bie⟩
  simp only at *
  cases aib <;> cases aie <;> cases bib <;> cases bie <;> simp_all <;> omega

theorem adjoin_eq_of_ltBeginOf {a y : Interval} (h : a.LtBeginOf y = true)
    (hne : (a.Adjoin y).IsEmpty = false) :
    a.Adjoin y = ⟨a.Begin, a.IncBegin, y.End, y.IncEnd⟩ ∧
      a.End = y.Begin ∧ (a.IncEnd = true ∨ y.IncBegin = true) := by
  have hadj : a.End = y.Begin ∧ (a.IncEnd = true ∨ y.IncBegin = true) := by
    by_contra hc
    have := (adjoin_isEmpty_of_ltBeginOf h).2 hc
    rw [hne] at this
    exact absurd this (by decide)
  refine ⟨?_, hadj⟩
  rw [Interval.ltBeginOf_iff] at h
  obtain ⟨hy, ha, hlt⟩ := h
  have ha2 := (Interval.isEmpty_eq_false_iff a).1 ha
  have hy2 := (Interval.isEmpty_eq_false_iff y).1 hy
  unfold Interval.Adjoin
  simp only [ha, hy, Bool.or_self, Bool.false_eq_true, if_false]
  have h1 : ¬ (a.Begin = y.End ∧ (a.IncBegin || y.IncEnd) = true) := by
    rcases a with ⟨ab, aib, ae, aie⟩
    rcases y with ⟨yb, yib, ye, yie⟩
    simp only at *
    cases aib <;> cases aie <;> cases yib <;> cases yie <;> simp_all <;> omega
  rw [if_neg h1, if_pos (by simpa using hadj)]

theorem separated_congr_left {a z b : Interval} (h : Separated a b) (hz : z.IsEmpty = false)
    (he : z.End = a.End) (hi : z.IncEnd = a.IncEnd) : Separated z b := by
  rw [separated_iff] at *
  obtain ⟨_, hb, h⟩ := h
  exact ⟨hz, hb, by rw [he, hi]; exact h⟩

theorem separated_congr_right {c a z : Interval} (h : Separated c a) (hz : z.IsEmpty = false)
    (hb : z.Begin = a.Begin) (hi : z.IncBegin = a.IncBegin) : Separated c z := by
  rw [separated_iff] at *
  obtain ⟨hc, _, h⟩ := h
  exact ⟨hc, hz, by rw [hb, hi]; exact h⟩

theorem ltBeginOf_congr_left {a z b : Interval} (h : a.LtBeginOf b = true)
    (hz : z.IsEmpty = false) (he : z.End = a.End) (hi : z.IncEnd = a.IncEnd) :
    z.LtBeginOf b = true := by
  rw [Interval.ltBeginOf_iff] at *
  obtain ⟨hb, _, h⟩ := h
  exact ⟨hb, hz, by rw [he, hi]; exact h⟩

theorem ltBeginOf_congr_right {c a z : Interval} (h : c.LtBeginOf a = true)
    (hz : z.IsEmpty = false) (hb : z.Begin = a.Begin) (hi : z.IncBegin = a.IncBegin) :
    c.LtBeginOf z = true := by
  rw [Interval.ltBeginOf_iff] at *
  obtain ⟨_, hc, h⟩ := h
  exact ⟨hz, hc, by rw [hb, hi]; exact h⟩

theorem ltBeginOf_of_separated_within {a b x : Interval} (h : Separated a b) (hx : Within x b) :
    a.LtBeginOf x = true :=
  (separated_of_within_right h hx).1

theorem not_ltBeginOf_of_within {b x : Interval} (hx : Within x b) : b.LtBeginOf x = false := by
  have hb := within_nonempty hx
  obtain ⟨hxe, h1, h2⟩ := hx
  rw [not_ltBeginOf_iff hb hxe]
  rw [Interval.isEmpty_eq_false_iff] at hxe
  rcases b with ⟨bb, bib, be, bie⟩
  rcases x with ⟨xb, xib, xe, xie⟩
  simp only at *
  cases bie <;> cases xib <;> cases xie <;> simp_all <;> omega

theorem contains_of_within {b x : Interval} (hx : Within x b) : b.Contains x = true := by
  have hb := within_nonempty hx
  obtain ⟨hxe, h1, h2⟩ := hx
  unfold Interval.Contains
  simp only [hxe, hb, Bool.false_eq_true, if_false]
  rcases b with ⟨bb, bib, be, bie⟩
  rcases x with ⟨xb, xib, xe, xie⟩
  simp only at *
  have g1 : ¬ bb > xb := by omega
  have g2 : ¬ be < xe := by omega
  rw [if_neg g1, if_neg g2]
  rcases h1 with h1 | ⟨h1, h1'⟩ <;> rcases h2 with h2 | ⟨h2, h2'⟩
  · rw [if_pos ⟨h1, h2⟩]
  · rw [if_neg (by omega), if_neg (by omega)]
    cases bie <;> cases xie <;> simp_all
  · rw [if_neg (by omega)]
    subst h1
    cases bib <;> cases xib <;> simp_all
  · rw [if_neg (by omega)]
    subst h1 h2
    cases bib <;> cases xib <;> cases bie <;> cases xie <;> simp_all

/-! ## Pushing an interval onto a well-formed sequence -/

theorem adjoinOrAppend_cases (l : List Interval) (y : Interval) :
    (adjoinOrAppend l y = l ++ [y] ∧ ∀ a ∈ l.getLast?, (a.Adjoin y).IsEmpty = true) ∨
    (∃ p a, l = p ++ [a] ∧ (a.Adjoin y).IsEmpty = false ∧
      adjoinOrAppend l y = p ++ [a.Adjoin y]) := by
  unfold adjoinOrAppend
  rcases List.eq_nil_or_concat l with rfl | ⟨p, a, rfl⟩
  · left
    simp
  · rw [List.concat_eq_append, List.getLast?_concat]
    simp only [List.dropLast_concat]
    cases h : (a.Adjoin y).IsEmpty
    · right
      exact ⟨p, a, rfl, h, by simp⟩
    · left
      simp [h]

theorem pairwise_or_getLast {l : List Interval} (hp : l.Pairwise Separated) {g a : Interval}
    (hg : g ∈ l.getLast?) (ha : a ∈ l) : a = g ∨ Separated a g := by
  obtain ⟨t, rfl⟩ := List.getLast?_eq_some_iff.1 hg
  rcases List.mem_append.1 ha with h | h
  · right
    rw [List.pairwise_append] at hp
    exact hp.2.2 a h g (by simp)
  · left
    simpa using h

/-- What a `push` (Go `adjoinOrAppend`) does to a well-formed sequence whose
last interval lies before `y`. -/
theorem push_spec {l : List Interval} {y : Interval} (hne : ∀ i ∈ l, i.IsEmpty = false)
    (hp : l.Pairwise Separated) (hy : y.IsEmpty = false)
    (hlt : ∀ a ∈ l.getLast?, a.LtBeginOf y = true) :
    ∃ p z, adjoinOrAppend l y = p ++ [z] ∧ (p ++ [z]).Pairwise Separated ∧
      (∀ i ∈ p, i ∈ l) ∧ z.IsEmpty = false ∧ z.End = y.End ∧ z.IncEnd = y.IncEnd ∧
      Within y z ∧ (∀ a ∈ l, ∃ b ∈ p ++ [z], Within a b) ∧
      (∀ a ∈ l.getLast?, a.End = y.Begin → (a.IncEnd = true ∨ y.IncBegin = true) →
        z = ⟨a.Begin, a.IncBegin, y.End, y.IncEnd⟩) := by
  rcases adjoinOrAppend_cases l y with ⟨heq, hemp⟩ | ⟨p, a, rfl, hnemp, heq⟩
  · refine ⟨l, y, heq, ?_, fun i hi => hi, hy, rfl, rfl, within_refl hy, ?_, ?_⟩
    · rw [List.pairwise_append]
      refine ⟨hp, List.pairwise_singleton _ _, ?_⟩
      intro a ha b hb
      rw [List.mem_singleton] at hb
      subst hb
      cases hg : l.getLast? with
      | none =>
        rw [List.getLast?_eq_none_iff] at hg
        subst hg
        simp at ha
      | some g =>
        have hgy : Separated g b := ⟨hlt g hg, hemp g hg⟩
        rcases pairwise_or_getLast hp hg ha with rfl | hs
        · exact hgy
        · exact separated_trans hs hgy
    · intro a ha
      exact ⟨a, List.mem_append_left _ ha, within_refl (hne a ha)⟩
    · intro a ha h1 h2
      exfalso
      have := (adjoin_isEmpty_of_ltBeginOf (hlt a ha)).1 (hemp a ha)
      exact this ⟨h1, h2⟩
  · have halt : a.LtBeginOf y = true := hlt a (by simp [List.getLast?_concat])
    obtain ⟨hz, hae, hai⟩ := adjoin_eq_of_ltBeginOf halt hnemp
    have hane : a.IsEmpty = false := hne a (by simp)
    rw [hz] at heq hnemp
    have hwa : Within a ⟨a.Begin, a.IncBegin, y.End, y.IncEnd⟩ := by
      refine ⟨hane, Or.inr ⟨rfl, fun h => h⟩, ?_⟩
      rw [Interval.isEmpty_eq_false_iff] at hy
      simp only
      rcases y with ⟨yb, yib, ye, yie⟩
      simp only at *
      cases yib <;> cases yie <;> simp_all
    have hwy : Within y ⟨a.Begin, a.IncBegin, y.End, y.IncEnd⟩ := by
      refine ⟨hy, ?_, Or.inr ⟨rfl, fun h => h⟩⟩
      rw [Interval.isEmpty_eq_false_iff] at hane
      simp only
      rcases a with ⟨ab, aib, ae, aie⟩
      simp only at *
      cases aib <;> cases aie <;> simp_all
    refine ⟨p, _, heq, ?_, fun i hi => List.mem_append_left _ hi, hnemp, rfl, rfl, hwy, ?_, ?_⟩
    · rw [List.pairwise_append] at hp ⊢
      refine ⟨hp.1, List.pairwise_singleton _ _, ?_⟩
      intro c hc b hb
      rw [List.mem_singleton] at hb
      subst hb
      exact separated_congr_right (hp.2.2 c hc a (by simp)) hnemp rfl rfl
    · intro c hc
      rcases List.mem_append.1 hc with hc | hc
      · exact ⟨c, List.mem_append_left _ hc, within_refl (hne c (List.mem_append_left _ hc))⟩
      · rw [List.mem_singleton] at hc
        subst hc
        exact ⟨_, by simp, hwa⟩
    · intro a' ha' _ _
      rw [List.getLast?_concat] at ha'
      cases ha'
      rfl

theorem pairwise_append_tail {p : List Interval} {z sl : Interval} {tl : List Interval}
    (hpz : (p ++ [z]).Pairwise Separated) (hst : (sl :: tl).Pairwise Separated)
    (hz : z.IsEmpty = false) (he : z.End = sl.End) (hi : z.IncEnd = sl.IncEnd) :
    (p ++ [z] ++ tl).Pairwise Separated := by
  rw [List.pairwise_cons] at hst
  rw [List.pairwise_append]
  refine ⟨hpz, hst.2, ?_⟩
  intro a ha b hb
  have hzb : Separated z b := separated_congr_left (hst.1 b hb) hz he hi
  rcases List.mem_append.1 ha with ha | ha
  · rw [List.pairwise_append] at hpz
    exact separated_trans (hpz.2.2 a ha z (by simp)) hzb
  · rw [List.mem_singleton] at ha
    subst ha
    exact hzb

/-! ## Encompass as a hull -/

theorem encompass_fields {i x : Interval} (hi : i.IsEmpty = false) (hx : x.IsEmpty = false) :
    ((i.Begin < x.Begin ∧ (i.Encompass x).Begin = i.Begin ∧
        (i.Encompass x).IncBegin = i.IncBegin) ∨
     (i.Begin = x.Begin ∧ (i.Encompass x).Begin = x.Begin ∧
        (i.Encompass x).IncBegin = (i.IncBegin || x.IncBegin)) ∨
     (x.Begin < i.Begin ∧ (i.Encompass x).Begin = x.Begin ∧
        (i.Encompass x).IncBegin = x.IncBegin)) ∧
    ((i.End < x.End ∧ (i.Encompass x).End = x.End ∧ (i.Encompass x).IncEnd = x.IncEnd) ∨
     (i.End = x.End ∧ (i.Encompass x).End = x.End ∧
        (i.Encompass x).IncEnd = (i.IncEnd || x.IncEnd)) ∨
     (x.End < i.End ∧ (i.Encompass x).End = i.End ∧ (i.Encompass x).IncEnd = i.IncEnd)) := by
  unfold Interval.Encompass
  simp only [hi, hx, Bool.false_eq_true, if_false]
  clear hi hx
  rcases i with ⟨ib, iib, ie, iie⟩
  rcases x with ⟨xb, xib, xe, xie⟩
  simp only
  constructor
  · cases iib <;> cases xib <;> split_ifs <;> simp_all <;> omega
  · cases iie <;> cases xie <;> split_ifs <;> simp_all <;> omega

theorem encompass_within {i x : Interval} (hi : i.IsEmpty = false) (hx : x.IsEmpty = false) :
    Within i (i.Encompass x) ∧ Within x (i.Encompass x) := by
  obtain ⟨hb, he⟩ := encompass_fields hi hx
  refine ⟨⟨hi, ?_, ?_⟩, ⟨hx, ?_, ?_⟩⟩
  · rcases hb with ⟨h1, h2, h3⟩ | ⟨h1, h2, h3⟩ | ⟨h1, h2, h3⟩
    · right; exact ⟨h2, fun h => by rw [h3]; exact h⟩
    · right; exact ⟨by omega, fun h => by rw [h3, h]; rfl⟩
    · left; omega
  · rcases he with ⟨h1, h2, h3⟩ | ⟨h1, h2, h3⟩ | ⟨h1, h2, h3⟩
    · left; omega
    · right; exact ⟨by omega, fun h => by rw [h3, h]; rfl⟩
    · right; exact ⟨h2.symm, fun h => by rw [h3]; exact h⟩
  · rcases hb with ⟨h1, h2, h3⟩ | ⟨h1, h2, h3⟩ | ⟨h1, h2, h3⟩
    · left; omega
    · right; exact ⟨h2, fun h => by rw [h3, h]; simp⟩
    · right; exact ⟨h2, fun h => by rw [h3]; exact h⟩
  · rcases he with ⟨h1, h2, h3⟩ | ⟨h1, h2, h3⟩ | ⟨h1, h2, h3⟩
    · right; exact ⟨h2.symm, fun h => by rw [h3]; exact h⟩
    · right; exact ⟨h2.symm, fun h => by rw [h3, h]; simp⟩
    · left; omega

theorem ltBeginOf_encompass {a i x : Interval} (h1 : a.LtBeginOf i = true)
    (h2 : a.LtBeginOf x = true) : a.LtBeginOf (i.Encompass x) = true := by
  have hi : i.IsEmpty = false := ((Interval.ltBeginOf_iff _ _).1 h1).1
  have hx : x.IsEmpty = false := ((Interval.ltBeginOf_iff _ _).1 h2).1
  obtain ⟨hb, _⟩ := encompass_fields hi hx
  have hne := within_nonempty (encompass_within hi hx).1
  rcases hb with ⟨_, h4, h5⟩ | ⟨_, h4, h5⟩ | ⟨_, h4, h5⟩
  · exact ltBeginOf_congr_right h1 hne h4 h5
  · rw [Interval.ltBeginOf_iff] at h1 h2 ⊢
    refine ⟨hne, h1.2.1, ?_⟩
    rw [h4, h5]
    obtain ⟨_, _, h1⟩ := h1
    obtain ⟨_, _, h2⟩ := h2
    cases hA : a.IncEnd <;> cases hB : i.IncBegin <;> cases hC : x.IncBegin <;> simp_all
  · exact ltBeginOf_congr_right h2 hne h4 h5

theorem encompass_ltBeginOf {i x b : Interval} (h1 : i.LtBeginOf b = true)
    (h2 : x.LtBeginOf b = true) : (i.Encompass x).LtBeginOf b = true := by
  have hi : i.IsEmpty = false := ((Interval.ltBeginOf_iff _ _).1 h1).2.1
  have hx : x.IsEmpty = false := ((Interval.ltBeginOf_iff _ _).1 h2).2.1
  obtain ⟨_, he⟩ := encompass_fields hi hx
  have hne := within_nonempty (encompass_within hi hx).1
  rcases he with ⟨_, h4, h5⟩ | ⟨_, h4, h5⟩ | ⟨_, h4, h5⟩
  · exact ltBeginOf_congr_left h2 hne h4 h5
  · rw [Interval.ltBeginOf_iff] at h1 h2 ⊢
    refine ⟨h1.1, hne, ?_⟩
    rw [h4, h5]
    obtain ⟨_, _, h1⟩ := h1
    obtain ⟨_, _, h2⟩ := h2
    cases hA : b.IncBegin <;> cases hB : i.IncEnd <;> cases hC : x.IncEnd <;> simp_all
  · exact ltBeginOf_congr_left h1 hne h4 h5

/-! ## Two pushes in a row, and Contains of a set -/

theorem push_single {pre : List Interval} {y : Interval} (hne : ∀ i ∈ pre, i.IsEmpty = false)
    (hp : pre.Pairwise Separated) (hy : y.IsEmpty = false)
    (hlt : ∀ a ∈ pre.getLast?, a.LtBeginOf y = true) :
    (∀ i ∈ adjoinOrAppend pre y, i.IsEmpty = false) ∧
    (adjoinOrAppend pre y).Pairwise Separated ∧
    (∃ b ∈ adjoinOrAppend pre y, Within y b) := by
  obtain ⟨p, z, heq, hpw, hsub, hz, _, _, hwy, _, _⟩ := push_spec hne hp hy hlt
  rw [heq]
  refine ⟨?_, hpw, ⟨z, by simp, hwy⟩⟩
  intro i hi
  rcases List.mem_append.1 hi with hi | hi
  · exact hne i (hsub i hi)
  · rw [List.mem_singleton] at hi
    rw [hi]; exact hz

theorem push_push {pre : List Interval} {y s : Interval} {tl : List Interval}
    (hne : ∀ i ∈ pre, i.IsEmpty = false) (hp : pre.Pairwise Separated)
    (hy : y.IsEmpty = false) (hlt : ∀ a ∈ pre.getLast?, a.LtBeginOf y = true)
    (hys : y.LtBeginOf s = true) (hst : (s :: tl).Pairwise Separated)
    (hstne : ∀ i ∈ s :: tl, i.IsEmpty = false) :
    (∀ i ∈ adjoinOrAppend (adjoinOrAppend pre y) s ++ tl, i.IsEmpty = false) ∧
    (adjoinOrAppend (adjoinOrAppend pre y) s ++ tl).Pairwise Separated ∧
    (∃ b ∈ adjoinOrAppend (adjoinOrAppend pre y) s ++ tl, Within y b) ∧
    (y.End = s.Begin → (y.IncEnd = true ∨ s.IncBegin = true) →
      ∃ b ∈ adjoinOrAppend (adjoinOrAppend pre y) s ++ tl, Within y b ∧ Within s b) := by
  obtain ⟨p1, z1, heq1, hpw1, hsub1, hz1, he1, hi1, hwy1, _, _⟩ := push_spec hne hp hy hlt
  have hs : s.IsEmpty = false := hstne s (by simp)
  have hne1 : ∀ i ∈ p1 ++ [z1], i.IsEmpty = false := by
    intro i hi
    rcases List.mem_append.1 hi with hi | hi
    · exact hne i (hsub1 i hi)
    · rw [List.mem_singleton] at hi
      rw [hi]; exact hz1
  have hlt1 : ∀ a ∈ (p1 ++ [z1]).getLast?, a.LtBeginOf s = true := by
    intro a ha
    rw [List.getLast?_concat] at ha
    cases ha
    exact ltBeginOf_congr_left hys hz1 he1 hi1
  obtain ⟨p2, z2, heq2, hpw2, hsub2, hz2, he2, hi2, hws2, hcov2, hmerge2⟩ :=
    push_spec hne1 hpw1 hs hlt1
  rw [heq1, heq2]
  refine ⟨?_, pairwise_append_tail hpw2 hst hz2 he2 hi2, ?_, ?_⟩
  · intro i hi
    rcases List.mem_append.1 hi with hi | hi
    · rcases List.mem_append.1 hi with hi | hi
      · exact hne1 i (hsub2 i hi)
      · rw [List.mem_singleton] at hi
        rw [hi]; exact hz2
    · exact hstne i (List.mem_cons_of_mem _ hi)
  · obtain ⟨b, hb, hwb⟩ := hcov2 z1 (by simp)
    exact ⟨b, List.mem_append_left _ hb, within_trans hwy1 hwb⟩
  · intro h1 h2
    have hz2eq := hmerge2 z1 (by simp [List.getLast?_concat]) (by rw [he1]; exact h1)
      (by rw [hi1]; exact h2)
    refine ⟨z2, by simp, ?_, hws2⟩
    refine within_trans hwy1 ⟨hz1, ?_, ?_⟩
    · rw [hz2eq]
      exact Or.inr ⟨rfl, fun h => h⟩
    · rw [hz2eq]
      simp only
      rw [he1, h1]
      have hs2 := (Interval.isEmpty_eq_false_iff s).1 hs
      rcases s with ⟨sb, sib, se, sie⟩
      simp only at *
      rcases hs2 with hs2 | ⟨hs2, hs3, hs4⟩
      · left; exact hs2
      · right; exact ⟨hs2, fun _ => hs4⟩

theorem set_contains_of_within {r : List Interval} (hp : r.Pairwise Separated) {b x : Interval}
    (hb : b ∈ r) (hw : Within x b) : OrderedSet.Contains ⟨r⟩ x = true := by
  obtain ⟨pre, post, rfl⟩ := List.append_of_mem hb
  rw [List.pairwise_append, List.pairwise_cons] at hp
  have hlow : OrderedSet.searchLow ⟨pre ++ b :: post⟩ x = pre.length := by
    apply searchLow_eq_of_split
    · intro a ha
      exact ltBeginOf_of_separated_within (hp.2.2 a ha b (by simp)) hw
    · intro a ha
      rcases List.mem_cons.1 ha with rfl | ha
      · exact not_ltBeginOf_of_within hw
      · exact not_ltBeginOf_of_separated (hp.2.1.1 a ha) (not_ltBeginOf_of_within hw)
  unfold OrderedSet.Contains
  simp only [hlow]
  rw [if_neg (by simp)]
  have : (pre ++ b :: post).getD pre.length Interval.zero = b := by
    rw [List.getD_eq_getElem?_getD, getElem?_split]
    rfl
  rw [this]
  exact contains_of_within hw

/-! ## Helpers for the branches of Add -/

theorem getD_split (pre : List Interval) (sl : Interval) (rest : List Interval) :
    (pre ++ sl :: rest).getD pre.length Interval.zero = sl := by
  rw [List.getD_eq_getElem?_getD, getElem?_split]
  rfl

theorem bisect_left_only {x sl : Interval} (hov : (x.Intersect sl).IsEmpty = false)
    (hl : (x.Bisect sl).1.IsEmpty = false) (hr : (x.Bisect sl).2.IsEmpty = true) :
    (x.Bisect sl).1.LtBeginOf sl = true ∧
    (x.Bisect sl).1.End = sl.Begin ∧
    ((x.Bisect sl).1.IncEnd = true ∨ sl.IncBegin = true) ∧
    (∀ b, Within (x.Bisect sl).1 b → Within sl b → Within x b) := by
  obtain ⟨hx, hs, _, _⟩ := Interval.intersect_fields hov
  rw [Interval.bisect_of_overlap hov] at hl hr ⊢
  simp only at hl hr ⊢
  rw [Interval.maybeEmpty_isEmpty] at hl hr
  rw [Interval.maybeEmpty_of_nonempty hl]
  rw [Interval.isEmpty_eq_true_iff] at hr
  simp only at hr ⊢
  refine ⟨?_, trivial, ?_, ?_⟩
  · rw [Interval.ltBeginOf_iff]
    refine ⟨hs, hl, ?_⟩
    simp only
    cases sl.IncBegin <;> simp
  · cases sl.IncBegin <;> simp
  · rintro b ⟨_, hb1, _⟩ ⟨_, _, hb2⟩
    refine ⟨hx, hb1, ?_⟩
    simp only at hb1
    rcases b with ⟨bb, bib, be, bie⟩
    rcases x with ⟨xb, xib, xe, xie⟩
    rcases sl with ⟨sb, sib, se, sie⟩
    simp only at *
    cases sie <;> cases xie <;> cases bie <;> simp_all <;> omega

/-! ## The effect of Add -/

theorem getElem?_mid_last (pre t : List Interval) (g : Interval) (post : List Interval) :
    (pre ++ (t ++ [g]) ++ post)[pre.length + (t ++ [g]).length - 1]? = some g := by
  have : pre ++ (t ++ [g]) ++ post = (pre ++ t) ++ g :: post := by simp
  rw [this]
  have e : pre.length + (t ++ [g]).length - 1 = (pre ++ t).length := by simp
  rw [e, getElem?_split]

theorem getElem?_after_mid (pre mid : List Interval) (nx : Interval) (tl : List Interval) :
    (pre ++ mid ++ nx :: tl)[pre.length + mid.length]? = some nx := by
  rw [← List.length_append, getElem?_split]

theorem drop_after_mid (pre mid : List Interval) (nx : Interval) (tl : List Interval) :
    (pre ++ mid ++ nx :: tl).drop (pre.length + mid.length + 1) = tl := by
  rw [← List.length_append, drop_split]

theorem wellFormed_of_pairwise {r : List Interval} (hne : ∀ i ∈ r, i.IsEmpty = false)
    (hp : r.Pairwise Separated) : WellFormed ⟨r⟩ :=
  (wellFormed_iff_pairwise ⟨r⟩).2 ⟨hne, hp⟩

/-- The effect of `Add` on a well-formed set and a non-empty interval: it
returns, the stored sequence is again well-formed, and `Contains` then reports
the added interval. -/
theorem add_spec (l : List Interval) (x : Interval) (hwf : WellFormed ⟨l⟩)
    (hx : x.IsEmpty = false) :
    ∃ r b, OrderedSet.Add ⟨l⟩ x = some (r, b) ∧ WellFormed r ∧ r.Contains x = true := by
  have hwf0 := hwf
  rw [wellFormed_iff_pairwise] at hwf
  obtain ⟨hne, hp⟩ := hwf
  simp only at hne hp
  obtain ⟨pre, mid, post, rfl, h1, h2, h3⟩ := split3 l x hp
  have hlow := searchLow_split3 pre mid post x h1 h2 h3
  have hhigh := searchHigh_split3 pre mid post x h1 h2 h3
  have hpre_ne : ∀ i ∈ pre, i.IsEmpty = false := fun i hi => hne i (by simp [hi])
  have hpre_p : pre.Pairwise Separated := by
    rw [List.pairwise_append, List.pairwise_append] at hp
    exact hp.1.1
  have hlt : ∀ a ∈ pre.getLast?, a.LtBeginOf x = true :=
    fun a ha => h1 a (List.mem_of_getLast?_eq_some ha)
  have hunch : ∀ sl rest, pre ++ mid ++ post = pre ++ sl :: rest → sl.Contains x = true →
      OrderedSet.Contains ⟨pre ++ mid ++ post⟩ x = true := by
    intro sl rest he hc
    unfold OrderedSet.Contains
    simp only [hlow]
    rw [he, if_neg (by simp), getD_split]
    exact hc
  unfold OrderedSet.Add
  simp only [hx, Bool.false_eq_true, if_false, hlow, hhigh]
  cases mid with
  | nil =>
    cases post with
    | nil =>
      simp only [List.append_nil, if_true]
      obtain ⟨hn, hpw, b, hb, hw⟩ := push_single hpre_ne hpre_p hx hlt
      exact ⟨_, _, rfl, wellFormed_of_pairwise hn hpw, set_contains_of_within hpw hb hw⟩
    | cons sl tl =>
      simp only [List.append_nil] at hp hne hunch hwf0 ⊢
      rw [if_neg (by simp), getElem?_split]
      simp only
      by_cases hc : sl.Contains x = true
      · rw [if_pos hc]
        exact ⟨_, _, rfl, hwf0, hunch sl tl rfl hc⟩
      · rw [if_neg hc, if_pos (h3 sl (by simp)), take_split, drop_split]
        have hst : (sl :: tl).Pairwise Separated := by
          rw [List.pairwise_append] at hp
          exact hp.2.1
        obtain ⟨hn, hpw, ⟨b, hb, hw⟩, _⟩ := push_push hpre_ne hpre_p hx hlt (h3 sl (by simp)) hst
          (fun i hi => hne i (List.mem_append_right _ hi))
        exact ⟨_, _, rfl, wellFormed_of_pairwise hn hpw, set_contains_of_within hpw hb hw⟩
  | cons sl mid' =>
    have hsl := h2 sl (List.mem_cons_self _ _)
    have hsle : sl.IsEmpty = false := hne sl (by simp)
    have hov : (x.Intersect sl).IsEmpty = false :=
      overlap_of_not_ltBeginOf hx hsle hsl.2 hsl.1
    have hl0 : pre ++ sl :: mid' ++ post = pre ++ sl :: (mid' ++ post) := by simp
    have hst : (sl :: (mid' ++ post)).Pairwise Separated := by
      rw [hl0, List.pairwise_append] at hp
      exact hp.2.1
    have hstne : ∀ i ∈ sl :: (mid' ++ post), i.IsEmpty = false := by
      intro i hi
      exact hne i (by rw [hl0]; exact List.mem_append_right _ hi)
    rw [if_neg (by simp)]
    have hget : (pre ++ sl :: mid' ++ post)[pre.length]? = some sl := by
      rw [hl0]; exact getElem?_split _ _ _
    rw [hget]
    simp only
    by_cases hc : sl.Contains x = true
    · rw [if_pos hc]
      exact ⟨_, _, rfl, hwf0, hunch sl (mid' ++ post) hl0 hc⟩
    · rw [if_neg hc, if_neg (by rw [hsl.2]; decide)]
      have htake : (pre ++ sl :: mid' ++ post).take pre.length = pre := by
        rw [hl0]; exact take_split _ _
      rw [htake]
      by_cases hlr : ((!(x.Bisect sl).1.IsEmpty) && (x.Bisect sl).2.IsEmpty) = true
      · -- only a part of `x` before `sl` is new
        rw [if_pos hlr]
        simp only [Bool.and_eq_true, Bool.not_eq_true'] at hlr
        obtain ⟨hlt1, hle1, hli1, hwx⟩ := bisect_left_only hov hlr.1 hlr.2
        have hdrop : (pre ++ sl :: mid' ++ post).drop (pre.length + 1) = mid' ++ post := by
          rw [hl0]; exact drop_split _ _ _
        rw [hdrop]
        have hlt2 : ∀ a ∈ pre.getLast?, a.LtBeginOf (x.Bisect sl).1 = true := by
          intro a ha
          have hax := hlt a ha
          have hw := bisect_fst_within hlr.1
          rw [Interval.bisect_of_overlap hov] at hw ⊢
          simp only at hw ⊢
          have hne1 := hw.1
          rw [Interval.maybeEmpty_isEmpty] at hne1
          rw [Interval.maybeEmpty_of_nonempty hne1] at hw ⊢
          exact ltBeginOf_congr_right hax hne1 rfl rfl
        obtain ⟨hn, hpw, _, hmerge⟩ :=
          push_push hpre_ne hpre_p hlr.1 hlt2 hlt1 hst hstne
        obtain ⟨b, hb, hwl, hws⟩ := hmerge hle1 hli1
        exact ⟨_, _, rfl, wellFormed_of_pairwise hn hpw,
          set_contains_of_within hpw hb (hwx b hwl hws)⟩
      · -- `x` is merged with the whole run it touches
        rw [if_neg hlr, if_neg (by simp)]
        obtain ⟨t, g, ht⟩ : ∃ t g, sl :: mid' = t ++ [g] :=
          ⟨(sl :: mid').dropLast, (sl :: mid').getLast (by simp),
            (List.dropLast_concat_getLast (by simp)).symm⟩
        have hgmem : g ∈ sl :: mid' := by rw [ht]; simp
        have hge : g.IsEmpty = false :=
          hne g (List.mem_append_left _ (List.mem_append_right _ hgmem))
        have hx1 : (x.Encompass sl).IsEmpty = false :=
          within_nonempty (encompass_within hx hsle).1
        have hwx2 : Within x ((x.Encompass sl).Encompass g) :=
          within_trans (encompass_within hx hsle).1 (encompass_within hx1 hge).1
        have hx2 := within_nonempty hwx2
        have hpm : ∀ a ∈ pre, ∀ m ∈ sl :: mid', Separated a m := by
          intro a ha m hm
          rw [List.pairwise_append, List.pairwise_append] at hp
          exact hp.1.2.2 a ha m hm
        have hmp : ∀ m ∈ sl :: mid', ∀ b ∈ post, Separated m b := by
          intro m hm b hb
          rw [List.pairwise_append] at hp
          exact hp.2.2 m (List.mem_append_right _ hm) b hb
        have hlt2 : ∀ a ∈ pre.getLast?, a.LtBeginOf ((x.Encompass sl).Encompass g) = true := by
          intro a ha
          have ham := List.mem_of_getLast?_eq_some ha
          exact ltBeginOf_encompass
            (ltBeginOf_encompass (h1 a ham) (hpm a ham sl (by simp)).1) (hpm a ham g hgmem).1
        rw [ht, getElem?_mid_last]
        simp only
        cases post with
        | nil =>
          have hnone : (pre ++ (t ++ [g]) ++ [])[pre.length + (t ++ [g]).length]? = none := by
            rw [List.getElem?_eq_none_iff]
            simp
          rw [hnone]
          simp only
          obtain ⟨hn, hpw, b, hb, hw⟩ := push_single hpre_ne hpre_p hx2 hlt2
          exact ⟨_, _, rfl, wellFormed_of_pairwise hn hpw,
            set_contains_of_within hpw hb (within_trans hwx2 hw)⟩
        | cons nx tl =>
          rw [getElem?_after_mid, drop_after_mid]
          simp only
          have hnx : ((x.Encompass sl).Encompass g).LtBeginOf nx = true :=
            encompass_ltBeginOf
              (encompass_ltBeginOf (h3 nx (by simp)) (hmp sl (by simp) nx (by simp)).1)
              (hmp g hgmem nx (by simp)).1
          have hst2 : (nx :: tl).Pairwise Separated := by
            rw [List.pairwise_append] at hp
            exact hp.2.1
          obtain ⟨hn, hpw, ⟨b, hb, hw⟩, _⟩ := push_push hpre_ne hpre_p hx2 hlt2 hnx hst2
            (fun i hi => hne i (List.mem_append_right _ hi))
          exact ⟨_, _, rfl, wellFormed_of_pairwise hn hpw,
            set_contains_of_within hpw hb (within_trans hwx2 hw)⟩

/-- C1: `Add` preserves the invariants of an ordered set: for every well-formed
set `s` and every interval `x`, empty or not, `s.Add(x)` returns and the
sequence stored afterwards is again well-formed. -/
theorem add_wellFormed (s : OrderedSet) (x : Interval) (h : WellFormed s) :
    ∃ r b, s.Add x = some (r, b) ∧ WellFormed r := by
  cases hx : x.IsEmpty
  · obtain ⟨l⟩ := s
    obtain ⟨r, b, h1, h2, _⟩ := add_spec l x h hx
    exact ⟨r, b, h1, h2⟩
  · refine ⟨s, false, ?_, h⟩
    unfold OrderedSet.Add
    simp [hx]

theorem add_wellFormed_witness :
    WellFormed ⟨[⟨0, true, 3, true⟩, ⟨5, true, 8, true⟩]⟩ ∧
    ∃ r b, OrderedSet.Add ⟨[⟨0, true, 3, true⟩, ⟨5, true, 8, true⟩]⟩ ⟨3, true, 5, true⟩
        = some (r, b) ∧ WellFormed r :=
  ⟨by decide, add_wellFormed _ _ (by decide)⟩

/-- C6: `Add(x)` followed by `Contains(x)` is true: for every well-formed set
`s` and every non-empty interval `x`, `s.Add(x)` returns and `Contains(x)` on
the set it leaves returns true. -/
theorem add_then_contains (s : OrderedSet) (x : Interval) (h : WellFormed s)
    (hx : x.IsEmpty = false) :
    ∃ r b, s.Add x = some (r, b) ∧ r.Contains x = true := by
  obtain ⟨l⟩ := s
  obtain ⟨r, b, h1, _, h3⟩ := add_spec l x h hx
  exact ⟨r, b, h1, h3⟩

theorem add_then_contains_witness :
    WellFormed ⟨[⟨0, true, 3, true⟩, ⟨5, true, 8, true⟩]⟩ ∧
    Interval.IsEmpty ⟨3, true, 5, true⟩ = false ∧
    ∃ r b, OrderedSet.Add ⟨[⟨0, true, 3, true⟩, ⟨5, true, 8, true⟩]⟩ ⟨3, true, 5, true⟩
        = some (r, b) ∧ r.Contains ⟨3, true, 5, true⟩ = true :=
  ⟨by decide, by decide, add_then_contains _ _ (by decide) (by decide)⟩

/-! ## Ordering of ascending sequences -/

theorem ltBeginOf_trans {a b c : Interval} (h1 : a.LtBeginOf b = true)
    (h2 : b.LtBeginOf c = true) : a.LtBeginOf c = true := by
  rw [Interval.ltBeginOf_iff] at *
  obtain ⟨hb, ha, h1⟩ := h1
  obtain ⟨hc, _, h2⟩ := h2
  refine ⟨hc, ha, ?_⟩
  rw [Interval.isEmpty_eq_false_iff] at hb
  rcases a with ⟨ab, aib, ae, aie⟩
  rcases b with ⟨bb, bib, be, bie⟩
  rcases c with ⟨cb, cib, ce, cie⟩
  simp only at *
  cases aie <;> cases bib <;> cases bie <;> cases cib <;> simp_all <;> omega

theorem after_of_ltBeginOf {y j : Interval} {p : Int} (h : y.LtBeginOf j = true)
    (hm : Interval.Mem p j) : y.End < p ∨ (p = y.End ∧ y.IncEnd = false) := by
  rw [Interval.ltBeginOf_iff] at h
  obtain ⟨_, _, h⟩ := h
  unfold Interval.Mem at hm
  rcases y with ⟨yb, yib, ye, yie⟩
  rcases j with ⟨jb, jib, je, jie⟩
  simp only at *
  cases yie <;> cases jib <;> simp_all <;> omega

theorem ltBeginOf_of_within_left {a q z : Interval} (h : a.LtBeginOf q = true)
    (hz : Within z a) : z.LtBeginOf q = true := by
  rw [Interval.ltBeginOf_iff] at *
  obtain ⟨hq, _, h⟩ := h
  obtain ⟨hz1, _, hz3⟩ := hz
  refine ⟨hq, hz1, ?_⟩
  rcases q with ⟨qb, qib, qe, qie⟩
  rcases a with ⟨ab, aib, ae, aie⟩
  rcases z with ⟨zb, zib, ze, zie⟩
  simp only at *
  cases aie <;> cases zie <;> cases qib <;> simp_all <;> omega

theorem ltBeginOf_bisect_snd {x y : Interval} (hov : (x.Intersect y).IsEmpty = false)
    (hr : (x.Bisect y).2.IsEmpty = false) : y.LtBeginOf (x.Bisect y).2 = true := by
  obtain ⟨_, hy, _, _⟩ := Interval.intersect_fields hov
  rw [Interval.bisect_of_overlap hov] at hr ⊢
  simp only at hr ⊢
  rw [Interval.maybeEmpty_isEmpty] at hr
  rw [Interval.maybeEmpty_of_nonempty hr, Interval.ltBeginOf_iff]
  refine ⟨hr, hy, Or.inr ⟨rfl, ?_⟩⟩
  simp only
  cases y.IncEnd <;> simp

theorem ascending_tail {x : Interval} {xs : List Interval} (h : Ascending (x :: xs)) :
    Ascending xs :=
  ⟨(List.pairwise_cons.1 h.1).2, fun i hi => h.2 i (List.mem_cons_of_mem _ hi)⟩

theorem ascending_of_pairwise_separated {l : List Interval} (hne : ∀ i ∈ l, i.IsEmpty = false)
    (hp : l.Pairwise Separated) : Ascending l :=
  ⟨hp.imp (fun h => h.1), hne⟩

theorem not_covers_of_ltBeginOf {x y : Interval} {ys : List Interval} {p : Int}
    (hxy : x.LtBeginOf y = true) (hY : Ascending (y :: ys)) (hm : Interval.Mem p x) :
    ¬ ∃ j ∈ y :: ys, Interval.Mem p j := by
  rintro ⟨j, hj, hmj⟩
  rcases List.mem_cons.1 hj with rfl | hj
  · exact not_mem_of_ltBeginOf hxy p hm hmj
  · have := (List.pairwise_cons.1 hY.1).1 j hj
    exact not_mem_of_ltBeginOf (ltBeginOf_trans hxy this) p hm hmj

/-! ## The sweep of Intersect -/

theorem intersectLoop_step (fuel : Nat) (x : Interval) (xit : List Interval) (y : Interval)
    (yit acc : List Interval) :
    intersectLoop (fuel + 1) x xit y yit acc =
      if (!x.IsEmpty && !y.IsEmpty) = true then
        if x.LtBeginOf y = true then intersectLoop fuel (next xit).1 (next xit).2 y yit acc
        else if y.LtBeginOf x = true then
          intersectLoop fuel x xit (next yit).1 (next yit).2 acc
        else
          if (!(x.Intersect y).IsEmpty) = true then
            if (!(x.Bisect y).2.IsEmpty) = true then
              intersectLoop fuel (x.Bisect y).2 xit y yit (acc ++ [x.Intersect y])
            else intersectLoop fuel (next xit).1 (next xit).2 y yit (acc ++ [x.Intersect y])
          else intersectLoop fuel x xit y yit acc
      else some acc := by
  rfl

/-- The sweep of `Intersect` over two ascending sequences ends within
`2 * (|X| + |Y|) + 1` iterations and appends exactly the common points. -/
theorem intersectLoop_spec : ∀ (n : Nat) (X Y acc : List Interval) (fuel : Nat),
    X.length + Y.length ≤ n → 2 * n + 1 ≤ fuel → Ascending X → Ascending Y →
    ∃ res, intersectLoop fuel (next X).1 (next X).2 (next Y).1 (next Y).2 acc
        = some (acc ++ res) ∧
      ∀ p : Int, (∃ i ∈ res, Interval.Mem p i) ↔
        ((∃ i ∈ X, Interval.Mem p i) ∧ (∃ j ∈ Y, Interval.Mem p j)) := by
  intro n
  induction n with
  | zero =>
    intro X Y acc fuel hlen hfuel _ _
    have hX : X = [] := List.eq_nil_of_length_eq_zero (by omega)
    subst hX
    obtain ⟨f, rfl⟩ : ∃ f, fuel = f + 1 := ⟨fuel - 1, by omega⟩
    refine ⟨[], ?_, ?_⟩
    · rw [intersectLoop_step]
      simp [next, Interval.zero_isEmpty]
    · intro p; simp
  | succ n ih =>
    intro X Y acc fuel hlen hfuel hX hY
    obtain ⟨f, rfl⟩ : ∃ f, fuel = f + 1 := ⟨fuel - 1, by omega⟩
    cases X with
    | nil =>
      refine ⟨[], ?_, ?_⟩
      · rw [intersectLoop_step]
        simp [next, Interval.zero_isEmpty]
      · intro p; simp
    | cons x xs =>
      cases Y with
      | nil =>
        refine ⟨[], ?_, ?_⟩
        · rw [intersectLoop_step]
          simp [next, Interval.zero_isEmpty]
        · intro p; simp
      | cons y ys =>
        have hxe : x.IsEmpty = false := hX.2 x (by simp)
        have hye : y.IsEmpty = false := hY.2 y (by simp)
        simp only [List.length_cons] at hlen
        change ∃ res, intersectLoop (f + 1) x xs y ys acc = some (acc ++ res) ∧ _
        rw [intersectLoop_step]
        simp only [hxe, hye, Bool.not_false, Bool.and_self, if_true]
        by_cases hxy : x.LtBeginOf y = true
        · -- `x` lies before `y`: advance `x`
          rw [if_pos hxy]
          obtain ⟨res, hres, hcov⟩ :=
            ih xs (y :: ys) acc f (by simp; omega) (by omega) (ascending_tail hX) hY
          refine ⟨res, hres, ?_⟩
          intro p
          rw [hcov p]
          constructor
          · rintro ⟨⟨i, hi, hm⟩, h2⟩
            exact ⟨⟨i, List.mem_cons_of_mem _ hi, hm⟩, h2⟩
          · rintro ⟨⟨i, hi, hm⟩, h2⟩
            rcases List.mem_cons.1 hi with rfl | hi
            · exact absurd h2 (not_covers_of_ltBeginOf hxy hY hm)
            · exact ⟨⟨i, hi, hm⟩, h2⟩
        · rw [if_neg hxy]
          by_cases hyx : y.LtBeginOf x = true
          · -- `y` lies before `x`: advance `y`
            rw [if_pos hyx]
            obtain ⟨res, hres, hcov⟩ :=
              ih (x :: xs) ys acc f (by simp; omega) (by omega) hX (ascending_tail hY)
            refine ⟨res, hres, ?_⟩
            intro p
            rw [hcov p]
            constructor
            · rintro ⟨h1, ⟨j, hj, hm⟩⟩
              exact ⟨h1, ⟨j, List.mem_cons_of_mem _ hj, hm⟩⟩
            · rintro ⟨h1, ⟨j, hj, hm⟩⟩
              rcases List.mem_cons.1 hj with rfl | hj
              · exact absurd h1 (not_covers_of_ltBeginOf hyx hX hm)
              · exact ⟨h1, ⟨j, hj, hm⟩⟩
          · -- `x` and `y` overlap: emit the overlap
            rw [if_neg hyx]
            have hxy' : x.LtBeginOf y = false := by simpa using hxy
            have hyx' : y.LtBeginOf x = false := by simpa using hyx
            have hov := overlap_of_not_ltBeginOf hxe hye hxy' hyx'
            rw [if_pos (by rw [hov]; rfl)]
            cases hr : (x.Bisect y).2.IsEmpty
            · -- a part of `x` remains after `y`: `y` is advanced next
              rw [if_pos (by rfl)]
              obtain ⟨f', rfl⟩ : ∃ f', f = f' + 1 := ⟨f - 1, by omega⟩
              have hyr := ltBeginOf_bisect_snd hov hr
              have hry := ltBeginOf_asymm hyr
              rw [intersectLoop_step]
              simp only [hr, hye, Bool.not_false, Bool.and_self, if_true, hry,
                Bool.false_eq_true, if_false, hyr]
              have hwr := bisect_snd_within hr
              have hXr : Ascending ((x.Bisect y).2 :: xs) := by
                refine ⟨List.pairwise_cons.2 ⟨?_, (List.pairwise_cons.1 hX.1).2⟩, ?_⟩
                · intro i hi
                  exact ltBeginOf_of_within_left ((List.pairwise_cons.1 hX.1).1 i hi) hwr
                · intro i hi
                  rcases List.mem_cons.1 hi with rfl | hi
                  · exact hr
                  · exact hX.2 i (List.mem_cons_of_mem _ hi)
              obtain ⟨res, hres, hcov⟩ :=
                ih ((x.Bisect y).2 :: xs) ys (acc ++ [x.Intersect y]) f' (by simp; omega)
                  (by omega) hXr (ascending_tail hY)
              change intersectLoop f' (x.Bisect y).2 xs (next ys).1 (next ys).2
                (acc ++ [x.Intersect y]) = _ at hres
              refine ⟨x.Intersect y :: res, ?_, ?_⟩
              · rw [hres]; simp
              · intro p
                constructor
                · rintro ⟨i, hi, hm⟩
                  rcases List.mem_cons.1 hi with rfl | hi
                  · rw [Interval.mem_intersect] at hm
                    exact ⟨⟨x, by simp, hm.1⟩, ⟨y, by simp, hm.2⟩⟩
                  · obtain ⟨⟨i', hi', hm'⟩, ⟨j, hj, hmj⟩⟩ := (hcov p).1 ⟨i, hi, hm⟩
                    refine ⟨?_, ⟨j, List.mem_cons_of_mem _ hj, hmj⟩⟩
                    rcases List.mem_cons.1 hi' with rfl | hi'
                    · exact ⟨x, by simp, ((mem_bisect_snd x hye p).1 hm').1⟩
                    · exact ⟨i', List.mem_cons_of_mem _ hi', hm'⟩
                · rintro ⟨⟨i, hi, hm⟩, ⟨j, hj, hmj⟩⟩
                  rcases List.mem_cons.1 hi with rfl | hi <;>
                    rcases List.mem_cons.1 hj with rfl | hj
                  · exact ⟨i.Intersect j, by simp, (Interval.mem_intersect i j p).2 ⟨hm, hmj⟩⟩
                  · have haft := after_of_ltBeginOf ((List.pairwise_cons.1 hY.1).1 j hj) hmj
                    have hmr := (mem_bisect_snd i hye p).2 ⟨hm, haft⟩
                    obtain ⟨k, hk, hmk⟩ := (hcov p).2 ⟨⟨_, by simp, hmr⟩, ⟨j, hj, hmj⟩⟩
                    exact ⟨k, List.mem_cons_of_mem _ hk, hmk⟩
                  · exfalso
                    have h1 := (List.pairwise_cons.1 hXr.1).1 i hi
                    exact not_mem_of_ltBeginOf (ltBeginOf_trans hyr h1) p hmj hm
                  · obtain ⟨k, hk, hmk⟩ :=
                      (hcov p).2 ⟨⟨i, List.mem_cons_of_mem _ hi, hm⟩, ⟨j, hj, hmj⟩⟩
                    exact ⟨k, List.mem_cons_of_mem _ hk, hmk⟩
            · -- nothing of `x` remains after `y`: advance `x`
              rw [if_neg (by simp)]
              obtain ⟨res, hres, hcov⟩ :=
                ih xs (y :: ys) (acc ++ [x.Intersect y]) f (by simp; omega) (by omega)
                  (ascending_tail hX) hY
              change intersectLoop f (next xs).1 (next xs).2 y ys
                (acc ++ [x.Intersect y]) = _ at hres
              refine ⟨x.Intersect y :: res, ?_, ?_⟩
              · rw [hres]; simp
              · intro p
                constructor
                · rintro ⟨i, hi, hm⟩
                  rcases List.mem_cons.1 hi with rfl | hi
                  · rw [Interval.mem_intersect] at hm
                    exact ⟨⟨x, by simp, hm.1⟩, ⟨y, by simp, hm.2⟩⟩
                  · obtain ⟨⟨i', hi', hm'⟩, h2⟩ := (hcov p).1 ⟨i, hi, hm⟩
                    exact ⟨⟨i', List.mem_cons_of_mem _ hi', hm'⟩, h2⟩
                · rintro ⟨⟨i, hi, hm⟩, ⟨j, hj, hmj⟩⟩
                  rcases List.mem_cons.1 hi with rfl | hi
                  · rcases List.mem_cons.1 hj with rfl | hj
                    · exact ⟨i.Intersect j, by simp,
                        (Interval.mem_intersect i j p).2 ⟨hm, hmj⟩⟩
                    · exfalso
                      have haft := after_of_ltBeginOf ((List.pairwise_cons.1 hY.1).1 j hj) hmj
                      exact Interval.not_mem_of_isEmpty hr p
                        ((mem_bisect_snd i hye p).2 ⟨hm, haft⟩)
                  · obtain ⟨k, hk, hmk⟩ := (hcov p).2 ⟨⟨i, hi, hm⟩, ⟨j, hj, hmj⟩⟩
                    exact ⟨k, List.mem_cons_of_mem _ hk, hmk⟩

/-! ## Iterator and Bound of a well-formed set -/

theorem iterator_eq_mid {l : List Interval} (hp : l.Pairwise Separated) {B : Interval}
    (hB : B.IsEmpty = false) :
    ∃ pre mid post, l = pre ++ mid ++ post ∧ (∀ a ∈ pre, a.LtBeginOf B = true) ∧
      (∀ a ∈ post, B.LtBeginOf a = true) ∧ OrderedSet.Iterator ⟨l⟩ B true = mid := by
  obtain ⟨pre, mid, post, rfl, h1, h2, h3⟩ := split3 l B hp
  refine ⟨pre, mid, post, rfl, h1, h3, ?_⟩
  unfold OrderedSet.Iterator
  simp only [hB, Bool.false_eq_true, if_false, if_true, searchLow_split3 pre mid post B h1 h2 h3,
    searchHigh_split3 pre mid post B h1 h2 h3]
  rw [← List.length_append, List.take_left' rfl, List.drop_left' rfl]

theorem mem_of_within {i B : Interval} {p : Int} (hw : Within i B) (hm : Interval.Mem p i) :
    Interval.Mem p B := by
  obtain ⟨_, h1, h2⟩ := hw
  unfold Interval.Mem at *
  rcases i with ⟨ib, iib, ie, iie⟩
  rcases B with ⟨bb, bib, be, bie⟩
  simp only at *
  cases iib <;> cases iie <;> cases bib <;> cases bie <;> simp_all <;> omega

theorem within_encompass_of_between {a j g : Interval} (ha : a.IsEmpty = false)
    (hj : j.IsEmpty = false) (hg : g.IsEmpty = false) (h1 : a = j ∨ Separated a j)
    (h2 : j = g ∨ Separated j g) : Within j (a.Encompass g) := by
  obtain ⟨⟨_, wa1, _⟩, ⟨_, _, wg2⟩⟩ := encompass_within ha hg
  refine ⟨hj, ?_, ?_⟩
  · rcases h1 with rfl | h1
    · exact wa1
    · rw [separated_iff] at h1
      obtain ⟨_, _, h1⟩ := h1
      rw [Interval.isEmpty_eq_false_iff] at ha
      left
      generalize a.Encompass g = e at *
      rcases a with ⟨ab, aib, ae, aie⟩
      rcases j with ⟨jb, jib, je, jie⟩
      simp only at *
      cases aib <;> cases aie <;> cases jib <;> simp_all <;> omega
  · rcases h2 with rfl | h2
    · exact wg2
    · rw [separated_iff] at h2
      obtain ⟨_, _, h2⟩ := h2
      rw [Interval.isEmpty_eq_false_iff] at hg
      left
      generalize a.Encompass g = e at *
      rcases g with ⟨gb, gib, ge, gie⟩
      rcases j with ⟨jb, jib, je, jie⟩
      simp only at *
      cases gib <;> cases gie <;> cases jie <;> simp_all <;> omega

theorem pairwise_head_or {l : List Interval} (hp : l.Pairwise Separated) {f a : Interval}
    {t : List Interval} (hl : l = f :: t) (ha : a ∈ l) : f = a ∨ Separated f a := by
  subst hl
  rcases List.mem_cons.1 ha with rfl | ha
  · exact Or.inl rfl
  · exact Or.inr ((List.pairwise_cons.1 hp).1 a ha)

theorem bound_within {l : List Interval} (hne : ∀ i ∈ l, i.IsEmpty = false)
    (hp : l.Pairwise Separated) {j : Interval} (hj : j ∈ l) :
    Within j (OrderedSet.Bound ⟨l⟩) := by
  unfold OrderedSet.Bound
  cases l with
  | nil => simp at hj
  | cons a t =>
    cases t with
    | nil =>
      simp only [List.mem_singleton] at hj
      subst hj
      exact within_refl (hne j (by simp))
    | cons b t =>
      simp only
      have hlast : (b :: t).getLastD Interval.zero ∈ (a :: b :: t).getLast? := by
        rw [List.getLast?_cons_cons, List.getLastD_eq_getLast?]
        cases h : (b :: t).getLast? with
        | none => simp at h
        | some g => simp
      have hgmem := List.mem_of_getLast?_eq_some hlast
      refine within_encompass_of_between (hne a (by simp)) (hne j hj) (hne _ hgmem)
        (pairwise_head_or hp rfl hj) ?_
      rcases pairwise_or_getLast hp hlast hj with h | h
      · exact Or.inl h
      · exact Or.inr h

/-! ## Intersect computes the common coverage -/

theorem iterator_ascending {s : OrderedSet} (h : WellFormed s) (B : Interval) :
    Ascending (s.Iterator B true) ∧ (s.Iterator B true).length ≤ s.Len := by
  rw [wellFormed_iff_pairwise] at h
  obtain ⟨hne, hp⟩ := h
  obtain ⟨l⟩ := s
  simp only at hne hp
  cases hB : B.IsEmpty
  · obtain ⟨pre, mid, post, rfl, _, _, hit⟩ := iterator_eq_mid hp hB
    rw [hit]
    constructor
    · apply ascending_of_pairwise_separated
      · intro i hi
        exact hne i (List.mem_append_left _ (List.mem_append_right _ hi))
      · rw [List.pairwise_append, List.pairwise_append] at hp
        exact hp.1.2.1
    · simp only [OrderedSet.Len, List.length_append]
      omega
  · have : OrderedSet.Iterator ⟨l⟩ B true = [] := by
      unfold OrderedSet.Iterator
      simp [hB]
    rw [this]
    exact ⟨⟨List.Pairwise.nil, by simp⟩, by simp⟩

theorem mem_iterator_of_common {a b : OrderedSet} (ha : WellFormed a) (hb : WellFormed b)
    {i j : Interval} {p : Int} (hi : i ∈ a.intervals) (hmi : Interval.Mem p i)
    (hj : j ∈ b.intervals) (hmj : Interval.Mem p j) : i ∈ a.Iterator b.Bound true := by
  rw [wellFormed_iff_pairwise] at ha hb
  obtain ⟨la⟩ := a
  obtain ⟨lb⟩ := b
  simp only at ha hb hi hj
  have hw := bound_within hb.1 hb.2 hj
  have hB := within_nonempty hw
  have hmB := mem_of_within hw hmj
  obtain ⟨pre, mid, post, rfl, h1, h3, hit⟩ := iterator_eq_mid ha.2 hB
  rw [hit]
  simp only [List.mem_append] at hi
  rcases hi with (hi | hi) | hi
  · exact absurd hmB (not_mem_of_ltBeginOf (h1 i hi) p hmi)
  · exact hi
  · exact absurd hmi (not_mem_of_ltBeginOf (h3 i hi) p hmB)

/-- C10: set `Intersect` computes the common coverage: for all well-formed sets
`a` and `b`, `Intersect(a, b)` returns, and for every coordinate `p` the result
covers `p` if and only if `a` covers `p` and `b` covers `p`. -/
theorem intersect_covers (a b : OrderedSet) (ha : WellFormed a) (hb : WellFormed b) :
    ∃ r, Intersect a b = some r ∧
      ∀ p : Int, Covers r p ↔ (Covers a p ∧ Covers b p) := by
  obtain ⟨hX, hXl⟩ := iterator_ascending ha b.Bound
  obtain ⟨hY, hYl⟩ := iterator_ascending hb a.Bound
  obtain ⟨res, hres, hcov⟩ :=
    intersectLoop_spec (a.Len + b.Len) (a.Iterator b.Bound true) (b.Iterator a.Bound true) []
      (2 * (a.Len + b.Len) + 3) (by omega) (by omega) hX hY
  refine ⟨⟨res⟩, ?_, ?_⟩
  · unfold Intersect IntersectWithin
    simp only [hres, List.nil_append, Option.map_some']
  · intro p
    have h0 : Covers ⟨res⟩ p ↔ ∃ i ∈ res, Interval.Mem p i := Iff.rfl
    rw [h0, hcov p]
    constructor
    · rintro ⟨⟨i, hi, hmi⟩, ⟨j, hj, hmj⟩⟩
      exact ⟨⟨i, mem_of_mem_iterator hi, hmi⟩, ⟨j, mem_of_mem_iterator hj, hmj⟩⟩
    · rintro ⟨⟨i, hi, hmi⟩, ⟨j, hj, hmj⟩⟩
      exact ⟨⟨i, mem_iterator_of_common ha hb hi hmi hj hmj, hmi⟩,
        ⟨j, mem_iterator_of_common hb ha hj hmj hi hmi, hmj⟩⟩

theorem intersect_covers_witness :
    WellFormed ⟨[⟨0, true, 5, true⟩, ⟨10, true, 15, true⟩]⟩ ∧
    WellFormed ⟨[⟨3, true, 12, true⟩]⟩ ∧
    ∃ r, Intersect ⟨[⟨0, true, 5, true⟩, ⟨10, true, 15, true⟩]⟩ ⟨[⟨3, true, 12, true⟩]⟩
        = some r ∧
      ∀ p : Int, Covers r p ↔
        (Covers ⟨[⟨0, true, 5, true⟩, ⟨10, true, 15, true⟩]⟩ p ∧
          Covers ⟨[⟨3, true, 12, true⟩]⟩ p) :=
  ⟨by decide, by decide, intersect_covers _ _ (by decide) (by decide)⟩

/-- The scenario of the specification: `Intersect({[0,5],[10,15]}, {[3,12]})`
is `{[3,5],[10,12]}`. -/
theorem intersect_example :
    Intersect ⟨[⟨0, true, 5, true⟩, ⟨10, true, 15, true⟩]⟩ ⟨[⟨3, true, 12, true⟩]⟩
      = some ⟨[⟨3, true, 5, true⟩, ⟨10, true, 12, true⟩]⟩ := by
  decide

/-! ## Independence of the iteration bound -/

/-- More iterations never change a result the sweep has already produced. -/
theorem intersectLoop_fuel_mono : ∀ (fuel : Nat) (x : Interval) (xit : List Interval)
    (y : Interval) (yit acc r : List Interval),
    intersectLoop fuel x xit y yit acc = some r →
    ∀ k, intersectLoop (fuel + k) x xit y yit acc = some r := by
  intro fuel
  induction fuel with
  | zero =>
    intro x xit y yit acc r h
    exact absurd h (by simp [intersectLoop])
  | succ f ih =>
    intro x xit y yit acc r h k
    have e : f + 1 + k = (f + k) + 1 := by omega
    rw [e, intersectLoop_step]
    rw [intersectLoop_step] at h
    split_ifs at h ⊢
    · exact ih _ _ _ _ _ _ h k
    · exact ih _ _ _ _ _ _ h k
    · exact ih _ _ _ _ _ _ h k
    · exact ih _ _ _ _ _ _ h k
    · exact ih _ _ _ _ _ _ h k
    · exact h

/-! ## Intersect of two intervals -/

theorem intersect_eq_zero_of_isEmpty {i x : Interval} (h : (i.Intersect x).IsEmpty = true) :
    i.Intersect x = Interval.zero := by
  cases hc : (x.IsEmpty || i.IsEmpty)
  · unfold Interval.Intersect at h ⊢
    simp only [hc, Bool.false_eq_true, if_false] at h ⊢
    rw [Interval.maybeEmpty_isEmpty] at h
    exact Interval.maybeEmpty_of_isEmpty h
  · simp only [Bool.or_eq_true] at hc
    exact Interval.intersect_of_isEmpty hc

theorem intersect_isEmpty_comm (i x : Interval) :
    (i.Intersect x).IsEmpty = (x.Intersect i).IsEmpty := by
  have h1 := intersect_isEmpty_iff i x
  have h2 := intersect_isEmpty_iff x i
  cases ha : (i.Intersect x).IsEmpty <;> cases hb : (x.Intersect i).IsEmpty
  · rfl
  · exfalso
    rw [hb] at h2
    rw [ha] at h1
    have := h2.1 rfl
    have h3 : i.IsEmpty = true ∨ x.IsEmpty = true ∨ i.LtBeginOf x = true ∨
        x.LtBeginOf i = true := by
      rcases this with h | h | h | h
      · exact Or.inr (Or.inl h)
      · exact Or.inl h
      · exact Or.inr (Or.inr (Or.inr h))
      · exact Or.inr (Or.inr (Or.inl h))
    exact absurd (h1.2 h3) (by decide)
  · exfalso
    rw [hb] at h2
    rw [ha] at h1
    have := h1.1 rfl
    have h3 : x.IsEmpty = true ∨ i.IsEmpty = true ∨ x.LtBeginOf i = true ∨
        i.LtBeginOf x = true := by
      rcases this with h | h | h | h
      · exact Or.inr (Or.inl h)
      · exact Or.inl h
      · exact Or.inr (Or.inr (Or.inr h))
      · exact Or.inr (Or.inr (Or.inl h))
    exact absurd (h2.2 h3) (by decide)
  · rfl

theorem interval_ext {u v : Interval} (h1 : u.Begin = v.Begin) (h2 : u.IncBegin = v.IncBegin)
    (h3 : u.End = v.End) (h4 : u.IncEnd = v.IncEnd) : u = v := by
  cases u; cases v
  simp only at h1 h2 h3 h4
  simp [h1, h2, h3, h4]

/-- C19: `Interval.Intersect` is commutative: for all intervals `i` and `x`,
empty and degenerate ones included, `i.Intersect(x)` and `x.Intersect(i)` are
the same interval field for field, hence also `Equal`. -/
theorem interval_intersect_comm (i x : Interval) :
    i.Intersect x = x.Intersect i ∧ (i.Intersect x).Equal (x.Intersect i) = true := by
  have key : i.Intersect x = x.Intersect i := by
    cases ha : (i.Intersect x).IsEmpty
    · have hb : (x.Intersect i).IsEmpty = false := by rw [← intersect_isEmpty_comm]; exact ha
      obtain ⟨_, _, b1, e1⟩ := Interval.intersect_fields ha
      obtain ⟨_, _, b2, e2⟩ := Interval.intersect_fields hb
      apply interval_ext
      · rcases b1 with ⟨h, h', _⟩ | ⟨h, h', _⟩ | ⟨h, h', _⟩ <;>
          rcases b2 with ⟨k, k', _⟩ | ⟨k, k', _⟩ | ⟨k, k', _⟩ <;> omega
      · rcases b1 with ⟨h, _, h'⟩ | ⟨h, _, h'⟩ | ⟨h, _, h'⟩ <;>
          rcases b2 with ⟨k, _, k'⟩ | ⟨k, _, k'⟩ | ⟨k, _, k'⟩ <;>
          first
            | omega
            | (rw [h', k']; exact Bool.and_comm _ _)
            | (rw [h', k'])
      · rcases e1 with ⟨h, h', _⟩ | ⟨h, h', _⟩ | ⟨h, h', _⟩ <;>
          rcases e2 with ⟨k, k', _⟩ | ⟨k, k', _⟩ | ⟨k, k', _⟩ <;> omega
      · rcases e1 with ⟨h, _, h'⟩ | ⟨h, _, h'⟩ | ⟨h, _, h'⟩ <;>
          rcases e2 with ⟨k, _, k'⟩ | ⟨k, _, k'⟩ | ⟨k, _, k'⟩ <;>
          first
            | omega
            | (rw [h', k']; exact Bool.and_comm _ _)
            | (rw [h', k'])
    · have hb : (x.Intersect i).IsEmpty = true := by rw [← intersect_isEmpty_comm]; exact ha
      rw [intersect_eq_zero_of_isEmpty ha, intersect_eq_zero_of_isEmpty hb]
  refine ⟨key, ?_⟩
  rw [key]
  exact equal_self _

/-- C20: `Interval.Intersect` is exactly the overlap: for all intervals `i`
and `x` and every coordinate `p`, `p` lies in `i.Intersect(x)` if and only if
`p` lies in `i` and in `x`; and whenever the overlap is empty (`IsEmpty`, which
is the case exactly when an operand is empty or one lies before the other) the
result is the all-zero interval. -/
theorem interval_intersect_overlap (i x : Interval) :
    (∀ p : Int, Interval.Mem p (i.Intersect x) ↔ (Interval.Mem p i ∧ Interval.Mem p x)) ∧
    ((i.Intersect x).IsEmpty = true → i.Intersect x = Interval.zero) ∧
    ((i.Intersect x).IsEmpty = true ↔
      (i.IsEmpty = true ∨ x.IsEmpty = true ∨ i.LtBeginOf x = true ∨ x.LtBeginOf i = true)) :=
  ⟨fun p => Interval.mem_intersect i x p, intersect_eq_zero_of_isEmpty,
    intersect_isEmpty_iff i x⟩

/-! ## The flag returned by Add -/

theorem add_flag_contains {s r : OrderedSet} {x : Interval} {b : Bool}
    (h : s.Add x = some (r, b)) (hx : x.IsEmpty = false) :
    (b = false → r = s) ∧ (b = true → s.Contains x = false) := by
  unfold OrderedSet.Add at h
  simp only [hx, Bool.false_eq_true, if_false] at h
  by_cases hlow : s.searchLow x = s.intervals.length
  · rw [if_pos hlow] at h
    simp only [Option.some.injEq, Prod.mk.injEq] at h
    refine ⟨fun hb => ?_, fun _ => ?_⟩
    · rw [← h.2] at hb; exact absurd hb (by decide)
    · unfold OrderedSet.Contains
      simp [hlow]
  · rw [if_neg hlow] at h
    cases hget : s.intervals[s.searchLow x]? with
    | none => rw [hget] at h; exact absurd h (by simp)
    | some sl =>
      rw [hget] at h
      simp only at h
      have hcont : s.Contains x = sl.Contains x := by
        unfold OrderedSet.Contains
        simp only [hlow, if_false]
        rw [List.getD_eq_getElem?_getD, hget]
        rfl
      by_cases hc : sl.Contains x = true
      · rw [if_pos hc] at h
        simp only [Option.some.injEq, Prod.mk.injEq] at h
        refine ⟨fun _ => h.1.symm, fun hb => ?_⟩
        rw [← h.2] at hb; exact absurd hb (by decide)
      · rw [if_neg hc] at h
        have hbt : b = true := by
          split_ifs at h
          all_goals (try split at h)
          all_goals (try split at h)
          all_goals
            first
              | (simp only [Option.some.injEq, Prod.mk.injEq] at h; exact h.2.symm)
              | (exact absurd h (by simp))
        refine ⟨fun hb => ?_, fun _ => ?_⟩
        · rw [hbt] at hb; exact absurd hb (by decide)
        · rw [hcont]; simpa using hc

/-- C17: `Add` returns true exactly when it changed the set: for every
well-formed set `s` and every interval `x`, `s.Add(x)` returns, and it returns
false if and only if the stored sequence afterwards is identical to the one
before; an empty `x` returns false and leaves the set unchanged. -/
theorem add_returns_changed (s : OrderedSet) (x : Interval) (h : WellFormed s) :
    ∃ r b, s.Add x = some (r, b) ∧ (b = false ↔ r.intervals = s.intervals) ∧
      (x.IsEmpty = true → b = false ∧ r = s) := by
  cases hx : x.IsEmpty
  · obtain ⟨l⟩ := s
    obtain ⟨r, b, hadd, _, hcont⟩ := add_spec l x h hx
    obtain ⟨h1, h2⟩ := add_flag_contains hadd hx
    refine ⟨r, b, hadd, ⟨fun hb => by rw [h1 hb], fun heq => ?_⟩, fun hc => absurd hc (by decide)⟩
    cases hb : b
    · rfl
    · exfalso
      have hrs : r = ⟨l⟩ := by
        cases r
        simp only at heq
        rw [heq]
      rw [hrs, h2 hb] at hcont
      exact absurd hcont (by decide)
  · refine ⟨s, false, ?_, ⟨fun _ => rfl, fun _ => rfl⟩, fun _ => ⟨rfl, rfl⟩⟩
    unfold OrderedSet.Add
    simp [hx]

theorem add_returns_changed_witness :
    WellFormed ⟨[⟨0, true, 3, true⟩, ⟨5, true, 8, true⟩]⟩ ∧
    ∃ r b, OrderedSet.Add ⟨[⟨0, true, 3, true⟩, ⟨5, true, 8, true⟩]⟩ ⟨3, true, 5, true⟩
        = some (r, b) ∧
      (b = false ↔ r.intervals = [⟨0, true, 3, true⟩, ⟨5, true, 8, true⟩]) ∧
      (Interval.IsEmpty ⟨3, true, 5, true⟩ = true →
        b = false ∧ r = ⟨[⟨0, true, 3, true⟩, ⟨5, true, 8, true⟩]⟩) :=
  ⟨by decide, add_returns_changed _ _ (by decide)⟩

/-! ## The flag returned by Remove -/

theorem bisect_fst_ne_self {i x : Interval} (hov : (i.Intersect x).IsEmpty = false)
    (h1 : (i.Bisect x).1.IsEmpty = false) : (i.Bisect x).1 ≠ i := by
  obtain ⟨hn1, hn2⟩ := overlap_not_ltBeginOf hov
  obtain ⟨hi, hx, _, _⟩ := Interval.intersect_fields hov
  rw [Interval.bisect_of_overlap hov] at h1 ⊢
  simp only at h1 ⊢
  rw [Interval.maybeEmpty_isEmpty] at h1
  rw [Interval.maybeEmpty_of_nonempty h1]
  rw [not_ltBeginOf_iff hi hx] at hn1
  intro hc
  have he : x.Begin = i.End := congrArg Interval.End hc
  have hf : (!x.IncBegin) = i.IncEnd := congrArg Interval.IncEnd hc
  cases hA : x.IncBegin <;> cases hB : i.IncEnd <;> simp_all

/-- C18: `Remove` returns true exactly when it changed the set: for every
well-formed set `s` and every interval `x`, `s.Remove(x)` returns, and it
returns false if and only if the stored sequence afterwards is identical to the
one before; an empty set or an empty `x` returns false and leaves the set
unchanged, and so does an `x` that overlaps no stored interval. -/
theorem remove_returns_changed (s : OrderedSet) (x : Interval) (h : WellFormed s) :
    ∃ r b, s.Remove x = some (r, b) ∧ (b = false ↔ r.intervals = s.intervals) ∧
      ((s.IsEmpty = true ∨ x.IsEmpty = true) → b = false ∧ r = s) ∧
      ((∀ i ∈ s.intervals, (i.Intersect x).IsEmpty = true) → b = false ∧ r = s) := by
  by_cases hse : (s.IsEmpty || x.IsEmpty) = true
  · refine ⟨s, false, ?_, ⟨fun _ => rfl, fun _ => rfl⟩, fun _ => ⟨rfl, rfl⟩, fun _ => ⟨rfl, rfl⟩⟩
    unfold OrderedSet.Remove
    rw [if_pos hse]
  · simp only [Bool.or_eq_true, not_or, Bool.not_eq_true] at hse
    obtain ⟨hs0, hx⟩ := hse
    obtain ⟨l⟩ := s
    obtain ⟨pre, mid, post, hl, h1, h2, h3, hrem⟩ := remove_shape l x h hx
    rw [wellFormed_iff_pairwise] at h
    obtain ⟨hne, _⟩ := h
    simp only at hne
    subst hl
    cases mid with
    | nil =>
      have hr : pre ++ keep (leftRemnant [] x) ++ keep (rightRemnant [] x) ++ post
          = pre ++ [] ++ post := by
        rw [(remnant_nil x).1, (remnant_nil x).2]; simp
      rw [hr] at hrem
      refine ⟨_, _, hrem, ⟨fun _ => rfl, fun _ => rfl⟩, ?_, fun _ => ⟨rfl, rfl⟩⟩
      intro hc
      rcases hc with hc | hc
      · rw [hs0] at hc; exact absurd hc (by decide)
      · rw [hx] at hc; exact absurd hc (by decide)
    | cons sl mid' =>
      have hsl := h2 sl (List.mem_cons_self _ _)
      have hsle : sl.IsEmpty = false := hne sl (by simp)
      have hov := overlap_of_not_ltBeginOf hsle hx hsl.1 hsl.2
      have hchg : pre ++ keep (leftRemnant (sl :: mid') x) ++
          keep (rightRemnant (sl :: mid') x) ++ post ≠ pre ++ sl :: mid' ++ post := by
        intro heq
        rw [List.append_assoc pre, List.append_assoc pre, List.append_assoc pre] at heq
        have heq2 := List.append_cancel_left heq
        have heq3 := List.append_cancel_right heq2
        rw [leftRemnant_cons] at heq3
        cases hL : (sl.Bisect x).1.IsEmpty
        · rw [keep_of_nonempty hL] at heq3
          simp only [List.singleton_append, List.cons.injEq] at heq3
          exact bisect_fst_ne_self hov hL heq3.1
        · rw [keep_of_isEmpty hL, List.nil_append] at heq3
          cases hR : (rightRemnant (sl :: mid') x).IsEmpty
          · rw [keep_of_nonempty hR] at heq3
            simp only [List.cons.injEq] at heq3
            obtain ⟨hR1, hR2⟩ := heq3
            rw [← hR2] at hR1 hR
            have hR3 : rightRemnant [sl] x = (sl.Bisect x).2 := rfl
            rw [hR3] at hR1 hR
            have := bisect_snd_ne_self hov hR
            rw [hR1, equal_self] at this
            exact absurd this (by decide)
          · rw [keep_of_isEmpty hR] at heq3
            exact absurd heq3 (by simp)
      refine ⟨_, _, hrem, ⟨fun hb => ?_, fun heq => ?_⟩, ?_, ?_⟩
      · simp at hb
      · exact absurd heq hchg
      · intro hc
        rcases hc with hc | hc
        · rw [hs0] at hc; exact absurd hc (by decide)
        · rw [hx] at hc; exact absurd hc (by decide)
      · intro hall
        have := hall sl (by simp)
        rw [hov] at this
        exact absurd this (by decide)

theorem remove_returns_changed_witness :
    WellFormed ⟨[⟨0, true, 10, true⟩]⟩ ∧
    ∃ r b, OrderedSet.Remove ⟨[⟨0, true, 10, true⟩]⟩ ⟨3, true, 5, true⟩ = some (r, b) ∧
      (b = false ↔ r.intervals = [⟨0, true, 10, true⟩]) ∧
      ((OrderedSet.IsEmpty ⟨[⟨0, true, 10, true⟩]⟩ = true ∨
          Interval.IsEmpty ⟨3, true, 5, true⟩ = true) →
        b = false ∧ r = ⟨[⟨0, true, 10, true⟩]⟩) ∧
      ((∀ i ∈ [(⟨0, true, 10, true⟩ : Interval)],
          (i.Intersect ⟨3, true, 5, true⟩).IsEmpty = true) →
        b = false ∧ r = ⟨[⟨0, true, 10, true⟩]⟩) :=
  ⟨by decide, remove_returns_changed _ _ (by decide)⟩

/-! ## Doubling the coordinates -/

theorem dbl_zero : dbl Interval.zero = Interval.zero := rfl

theorem dbl_isEmpty (i : Interval) : (dbl i).IsEmpty = i.IsEmpty := by
  rcases i with ⟨b, ib, e, ie⟩
  unfold Interval.IsEmpty dbl
  simp only
  split_ifs <;> first | rfl | omega

theorem dbl_ltBeginOf (i x : Interval) : (dbl i).LtBeginOf (dbl x) = i.LtBeginOf x := by
  unfold Interval.LtBeginOf
  rw [dbl_isEmpty, dbl_isEmpty]
  rcases i with ⟨b, ib, e, ie⟩
  rcases x with ⟨xb, xib, xe, xie⟩
  simp only [dbl]
  split_ifs <;> first | rfl | omega

theorem dbl_maybeEmpty (i : Interval) :
    Interval.maybeEmpty (dbl i) = dbl (Interval.maybeEmpty i) := by
  unfold Interval.maybeEmpty
  rw [dbl_isEmpty]
  split_ifs <;> rfl

theorem dbl_intersect (i x : Interval) : (dbl i).Intersect (dbl x) = dbl (i.Intersect x) := by
  unfold Interval.Intersect
  rw [dbl_isEmpty, dbl_isEmpty]
  by_cases h : (x.IsEmpty || i.IsEmpty) = true
  · rw [if_pos h, if_pos h]
    rfl
  · rw [if_neg h, if_neg h]
    simp only
    rw [← dbl_maybeEmpty]
    congr 1
    rcases i with ⟨b, ib, e, ie⟩
    rcases x with ⟨xb, xib, xe, xie⟩
    simp only [dbl]
    by_cases c1 : b > xb
    · have c1d : 2 * b > 2 * xb := by omega
      simp only [if_pos c1, if_pos c1d]
      split_ifs <;> first | rfl | omega | (exfalso; simp_all)
    · have c1d : ¬ 2 * b > 2 * xb := by omega
      simp only [if_neg c1, if_neg c1d]
      by_cases c2 : b = xb ∧ ib = false
      · have c2d : 2 * b = 2 * xb ∧ ib = false := ⟨by omega, c2.2⟩
        simp only [if_pos c2, if_pos c2d]
        split_ifs <;> first | rfl | omega | (exfalso; simp_all)
      · have c2d : ¬ (2 * b = 2 * xb ∧ ib = false) := by
          rintro ⟨q1, q2⟩
          exact c2 ⟨by omega, q2⟩
        simp only [if_neg c2, if_neg c2d]
        split_ifs <;> first | rfl | omega | (exfalso; simp_all)

theorem dbl_bisect (i x : Interval) :
    (dbl i).Bisect (dbl x) = (dbl (i.Bisect x).1, dbl (i.Bisect x).2) := by
  unfold Interval.Bisect
  simp only [dbl_intersect, dbl_isEmpty, dbl_ltBeginOf]
  split_ifs
  · rfl
  · rfl
  · simp only [← dbl_maybeEmpty]
    rfl

theorem dbl_adjoin (i x : Interval) : (dbl i).Adjoin (dbl x) = dbl (i.Adjoin x) := by
  unfold Interval.Adjoin
  rw [dbl_isEmpty, dbl_isEmpty]
  rcases i with ⟨b, ib, e, ie⟩
  rcases x with ⟨xb, xib, xe, xie⟩
  simp only [dbl]
  split_ifs <;> first | rfl | omega | simp_all

theorem dbl_injective {a b : Interval} (h : dbl a = dbl b) : a = b := by
  rcases a with ⟨b1, ib1, e1, ie1⟩
  rcases b with ⟨b2, ib2, e2, ie2⟩
  simp only [dbl, Interval.mk.injEq] at h
  obtain ⟨h1, h2, h3, h4⟩ := h
  simp only [Interval.mk.injEq]
  exact ⟨by omega, h2, by omega, h4⟩

theorem dbl_separated (a b : Interval) : Separated (dbl a) (dbl b) ↔ Separated a b := by
  rw [separated_iff, separated_iff, dbl_isEmpty, dbl_isEmpty]
  rcases a with ⟨b1, ib1, e1, ie1⟩
  rcases b with ⟨b2, ib2, e2, ie2⟩
  simp only [dbl]
  constructor
  · rintro ⟨h1, h2, h3⟩
    refine ⟨h1, h2, ?_⟩
    rcases h3 with h3 | ⟨h3, h4⟩
    · left; omega
    · right; exact ⟨by omega, h4⟩
  · rintro ⟨h1, h2, h3⟩
    refine ⟨h1, h2, ?_⟩
    rcases h3 with h3 | ⟨h3, h4⟩
    · left; omega
    · right; exact ⟨by omega, h4⟩

theorem dbl_next (l : List Interval) :
    next (l.map dbl) = (dbl (next l).1, (next l).2.map dbl) := by
  cases l <;> rfl

theorem dbl_adjoinOrAppend (l : List Interval) (x : Interval) :
    adjoinOrAppend (l.map dbl) (dbl x) = (adjoinOrAppend l x).map dbl := by
  unfold adjoinOrAppend
  rw [List.getLast?_map]
  cases h : l.getLast? with
  | none => simp
  | some g =>
    simp only [Option.map_some', dbl_adjoin, dbl_isEmpty]
    split_ifs
    · simp
    · simp [List.map_dropLast]

theorem mem_dbl_iff (p : Int) (i : Interval) : Interval.Mem (2 * p) (dbl i) ↔ Interval.Mem p i := by
  unfold Interval.Mem dbl
  simp only
  constructor <;> rintro ⟨h1 | ⟨h1, h1b⟩, h2 | ⟨h2, h2b⟩⟩
  all_goals
    first
      | exact ⟨Or.inl (by omega), Or.inl (by omega)⟩
      | exact ⟨Or.inl (by omega), Or.inr ⟨by omega, h2b⟩⟩
      | exact ⟨Or.inr ⟨by omega, h1b⟩, Or.inl (by omega)⟩
      | exact ⟨Or.inr ⟨by omega, h1b⟩, Or.inr ⟨by omega, h2b⟩⟩

/-! ## The sweep of Subtract -/

theorem ltBeginOf_bisect_snd_of_nonempty {x y : Interval} (hy : y.IsEmpty = false)
    (hr : (x.Bisect y).2.IsEmpty = false) : y.LtBeginOf (x.Bisect y).2 = true := by
  cases hov : (x.Intersect y).IsEmpty
  · exact ltBeginOf_bisect_snd hov hr
  · rw [Interval.bisect_of_disjoint hov] at hr ⊢
    cases hxy : x.LtBeginOf y
    · simp only [hxy, Bool.false_eq_true, if_false] at hr ⊢
      rcases (intersect_isEmpty_iff x y).1 hov with h | h | h | h
      · rw [h] at hr; exact absurd hr (by decide)
      · rw [h] at hy; exact absurd hy (by decide)
      · rw [h] at hxy; exact absurd hxy (by decide)
      · exact h
    · simp only [hxy, if_true] at hr
      exact absurd hr (by decide)

theorem mem_trichotomy (p : Int) (y : Interval) :
    (p < y.Begin ∨ (p = y.Begin ∧ y.IncBegin = false)) ∨ Interval.Mem p y ∨
      (y.End < p ∨ (p = y.End ∧ y.IncEnd = false)) := by
  by_cases h : Interval.Mem p y
  · exact Or.inr (Or.inl h)
  · rcases (not_mem_iff y p).1 h with h | h
    · exact Or.inl h
    · exact Or.inr (Or.inr h)

theorem not_mem_of_before {y : Interval} {p : Int}
    (hb : p < y.Begin ∨ (p = y.Begin ∧ y.IncBegin = false)) : ¬ Interval.Mem p y :=
  (not_mem_iff y p).2 (Or.inl hb)

theorem not_mem_of_after {y : Interval} {p : Int}
    (hb : y.End < p ∨ (p = y.End ∧ y.IncEnd = false)) : ¬ Interval.Mem p y :=
  (not_mem_iff y p).2 (Or.inr hb)

theorem not_mem_of_before_ltBeginOf {y j : Interval} {p : Int}
    (hb : p < y.Begin ∨ (p = y.Begin ∧ y.IncBegin = false)) (h : y.LtBeginOf j = true) :
    ¬ Interval.Mem p j := by
  rw [Interval.ltBeginOf_iff] at h
  obtain ⟨_, hy, h⟩ := h
  rw [Interval.isEmpty_eq_false_iff] at hy
  unfold Interval.Mem
  rcases y with ⟨yb, yib, ye, yie⟩
  rcases j with ⟨jb, jib, je, jie⟩
  simp only at *
  cases yib <;> cases yie <;> cases jib <;> simp_all <;> omega

theorem not_covers_of_before {y : Interval} {ys : List Interval} {p : Int}
    (hY : Ascending (y :: ys))
    (hb : p < y.Begin ∨ (p = y.Begin ∧ y.IncBegin = false)) :
    ¬ ∃ j ∈ y :: ys, Interval.Mem p j := by
  rintro ⟨j, hj, hm⟩
  rcases List.mem_cons.1 hj with rfl | hj
  · exact not_mem_of_before hb hm
  · exact not_mem_of_before_ltBeginOf hb ((List.pairwise_cons.1 hY.1).1 j hj) hm

theorem subtractLoop_step (fuel : Nat) (x : Interval) (xit : List Interval) (y : Interval)
    (yit acc : List Interval) :
    subtractLoop (fuel + 1) x xit y yit acc =
      if (!x.IsEmpty) = true then
        if y.IsEmpty = true then
          subtractLoop fuel (next xit).1 (next xit).2 y yit (acc ++ [x])
        else
          if (x.Bisect y).2.IsEmpty = true then
            subtractLoop fuel (next xit).1 (next xit).2 y yit
              (if (!(x.Bisect y).1.IsEmpty) = true then acc ++ [(x.Bisect y).1] else acc)
          else
            subtractLoop fuel (x.Bisect y).2 xit (next yit).1 (next yit).2
              (if (!(x.Bisect y).1.IsEmpty) = true then acc ++ [(x.Bisect y).1] else acc)
      else some acc := by
  rfl

theorem keep_append (acc : List Interval) (z : Interval) :
    (if (!z.IsEmpty) = true then acc ++ [z] else acc) = acc ++ keep z := by
  unfold keep
  cases z.IsEmpty <;> simp

theorem pairwise_remnant {x r : Interval} {xs : List Interval}
    (hp : (x :: xs).Pairwise Separated) (hne : ∀ i ∈ x :: xs, i.IsEmpty = false)
    (hw : Within r x) :
    (r :: xs).Pairwise Separated ∧ ∀ i ∈ r :: xs, i.IsEmpty = false := by
  rw [List.pairwise_cons] at hp
  refine ⟨List.pairwise_cons.2 ⟨fun i hi => separated_of_within_left (hp.1 i hi) hw, hp.2⟩, ?_⟩
  intro i hi
  rcases List.mem_cons.1 hi with rfl | hi
  · exact hw.1
  · exact hne i (List.mem_cons_of_mem _ hi)

/-- The sweep of `Subtract` over a separated sequence `X` and an ascending
sequence `Y` ends within `|X| + |Y| + 1` iterations; it appends exactly the
points of `X` outside `Y`, as separated pieces, each inside an interval of `X`. -/
theorem subtractLoop_spec : ∀ (n : Nat) (X Y acc : List Interval) (fuel : Nat),
    X.length + Y.length ≤ n → n + 1 ≤ fuel →
    X.Pairwise Separated → (∀ i ∈ X, i.IsEmpty = false) → Ascending Y →
    ∃ res, subtractLoop fuel (next X).1 (next X).2 (next Y).1 (next Y).2 acc
        = some (acc ++ res) ∧
      (∀ p : Int, (∃ i ∈ res, Interval.Mem p i) ↔
        ((∃ i ∈ X, Interval.Mem p i) ∧ ¬ ∃ j ∈ Y, Interval.Mem p j)) ∧
      res.Pairwise Separated ∧ (∀ z ∈ res, ∃ i ∈ X, Within z i) := by
  intro n
  induction n with
  | zero =>
    intro X Y acc fuel hlen hfuel _ _ _
    have hX : X = [] := List.eq_nil_of_length_eq_zero (by omega)
    subst hX
    obtain ⟨f, rfl⟩ : ∃ f, fuel = f + 1 := ⟨fuel - 1, by omega⟩
    refine ⟨[], ?_, ?_, List.Pairwise.nil, ?_⟩
    · rw [subtractLoop_step]
      simp [next, Interval.zero_isEmpty]
    · intro p; simp
    · intro z hz; simp at hz
  | succ n ih =>
    intro X Y acc fuel hlen hfuel hXp hXne hY
    obtain ⟨f, rfl⟩ : ∃ f, fuel = f + 1 := ⟨fuel - 1, by omega⟩
    cases X with
    | nil =>
      refine ⟨[], ?_, ?_, List.Pairwise.nil, ?_⟩
      · rw [subtractLoop_step]
        simp [next, Interval.zero_isEmpty]
      · intro p; simp
      · intro z hz; simp at hz
    | cons x xs =>
      have hxe : x.IsEmpty = false := hXne x (by simp)
      have hXp2 := List.pairwise_cons.1 hXp
      have hXne2 : ∀ i ∈ xs, i.IsEmpty = false := fun i hi => hXne i (List.mem_cons_of_mem _ hi)
      simp only [List.length_cons] at hlen
      cases Y with
      | nil =>
        change ∃ res, subtractLoop (f + 1) x xs Interval.zero [] acc = some (acc ++ res) ∧ _
        rw [subtractLoop_step]
        simp only [hxe, Bool.not_false, if_true, Interval.zero_isEmpty]
        obtain ⟨res, hres, hcov, hpw, hwi⟩ :=
          ih xs [] (acc ++ [x]) f (by simp at hlen ⊢; omega) (by omega) hXp2.2 hXne2 hY
        change subtractLoop f (next xs).1 (next xs).2 Interval.zero [] (acc ++ [x]) = _ at hres
        refine ⟨x :: res, ?_, ?_, ?_, ?_⟩
        · rw [hres]; simp
        · intro p
          constructor
          · rintro ⟨i, hi, hm⟩
            refine ⟨?_, by simp⟩
            rcases List.mem_cons.1 hi with rfl | hi
            · exact ⟨i, by simp, hm⟩
            · obtain ⟨⟨i2, hi2, hm2⟩, _⟩ := (hcov p).1 ⟨i, hi, hm⟩
              exact ⟨i2, List.mem_cons_of_mem _ hi2, hm2⟩
          · rintro ⟨⟨i, hi, hm⟩, _⟩
            rcases List.mem_cons.1 hi with rfl | hi
            · exact ⟨i, by simp, hm⟩
            · obtain ⟨k, hk, hmk⟩ := (hcov p).2 ⟨⟨i, hi, hm⟩, by simp⟩
              exact ⟨k, List.mem_cons_of_mem _ hk, hmk⟩
        · refine List.pairwise_cons.2 ⟨?_, hpw⟩
          intro z hz
          obtain ⟨i, hi, hw⟩ := hwi z hz
          exact separated_of_within_right (hXp2.1 i hi) hw
        · intro z hz
          rcases List.mem_cons.1 hz with rfl | hz
          · exact ⟨z, by simp, within_refl hxe⟩
          · obtain ⟨i, hi, hw⟩ := hwi z hz
            exact ⟨i, List.mem_cons_of_mem _ hi, hw⟩
      | cons y ys =>
        have hye : y.IsEmpty = false := hY.2 y (by simp)
        change ∃ res, subtractLoop (f + 1) x xs y ys acc = some (acc ++ res) ∧ _
        rw [subtractLoop_step]
        simp only [hxe, hye, Bool.not_false, if_true, Bool.false_eq_true, if_false, keep_append]
        have hleft : ∀ z ∈ keep (x.Bisect y).1, Within z x := by
          intro z hz
          obtain ⟨rfl, hz2⟩ := mem_keep.1 hz
          exact bisect_fst_within hz2
        have hleftcov : ∀ p z, z ∈ keep (x.Bisect y).1 → Interval.Mem p z →
            (∃ i ∈ x :: xs, Interval.Mem p i) ∧ ¬ ∃ j ∈ y :: ys, Interval.Mem p j := by
          intro p z hz hm
          obtain ⟨rfl, _⟩ := mem_keep.1 hz
          obtain ⟨h1, h2⟩ := (mem_bisect_fst x hye p).1 hm
          exact ⟨⟨x, by simp, h1⟩, not_covers_of_before hY h2⟩
        have hleftin : ∀ p, Interval.Mem p x →
            (p < y.Begin ∨ (p = y.Begin ∧ y.IncBegin = false)) →
            ∃ i ∈ keep (x.Bisect y).1, Interval.Mem p i := by
          intro p hm hb
          have hml := (mem_bisect_fst x hye p).2 ⟨hm, hb⟩
          refine ⟨_, mem_keep.2 ⟨rfl, ?_⟩, hml⟩
          cases hc : (x.Bisect y).1.IsEmpty
          · rfl
          · exact absurd hml (Interval.not_mem_of_isEmpty hc p)
        cases hr : (x.Bisect y).2.IsEmpty
        · -- a part of `x` remains after `y`
          simp only [Bool.false_eq_true, if_false]
          have hwr := bisect_snd_within hr
          have hyr := ltBeginOf_bisect_snd_of_nonempty hye hr
          obtain ⟨hXr, hXrne⟩ := pairwise_remnant hXp hXne hwr
          obtain ⟨res, hres, hcov, hpw, hwi⟩ :=
            ih ((x.Bisect y).2 :: xs) ys (acc ++ keep (x.Bisect y).1) f
              (by simp at hlen ⊢; omega) (by omega) hXr hXrne (ascending_tail hY)
          change subtractLoop f (x.Bisect y).2 xs (next ys).1 (next ys).2
            (acc ++ keep (x.Bisect y).1) = _ at hres
          refine ⟨keep (x.Bisect y).1 ++ res, ?_, ?_, ?_, ?_⟩
          · rw [hres]; simp
          · intro p
            constructor
            · rintro ⟨i, hi, hm⟩
              rcases List.mem_append.1 hi with hi | hi
              · exact hleftcov p i hi hm
              · obtain ⟨⟨i2, hi2, hm2⟩, hn⟩ := (hcov p).1 ⟨i, hi, hm⟩
                rcases List.mem_cons.1 hi2 with rfl | hi3
                · obtain ⟨h1, h2⟩ := (mem_bisect_snd x hye p).1 hm2
                  refine ⟨⟨x, by simp, h1⟩, ?_⟩
                  rintro ⟨j, hj, hmj⟩
                  rcases List.mem_cons.1 hj with rfl | hj
                  · exact not_mem_of_after h2 hmj
                  · exact hn ⟨j, hj, hmj⟩
                · refine ⟨⟨i2, List.mem_cons_of_mem _ hi3, hm2⟩, ?_⟩
                  rintro ⟨j, hj, hmj⟩
                  rcases List.mem_cons.1 hj with rfl | hj
                  · have h1 := (List.pairwise_cons.1 hXr).1 i2 hi3
                    exact not_mem_of_ltBeginOf (ltBeginOf_trans hyr h1.1) p hmj hm2
                  · exact hn ⟨j, hj, hmj⟩
            · rintro ⟨⟨i, hi, hm⟩, hn⟩
              have hny : ¬ Interval.Mem p y := fun h => hn ⟨y, by simp, h⟩
              have hnys : ¬ ∃ j ∈ ys, Interval.Mem p j := by
                rintro ⟨j, hj, hmj⟩
                exact hn ⟨j, List.mem_cons_of_mem _ hj, hmj⟩
              rcases List.mem_cons.1 hi with rfl | hi
              · rcases mem_trichotomy p y with hb | hin | ha
                · obtain ⟨k, hk, hmk⟩ := hleftin p hm hb
                  exact ⟨k, List.mem_append_left _ hk, hmk⟩
                · exact absurd hin hny
                · have hmr := (mem_bisect_snd i hye p).2 ⟨hm, ha⟩
                  obtain ⟨k, hk, hmk⟩ := (hcov p).2 ⟨⟨_, by simp, hmr⟩, hnys⟩
                  exact ⟨k, List.mem_append_right _ hk, hmk⟩
              · obtain ⟨k, hk, hmk⟩ :=
                  (hcov p).2 ⟨⟨i, List.mem_cons_of_mem _ hi, hm⟩, hnys⟩
                exact ⟨k, List.mem_append_right _ hk, hmk⟩
          · rw [List.pairwise_append]
            refine ⟨?_, hpw, ?_⟩
            · unfold keep
              split_ifs <;> simp
            · intro a ha b hb
              obtain ⟨rfl, ha2⟩ := mem_keep.1 ha
              obtain ⟨i, hi, hw⟩ := hwi b hb
              rcases List.mem_cons.1 hi with rfl | hi
              · exact separated_of_within_right (bisect_separated hye ha2 hr) hw
              · exact separated_of_within_right
                  (separated_of_within_left (hXp2.1 i hi) (bisect_fst_within ha2)) hw
          · intro z hz
            rcases List.mem_append.1 hz with hz | hz
            · exact ⟨x, by simp, hleft z hz⟩
            · obtain ⟨i, hi, hw⟩ := hwi z hz
              rcases List.mem_cons.1 hi with rfl | hi
              · exact ⟨x, by simp, within_trans hw hwr⟩
              · exact ⟨i, List.mem_cons_of_mem _ hi, hw⟩
        · -- nothing of `x` remains after `y`
          simp only [if_true]
          obtain ⟨res, hres, hcov, hpw, hwi⟩ :=
            ih xs (y :: ys) (acc ++ keep (x.Bisect y).1) f
              (by simp at hlen ⊢; omega) (by omega) hXp2.2 hXne2 hY
          change subtractLoop f (next xs).1 (next xs).2 y ys
            (acc ++ keep (x.Bisect y).1) = _ at hres
          refine ⟨keep (x.Bisect y).1 ++ res, ?_, ?_, ?_, ?_⟩
          · rw [hres]; simp
          · intro p
            constructor
            · rintro ⟨i, hi, hm⟩
              rcases List.mem_append.1 hi with hi | hi
              · exact hleftcov p i hi hm
              · obtain ⟨⟨i2, hi2, hm2⟩, hn⟩ := (hcov p).1 ⟨i, hi, hm⟩
                exact ⟨⟨i2, List.mem_cons_of_mem _ hi2, hm2⟩, hn⟩
            · rintro ⟨⟨i, hi, hm⟩, hn⟩
              have hny : ¬ Interval.Mem p y := fun h => hn ⟨y, by simp, h⟩
              rcases List.mem_cons.1 hi with rfl | hi
              · rcases mem_trichotomy p y with hb | hin | ha
                · obtain ⟨k, hk, hmk⟩ := hleftin p hm hb
                  exact ⟨k, List.mem_append_left _ hk, hmk⟩
                · exact absurd hin hny
                · exact absurd ((mem_bisect_snd i hye p).2 ⟨hm, ha⟩)
                    (Interval.not_mem_of_isEmpty hr p)
              · obtain ⟨k, hk, hmk⟩ := (hcov p).2 ⟨⟨i, hi, hm⟩, hn⟩
                exact ⟨k, List.mem_append_right _ hk, hmk⟩
          · rw [List.pairwise_append]
            refine ⟨?_, hpw, ?_⟩
            · unfold keep
              split_ifs <;> simp
            · intro a ha b hb
              obtain ⟨rfl, ha2⟩ := mem_keep.1 ha
              obtain ⟨i, hi, hw⟩ := hwi b hb
              exact separated_of_within_right
                (separated_of_within_left (hXp2.1 i hi) (bisect_fst_within ha2)) hw
          · intro z hz
            rcases List.mem_append.1 hz with hz | hz
            · exact ⟨x, by simp, hleft z hz⟩
            · obtain ⟨i, hi, hw⟩ := hwi z hz
              exact ⟨i, List.mem_cons_of_mem _ hi, hw⟩

/-! ## Subtract computes the coverage of a without b -/

theorem covers_iff_fineCovers (s : OrderedSet) (p : Int) : Covers s p ↔ FineCovers s (2 * p) := by
  unfold Covers FineCovers
  constructor
  · rintro ⟨i, hi, hm⟩
    exact ⟨i, hi, (mem_dbl_iff p i).2 hm⟩
  · rintro ⟨i, hi, hm⟩
    exact ⟨i, hi, (mem_dbl_iff p i).1 hm⟩

theorem fineCovers_iff_map (l : List Interval) (p : Int) :
    FineCovers ⟨l⟩ p ↔ ∃ i ∈ l.map dbl, Interval.Mem p i := by
  unfold FineCovers
  simp only [List.mem_map]
  constructor
  · rintro ⟨i, hi, hm⟩
    exact ⟨dbl i, ⟨i, hi, rfl⟩, hm⟩
  · rintro ⟨_, ⟨i, hi, rfl⟩, hm⟩
    exact ⟨i, hi, hm⟩

theorem overlap_of_common_point {i j : Interval} {p : Int} (hi : Interval.Mem p (dbl i))
    (hj : Interval.Mem p (dbl j)) : (i.Intersect j).IsEmpty = false := by
  have h := (Interval.mem_intersect (dbl i) (dbl j) p).2 ⟨hi, hj⟩
  rw [dbl_intersect] at h
  cases hc : (i.Intersect j).IsEmpty
  · rfl
  · rw [← dbl_isEmpty] at hc
    exact absurd h (Interval.not_mem_of_isEmpty hc p)

theorem ltBeginOf_of_within_right {c a z : Interval} (h : c.LtBeginOf a = true)
    (hz : Within z a) : c.LtBeginOf z = true := by
  rw [Interval.ltBeginOf_iff] at *
  obtain ⟨_, hc, h⟩ := h
  obtain ⟨hz1, hz2, _⟩ := hz
  refine ⟨hz1, hc, ?_⟩
  rcases c with ⟨cb, cib, ce, cie⟩
  rcases a with ⟨ab, aib, ae, aie⟩
  rcases z with ⟨zb, zib, ze, zie⟩
  simp only at *
  cases cie <;> cases aib <;> cases zib <;> simp_all <;> omega

theorem not_ltBeginOf_of_within_left {b x : Interval} (hx : Within x b) :
    x.LtBeginOf b = false := by
  have hb := within_nonempty hx
  obtain ⟨hxe, h1, h2⟩ := hx
  rw [not_ltBeginOf_iff hxe hb]
  rw [Interval.isEmpty_eq_false_iff] at hxe
  rcases b with ⟨bb, bib, be, bie⟩
  rcases x with ⟨xb, xib, xe, xie⟩
  simp only at *
  cases bib <;> cases xib <;> cases xie <;> simp_all <;> omega

theorem mem_iterator_of_overlap {a b : OrderedSet} (ha : WellFormed a) (hb : WellFormed b)
    {i j : Interval} (hi : i ∈ a.intervals) (hj : j ∈ b.intervals)
    (hov : (i.Intersect j).IsEmpty = false) : i ∈ a.Iterator b.Bound true := by
  rw [wellFormed_iff_pairwise] at ha hb
  obtain ⟨la⟩ := a
  obtain ⟨lb⟩ := b
  simp only at ha hb hi hj
  have hw := bound_within hb.1 hb.2 hj
  have hB := within_nonempty hw
  obtain ⟨hn1, hn2⟩ := overlap_not_ltBeginOf hov
  obtain ⟨pre, mid, post, rfl, h1, h3, hit⟩ := iterator_eq_mid ha.2 hB
  rw [hit]
  simp only [List.mem_append] at hi
  rcases hi with (hi | hi) | hi
  · rw [ltBeginOf_of_within_right (h1 i hi) hw] at hn1
    exact absurd hn1 (by decide)
  · exact hi
  · rw [ltBeginOf_of_within_left (h3 i hi) hw] at hn2
    exact absurd hn2 (by decide)

theorem iterator_self {s : OrderedSet} (h : WellFormed s) :
    s.Iterator s.Bound true = s.intervals := by
  rw [wellFormed_iff_pairwise] at h
  obtain ⟨l⟩ := s
  obtain ⟨hne, hp⟩ := h
  simp only at hne hp ⊢
  cases hl : l with
  | nil =>
    unfold OrderedSet.Iterator
    simp
  | cons f t =>
    rw [← hl]
    have hf : f ∈ l := by rw [hl]; simp
    have hB := within_nonempty (bound_within hne hp hf)
    obtain ⟨pre, mid, post, hl2, h1, h3, hit⟩ := iterator_eq_mid hp hB
    rw [hit]
    have hpre : pre = [] := by
      cases hpre : pre with
      | nil => rfl
      | cons a _ =>
        have ha : a ∈ l := by rw [hl2, hpre]; simp
        have := not_ltBeginOf_of_within_left (bound_within hne hp ha)
        rw [h1 a (by rw [hpre]; simp)] at this
        exact absurd this (by decide)
    have hpost : post = [] := by
      cases hpost : post with
      | nil => rfl
      | cons a _ =>
        have ha : a ∈ l := by rw [hl2, hpost]; simp
        have := not_ltBeginOf_of_within (bound_within hne hp ha)
        rw [h3 a (by rw [hpost]; simp)] at this
        exact absurd this (by decide)
    rw [hl2, hpre, hpost]
    simp

theorem iterator_separated {s : OrderedSet} (h : WellFormed s) (B : Interval) :
    (s.Iterator B true).Pairwise Separated ∧ (∀ i ∈ s.Iterator B true, i.IsEmpty = false) ∧
      (s.Iterator B true).length ≤ s.Len := by
  have hasc := iterator_ascending h B
  rw [wellFormed_iff_pairwise] at h
  obtain ⟨hne, hp⟩ := h
  refine ⟨?_, hasc.1.2, hasc.2⟩
  obtain ⟨l⟩ := s
  simp only at hne hp
  unfold OrderedSet.Iterator
  simp only [if_true]
  split_ifs
  · exact List.Pairwise.nil
  · exact (hp.sublist (List.take_sublist _ _)).sublist (List.drop_sublist _ _)

theorem dbl_keep (z : Interval) : keep (dbl z) = (keep z).map dbl := by
  unfold keep
  rw [dbl_isEmpty]
  split_ifs <;> rfl

theorem map_dbl_concat (acc : List Interval) (z : Interval) :
    List.map dbl acc ++ [dbl z] = List.map dbl (acc ++ [z]) := by
  simp

theorem dbl_subtractLoop : ∀ (fuel : Nat) (x : Interval) (xit : List Interval) (y : Interval)
    (yit acc : List Interval),
    subtractLoop fuel (dbl x) (xit.map dbl) (dbl y) (yit.map dbl) (acc.map dbl)
      = (subtractLoop fuel x xit y yit acc).map (List.map dbl) := by
  intro fuel
  induction fuel with
  | zero => intro x xit y yit acc; rfl
  | succ f ih =>
    intro x xit y yit acc
    rw [subtractLoop_step, subtractLoop_step]
    simp only [dbl_isEmpty, dbl_bisect, dbl_next, map_dbl_concat]
    split_ifs <;> first | rfl | exact ih _ _ _ _ _

theorem pairwise_of_map_dbl {l : List Interval} (h : (l.map dbl).Pairwise Separated) :
    l.Pairwise Separated := by
  rw [List.pairwise_map] at h
  exact h.imp (fun hab => (dbl_separated _ _).1 hab)

theorem pairwise_map_dbl {l : List Interval} (h : l.Pairwise Separated) :
    (l.map dbl).Pairwise Separated := by
  rw [List.pairwise_map]
  exact h.imp (fun hab => (dbl_separated _ _).2 hab)

theorem ascending_map_dbl {l : List Interval} (h : Ascending l) : Ascending (l.map dbl) := by
  refine ⟨?_, ?_⟩
  · rw [List.pairwise_map]
    exact h.1.imp (fun hab => by rw [dbl_ltBeginOf]; exact hab)
  · intro i hi
    obtain ⟨j, hj, rfl⟩ := List.mem_map.1 hi
    rw [dbl_isEmpty]
    exact h.2 j hj

theorem nonempty_map_dbl {l : List Interval} (h : ∀ i ∈ l, i.IsEmpty = false) :
    ∀ i ∈ l.map dbl, i.IsEmpty = false := by
  intro i hi
  obtain ⟨j, hj, rfl⟩ := List.mem_map.1 hi
  rw [dbl_isEmpty]
  exact h j hj

/-- `Subtract` on well-formed sets returns a well-formed set that covers, also
between the integer coordinates, exactly what `a` covers and `b` does not. -/
theorem subtract_spec (a b : OrderedSet) (ha : WellFormed a) (hb : WellFormed b) :
    ∃ r, Subtract a b = some r ∧ WellFormed r ∧
      ∀ p : Int, FineCovers r p ↔ (FineCovers a p ∧ ¬ FineCovers b p) := by
  obtain ⟨hXp, hXne, hXl⟩ := iterator_separated ha a.Bound
  obtain ⟨hY, hYl⟩ := iterator_ascending hb a.Bound
  obtain ⟨res2, hres2, hcov, hpw, hwi⟩ :=
    subtractLoop_spec (a.Len + b.Len) ((a.Iterator a.Bound true).map dbl)
      ((b.Iterator a.Bound true).map dbl) ([].map dbl) (a.Len + b.Len + 3)
      (by simp only [List.length_map]; omega) (by omega)
      (pairwise_map_dbl hXp) (nonempty_map_dbl hXne) (ascending_map_dbl hY)
  rw [dbl_next, dbl_next, dbl_subtractLoop] at hres2
  cases hres : subtractLoop (a.Len + b.Len + 3) (next (a.Iterator a.Bound true)).1
      (next (a.Iterator a.Bound true)).2 (next (b.Iterator a.Bound true)).1
      (next (b.Iterator a.Bound true)).2 [] with
  | none => rw [hres] at hres2; exact absurd hres2 (by simp)
  | some res =>
    rw [hres] at hres2
    simp only [Option.map_some', List.map_nil, List.nil_append, Option.some.injEq] at hres2
    subst hres2
    refine ⟨⟨res⟩, ?_, ?_, ?_⟩
    · unfold Subtract
      simp only [hres, Option.map_some']
    · apply wellFormed_of_pairwise
      · intro i hi
        obtain ⟨_, _, hw⟩ := hwi (dbl i) (List.mem_map_of_mem _ hi)
        have := hw.1
        rwa [dbl_isEmpty] at this
      · exact pairwise_of_map_dbl hpw
    · intro p
      rw [fineCovers_iff_map, hcov p, ← fineCovers_iff_map, ← fineCovers_iff_map,
        iterator_self ha]
      constructor
      · rintro ⟨h1, h2⟩
        refine ⟨h1, ?_⟩
        rintro ⟨j, hj, hmj⟩
        obtain ⟨i, hi, hmi⟩ := h1
        exact h2 ⟨j, mem_iterator_of_overlap hb ha hj hi (overlap_of_common_point hmj hmi), hmj⟩
      · rintro ⟨h1, h2⟩
        refine ⟨h1, ?_⟩
        rintro ⟨j, hj, hmj⟩
        exact h2 ⟨j, mem_of_mem_iterator hj, hmj⟩

/-- C11: `Subtract` computes the coverage of `a` without `b`: for all
well-formed sets `a` and `b`, `Subtract(a, b)` returns, and for every integer
coordinate `p` the result covers `p` if and only if `a` covers `p` and `b` does
not cover `p`. -/
theorem subtract_covers (a b : OrderedSet) (ha : WellFormed a) (hb : WellFormed b) :
    ∃ r, Subtract a b = some r ∧
      ∀ p : Int, Covers r p ↔ (Covers a p ∧ ¬ Covers b p) := by
  obtain ⟨r, hr, _, hcov⟩ := subtract_spec a b ha hb
  refine ⟨r, hr, ?_⟩
  intro p
  rw [covers_iff_fineCovers, covers_iff_fineCovers, covers_iff_fineCovers]
  exact hcov (2 * p)

theorem subtract_covers_witness :
    WellFormed ⟨[⟨0, true, 10, true⟩, ⟨20, true, 30, false⟩]⟩ ∧
    WellFormed ⟨[⟨3, true, 5, false⟩, ⟨8, false, 25, true⟩]⟩ ∧
    ∃ r, Subtract ⟨[⟨0, true, 10, true⟩, ⟨20, true, 30, false⟩]⟩
        ⟨[⟨3, true, 5, false⟩, ⟨8, false, 25, true⟩]⟩ = some r ∧
      ∀ p : Int, Covers r p ↔
        (Covers ⟨[⟨0, true, 10, true⟩, ⟨20, true, 30, false⟩]⟩ p ∧
          ¬ Covers ⟨[⟨3, true, 5, false⟩, ⟨8, false, 25, true⟩]⟩ p) :=
  ⟨by decide, by decide, subtract_covers _ _ (by decide) (by decide)⟩

/-! ## Intersect returns a well-formed set; Subtract and Intersect partition a -/

theorem intersect_within {i x : Interval} (h : (i.Intersect x).IsEmpty = false) :
    Within (i.Intersect x) i ∧ Within (i.Intersect x) x := by
  obtain ⟨_, _, hb, he⟩ := Interval.intersect_fields h
  refine ⟨⟨h, ?_, ?_⟩, ⟨h, ?_, ?_⟩⟩
  · rcases hb with ⟨h1, h2, h3⟩ | ⟨h1, h2, h3⟩ | ⟨h1, h2, h3⟩
    · left; omega
    · right; refine ⟨by omega, ?_⟩
      rw [h3]; cases i.IncBegin <;> simp
    · right; exact ⟨by omega, by rw [h3]; exact fun h => h⟩
  · rcases he with ⟨h1, h2, h3⟩ | ⟨h1, h2, h3⟩ | ⟨h1, h2, h3⟩
    · right; exact ⟨by omega, by rw [h3]; exact fun h => h⟩
    · right; refine ⟨by omega, ?_⟩
      rw [h3]; cases i.IncEnd <;> simp
    · left; omega
  · rcases hb with ⟨h1, h2, h3⟩ | ⟨h1, h2, h3⟩ | ⟨h1, h2, h3⟩
    · right; exact ⟨by omega, by rw [h3]; exact fun h => h⟩
    · right; refine ⟨by omega, ?_⟩
      rw [h3]; cases i.IncBegin <;> simp
    · left; omega
  · rcases he with ⟨h1, h2, h3⟩ | ⟨h1, h2, h3⟩ | ⟨h1, h2, h3⟩
    · left; omega
    · right; refine ⟨by omega, ?_⟩
      rw [h3]; cases i.IncEnd <;> simp
    · right; exact ⟨by omega, by rw [h3]; exact fun h => h⟩

/-- The pieces appended by the sweep of `Intersect` over two separated
sequences are separated, and each lies inside an interval of either sequence. -/
theorem intersectLoop_wf : ∀ (n : Nat) (X Y acc : List Interval) (fuel : Nat),
    X.length + Y.length ≤ n → 2 * n + 1 ≤ fuel →
    X.Pairwise Separated → (∀ i ∈ X, i.IsEmpty = false) →
    Y.Pairwise Separated → (∀ i ∈ Y, i.IsEmpty = false) →
    ∃ res, intersectLoop fuel (next X).1 (next X).2 (next Y).1 (next Y).2 acc
        = some (acc ++ res) ∧
      res.Pairwise Separated ∧
      ∀ z ∈ res, (∃ i ∈ X, Within z i) ∧ (∃ j ∈ Y, Within z j) := by
  intro n
  induction n with
  | zero =>
    intro X Y acc fuel hlen hfuel _ _ _ _
    have hX : X = [] := List.eq_nil_of_length_eq_zero (by omega)
    subst hX
    obtain ⟨f, rfl⟩ : ∃ f, fuel = f + 1 := ⟨fuel - 1, by omega⟩
    refine ⟨[], ?_, List.Pairwise.nil, ?_⟩
    · rw [intersectLoop_step]
      simp [next, Interval.zero_isEmpty]
    · intro z hz; simp at hz
  | succ n ih =>
    intro X Y acc fuel hlen hfuel hXp hXne hYp hYne
    obtain ⟨f, rfl⟩ : ∃ f, fuel = f + 1 := ⟨fuel - 1, by omega⟩
    cases X with
    | nil =>
      refine ⟨[], ?_, List.Pairwise.nil, ?_⟩
      · rw [intersectLoop_step]
        simp [next, Interval.zero_isEmpty]
      · intro z hz; simp at hz
    | cons x xs =>
      cases Y with
      | nil =>
        refine ⟨[], ?_, List.Pairwise.nil, ?_⟩
        · rw [intersectLoop_step]
          simp [next, Interval.zero_isEmpty]
        · intro z hz; simp at hz
      | cons y ys =>
        have hxe : x.IsEmpty = false := hXne x (by simp)
        have hye : y.IsEmpty = false := hYne y (by simp)
        have hXp2 := List.pairwise_cons.1 hXp
        have hYp2 := List.pairwise_cons.1 hYp
        have hXne2 : ∀ i ∈ xs, i.IsEmpty = false :=
          fun i hi => hXne i (List.mem_cons_of_mem _ hi)
        have hYne2 : ∀ i ∈ ys, i.IsEmpty = false :=
          fun i hi => hYne i (List.mem_cons_of_mem _ hi)
        simp only [List.length_cons] at hlen
        change ∃ res, intersectLoop (f + 1) x xs y ys acc = some (acc ++ res) ∧ _
        rw [intersectLoop_step]
        simp only [hxe, hye, Bool.not_false, Bool.and_self, if_true]
        by_cases hxy : x.LtBeginOf y = true
        · rw [if_pos hxy]
          obtain ⟨res, hres, hpw, hwi⟩ :=
            ih xs (y :: ys) acc f (by simp; omega) (by omega) hXp2.2 hXne2 hYp hYne
          refine ⟨res, hres, hpw, ?_⟩
          intro z hz
          obtain ⟨⟨i, hi, hw⟩, h2⟩ := hwi z hz
          exact ⟨⟨i, List.mem_cons_of_mem _ hi, hw⟩, h2⟩
        · rw [if_neg hxy]
          by_cases hyx : y.LtBeginOf x = true
          · rw [if_pos hyx]
            obtain ⟨res, hres, hpw, hwi⟩ :=
              ih (x :: xs) ys acc f (by simp; omega) (by omega) hXp hXne hYp2.2 hYne2
            refine ⟨res, hres, hpw, ?_⟩
            intro z hz
            obtain ⟨h1, ⟨j, hj, hw⟩⟩ := hwi z hz
            exact ⟨h1, ⟨j, List.mem_cons_of_mem _ hj, hw⟩⟩
          · rw [if_neg hyx]
            have hxy2 : x.LtBeginOf y = false := by simpa using hxy
            have hyx2 : y.LtBeginOf x = false := by simpa using hyx
            have hov := overlap_of_not_ltBeginOf hxe hye hxy2 hyx2
            obtain ⟨hwx, hwy⟩ := intersect_within hov
            rw [if_pos (by rw [hov]; rfl)]
            cases hr : (x.Bisect y).2.IsEmpty
            · rw [if_pos (by rfl)]
              obtain ⟨f2, rfl⟩ : ∃ f2, f = f2 + 1 := ⟨f - 1, by omega⟩
              have hyr := ltBeginOf_bisect_snd hov hr
              have hry := ltBeginOf_asymm hyr
              rw [intersectLoop_step]
              simp only [hr, hye, Bool.not_false, Bool.and_self, if_true, hry,
                Bool.false_eq_true, if_false, hyr]
              have hwr := bisect_snd_within hr
              obtain ⟨hXr, hXrne⟩ := pairwise_remnant hXp hXne hwr
              obtain ⟨res, hres, hpw, hwi⟩ :=
                ih ((x.Bisect y).2 :: xs) ys (acc ++ [x.Intersect y]) f2 (by simp; omega)
                  (by omega) hXr hXrne hYp2.2 hYne2
              change intersectLoop f2 (x.Bisect y).2 xs (next ys).1 (next ys).2
                (acc ++ [x.Intersect y]) = _ at hres
              refine ⟨x.Intersect y :: res, ?_, ?_, ?_⟩
              · rw [hres]; simp
              · refine List.pairwise_cons.2 ⟨?_, hpw⟩
                intro z hz
                obtain ⟨_, ⟨j, hj, hw⟩⟩ := hwi z hz
                exact separated_of_within_right
                  (separated_of_within_left (hYp2.1 j hj) hwy) hw
              · intro z hz
                rcases List.mem_cons.1 hz with rfl | hz
                · exact ⟨⟨x, by simp, hwx⟩, ⟨y, by simp, hwy⟩⟩
                · obtain ⟨⟨i, hi, hw⟩, ⟨j, hj, hw2⟩⟩ := hwi z hz
                  refine ⟨?_, ⟨j, List.mem_cons_of_mem _ hj, hw2⟩⟩
                  rcases List.mem_cons.1 hi with rfl | hi3
                  · exact ⟨x, by simp, within_trans hw hwr⟩
                  · exact ⟨i, List.mem_cons_of_mem _ hi3, hw⟩
            · rw [if_neg (by simp)]
              obtain ⟨res, hres, hpw, hwi⟩ :=
                ih xs (y :: ys) (acc ++ [x.Intersect y]) f (by simp; omega) (by omega)
                  hXp2.2 hXne2 hYp hYne
              change intersectLoop f (next xs).1 (next xs).2 y ys
                (acc ++ [x.Intersect y]) = _ at hres
              refine ⟨x.Intersect y :: res, ?_, ?_, ?_⟩
              · rw [hres]; simp
              · refine List.pairwise_cons.2 ⟨?_, hpw⟩
                intro z hz
                obtain ⟨⟨i, hi, hw⟩, _⟩ := hwi z hz
                exact separated_of_within_right
                  (separated_of_within_left (hXp2.1 i hi) hwx) hw
              · intro z hz
                rcases List.mem_cons.1 hz with rfl | hz
                · exact ⟨⟨x, by simp, hwx⟩, ⟨y, by simp, hwy⟩⟩
                · obtain ⟨⟨i, hi, hw⟩, h2⟩ := hwi z hz
                  exact ⟨⟨i, List.mem_cons_of_mem _ hi, hw⟩, h2⟩

theorem dbl_intersectLoop : ∀ (fuel : Nat) (x : Interval) (xit : List Interval) (y : Interval)
    (yit acc : List Interval),
    intersectLoop fuel (dbl x) (xit.map dbl) (dbl y) (yit.map dbl) (acc.map dbl)
      = (intersectLoop fuel x xit y yit acc).map (List.map dbl) := by
  intro fuel
  induction fuel with
  | zero => intro x xit y yit acc; rfl
  | succ f ih =>
    intro x xit y yit acc
    rw [intersectLoop_step, intersectLoop_step]
    simp only [dbl_isEmpty, dbl_bisect, dbl_next, dbl_ltBeginOf, dbl_intersect, map_dbl_concat]
    split_ifs <;> first | rfl | exact ih _ _ _ _ _

/-- `Intersect` on well-formed sets returns a well-formed set that covers, also
between the integer coordinates, exactly what both `a` and `b` cover. -/
theorem intersect_spec (a b : OrderedSet) (ha : WellFormed a) (hb : WellFormed b) :
    ∃ r, Intersect a b = some r ∧ WellFormed r ∧
      ∀ p : Int, FineCovers r p ↔ (FineCovers a p ∧ FineCovers b p) := by
  obtain ⟨hXp, hXne, hXl⟩ := iterator_separated ha b.Bound
  obtain ⟨hYp, hYne, hYl⟩ := iterator_separated hb a.Bound
  obtain ⟨hX, _⟩ := iterator_ascending ha b.Bound
  obtain ⟨hY, _⟩ := iterator_ascending hb a.Bound
  obtain ⟨res2, hres2, hcov⟩ :=
    intersectLoop_spec (a.Len + b.Len) ((a.Iterator b.Bound true).map dbl)
      ((b.Iterator a.Bound true).map dbl) ([].map dbl) (2 * (a.Len + b.Len) + 3)
      (by simp only [List.length_map]; omega) (by omega)
      (ascending_map_dbl hX) (ascending_map_dbl hY)
  obtain ⟨res, hres, hpw, hwi⟩ :=
    intersectLoop_wf (a.Len + b.Len) (a.Iterator b.Bound true) (b.Iterator a.Bound true) []
      (2 * (a.Len + b.Len) + 3) (by omega) (by omega) hXp hXne hYp hYne
  rw [dbl_next, dbl_next, dbl_intersectLoop, hres] at hres2
  simp only [Option.map_some', List.map_nil, List.nil_append, Option.some.injEq] at hres2
  subst hres2
  refine ⟨⟨res⟩, ?_, ?_, ?_⟩
  · unfold Intersect IntersectWithin
    simp only [hres, List.nil_append, Option.map_some']
  · apply wellFormed_of_pairwise
    · intro i hi
      exact (hwi i hi).1.choose_spec.2.1
    · exact hpw
  · intro p
    rw [fineCovers_iff_map, hcov p, ← fineCovers_iff_map, ← fineCovers_iff_map]
    constructor
    · rintro ⟨⟨i, hi, hmi⟩, ⟨j, hj, hmj⟩⟩
      exact ⟨⟨i, mem_of_mem_iterator hi, hmi⟩, ⟨j, mem_of_mem_iterator hj, hmj⟩⟩
    · rintro ⟨⟨i, hi, hmi⟩, ⟨j, hj, hmj⟩⟩
      have hov := overlap_of_common_point hmi hmj
      have hov2 := overlap_of_common_point hmj hmi
      exact ⟨⟨i, mem_iterator_of_overlap ha hb hi hj hov, hmi⟩,
        ⟨j, mem_iterator_of_overlap hb ha hj hi hov2, hmj⟩⟩

/-- C14: `Subtract` and `Intersect` partition `a`: for all well-formed sets
`a` and `b` both operations return, no integer coordinate is covered by both
results, and a coordinate `p` is covered by `a` if and only if exactly one of
`Subtract(a, b)` and `Intersect(a, b)` covers `p`. -/
theorem subtract_intersect_partition (a b : OrderedSet) (ha : WellFormed a)
    (hb : WellFormed b) :
    ∃ s t, Subtract a b = some s ∧ Intersect a b = some t ∧
      ∀ p : Int, ¬ (Covers s p ∧ Covers t p) ∧
        (Covers a p ↔ ((Covers s p ∧ ¬ Covers t p) ∨ (¬ Covers s p ∧ Covers t p))) := by
  obtain ⟨s, hs, _, hcs⟩ := subtract_spec a b ha hb
  obtain ⟨t, ht, _, hct⟩ := intersect_spec a b ha hb
  refine ⟨s, t, hs, ht, ?_⟩
  intro p
  rw [covers_iff_fineCovers s, covers_iff_fineCovers t, covers_iff_fineCovers a, hcs, hct]
  by_cases h1 : FineCovers a (2 * p) <;> by_cases h2 : FineCovers b (2 * p) <;> simp [h1, h2]

theorem subtract_intersect_partition_witness :
    WellFormed ⟨[⟨0, true, 10, true⟩, ⟨20, true, 30, false⟩]⟩ ∧
    WellFormed ⟨[⟨3, true, 5, false⟩, ⟨8, false, 25, true⟩]⟩ ∧
    ∃ s t, Subtract ⟨[⟨0, true, 10, true⟩, ⟨20, true, 30, false⟩]⟩
          ⟨[⟨3, true, 5, false⟩, ⟨8, false, 25, true⟩]⟩ = some s ∧
        Intersect ⟨[⟨0, true, 10, true⟩, ⟨20, true, 30, false⟩]⟩
          ⟨[⟨3, true, 5, false⟩, ⟨8, false, 25, true⟩]⟩ = some t ∧
      ∀ p : Int, ¬ (Covers s p ∧ Covers t p) ∧
        (Covers ⟨[⟨0, true, 10, true⟩, ⟨20, true, 30, false⟩]⟩ p ↔
          ((Covers s p ∧ ¬ Covers t p) ∨ (¬ Covers s p ∧ Covers t p))) :=
  ⟨by decide, by decide, subtract_intersect_partition _ _ (by decide) (by decide)⟩

/-! ## Helpers for the sweep of Difference -/

theorem mem_adjoin {a y : Interval} (h : (a.Adjoin y).IsEmpty = false) (p : Int) :
    Interval.Mem p (a.Adjoin y) ↔ (Interval.Mem p a ∨ Interval.Mem p y) := by
  have hy : y.IsEmpty = false := by
    cases hc : y.IsEmpty
    · rfl
    · unfold Interval.Adjoin at h
      simp [hc, Interval.zero_isEmpty] at h
  have ha : a.IsEmpty = false := by
    cases hc : a.IsEmpty
    · rfl
    · unfold Interval.Adjoin at h
      simp [hc, Interval.zero_isEmpty] at h
  unfold Interval.Adjoin at h ⊢
  simp only [hy, ha, Bool.or_self, Bool.false_eq_true, if_false] at h ⊢
  rw [Interval.isEmpty_eq_false_iff] at hy ha
  unfold Interval.Mem
  rcases a with ⟨ab, aib, ae, aie⟩
  rcases y with ⟨yb, yib, ye, yie⟩
  simp only at *
  by_cases c1 : ab = ye ∧ (aib || yie) = true
  · simp only [if_pos c1] at h ⊢
    obtain ⟨c1, c2⟩ := c1
    subst c1
    cases aib <;> cases aie <;> cases yib <;> cases yie <;> simp_all <;> omega
  · simp only [if_neg c1] at h ⊢
    by_cases c2 : ae = yb ∧ (aie || yib) = true
    · simp only [if_pos c2] at h ⊢
      obtain ⟨c2, c3⟩ := c2
      subst c2
      clear c1
      cases aib <;> cases aie <;> cases yib <;> cases yie <;> simp_all <;> omega
    · simp only [if_neg c2] at h
      exact absurd h (by simp [Interval.zero_isEmpty])

theorem covers_adjoinOrAppend (l : List Interval) (y : Interval) (p : Int) :
    (∃ i ∈ adjoinOrAppend l y, Interval.Mem p i) ↔
      ((∃ i ∈ l, Interval.Mem p i) ∨ Interval.Mem p y) := by
  rcases adjoinOrAppend_cases l y with ⟨heq, _⟩ | ⟨q, a, rfl, hne, heq⟩
  · rw [heq]
    simp only [List.mem_append, List.mem_singleton]
    constructor
    · rintro ⟨i, hi | rfl, hm⟩
      · exact Or.inl ⟨i, hi, hm⟩
      · exact Or.inr hm
    · rintro (⟨i, hi, hm⟩ | hm)
      · exact ⟨i, Or.inl hi, hm⟩
      · exact ⟨y, Or.inr rfl, hm⟩
  · rw [heq]
    simp only [List.mem_append, List.mem_singleton]
    constructor
    · rintro ⟨i, hi | rfl, hm⟩
      · exact Or.inl ⟨i, Or.inl hi, hm⟩
      · rcases (mem_adjoin hne p).1 hm with h | h
        · exact Or.inl ⟨a, Or.inr rfl, h⟩
        · exact Or.inr h
    · rintro (⟨i, hi | rfl, hm⟩ | hm)
      · exact ⟨i, Or.inl hi, hm⟩
      · exact ⟨_, Or.inr rfl, (mem_adjoin hne p).2 (Or.inl hm)⟩
      · exact ⟨_, Or.inr rfl, (mem_adjoin hne p).2 (Or.inr hm)⟩

theorem bisect_fst_ltBeginOf {x y : Interval} (hy : y.IsEmpty = false)
    (hl : (x.Bisect y).1.IsEmpty = false) : (x.Bisect y).1.LtBeginOf y = true := by
  cases hov : (x.Intersect y).IsEmpty
  · rw [Interval.bisect_of_overlap hov] at hl ⊢
    simp only at hl ⊢
    rw [Interval.maybeEmpty_isEmpty] at hl
    rw [Interval.maybeEmpty_of_nonempty hl, Interval.ltBeginOf_iff]
    refine ⟨hy, hl, Or.inr ⟨rfl, ?_⟩⟩
    simp only
    cases y.IncBegin <;> simp
  · rw [Interval.bisect_of_disjoint hov] at hl ⊢
    cases hxy : x.LtBeginOf y
    · simp only [hxy, Bool.false_eq_true, if_false] at hl
      exact absurd hl (by simp [Interval.zero_isEmpty])
    · simp only [hxy, if_true]

theorem bisect_fst_exclusive {x y : Interval} (hov : (x.Intersect y).IsEmpty = false)
    (hl : (x.Bisect y).1.IsEmpty = false) : (y.Bisect x).1.IsEmpty = true := by
  have hov2 : (y.Intersect x).IsEmpty = false := by rw [intersect_isEmpty_comm]; exact hov
  rw [Interval.bisect_of_overlap hov] at hl
  rw [Interval.bisect_of_overlap hov2]
  simp only at hl ⊢
  rw [Interval.maybeEmpty_isEmpty] at hl ⊢
  rw [Interval.isEmpty_eq_false_iff] at hl
  rw [Interval.isEmpty_eq_true_iff]
  simp only at hl ⊢
  rcases hl with h | ⟨h1, _, h3⟩
  · exact Or.inl h
  · exact Or.inr ⟨h1.symm, Or.inl (by simpa using h3)⟩

theorem bisect_snd_exclusive {x y : Interval} (hov : (x.Intersect y).IsEmpty = false)
    (hr : (x.Bisect y).2.IsEmpty = false) : (y.Bisect x).2.IsEmpty = true := by
  have hov2 : (y.Intersect x).IsEmpty = false := by rw [intersect_isEmpty_comm]; exact hov
  rw [Interval.bisect_of_overlap hov] at hr
  rw [Interval.bisect_of_overlap hov2]
  simp only at hr ⊢
  rw [Interval.maybeEmpty_isEmpty] at hr ⊢
  rw [Interval.isEmpty_eq_false_iff] at hr
  rw [Interval.isEmpty_eq_true_iff]
  simp only at hr ⊢
  rcases hr with h | ⟨h1, h2, _⟩
  · exact Or.inl h
  · exact Or.inr ⟨h1.symm, Or.inr (by simpa using h2)⟩

theorem next_keep_append (z : Interval) (l : List Interval) :
    (if z.IsEmpty = true then next l else (z, l)) = next (keep z ++ l) := by
  unfold keep
  cases z.IsEmpty <;> rfl

theorem push_keep (acc : List Interval) (z : Interval) :
    (if (!z.IsEmpty) = true then adjoinOrAppend acc z else acc)
      = (keep z).foldl adjoinOrAppend acc := by
  unfold keep
  cases z.IsEmpty <;> rfl

theorem differenceLoop_step (fuel : Nat) (x : Interval) (xit : List Interval) (y : Interval)
    (yit acc : List Interval) :
    differenceLoop (fuel + 1) x xit y yit acc =
      if x.IsEmpty = true then
        if y.IsEmpty = true then some acc
        else differenceLoop fuel x xit (next yit).1 (next yit).2 (adjoinOrAppend acc y)
      else if y.IsEmpty = true then
        differenceLoop fuel (next xit).1 (next xit).2 y yit (adjoinOrAppend acc x)
      else if x.LtBeginOf y = true then
        differenceLoop fuel (next xit).1 (next xit).2 y yit (adjoinOrAppend acc x)
      else if y.LtBeginOf x = true then
        differenceLoop fuel x xit (next yit).1 (next yit).2 (adjoinOrAppend acc y)
      else
        differenceLoop fuel (next (keep (x.Bisect y).2 ++ xit)).1
          (next (keep (x.Bisect y).2 ++ xit)).2
          (next (keep (y.Bisect x).2 ++ yit)).1 (next (keep (y.Bisect x).2 ++ yit)).2
          ((keep (y.Bisect x).1).foldl adjoinOrAppend
            ((keep (x.Bisect y).1).foldl adjoinOrAppend acc)) := by
  rw [← next_keep_append, ← next_keep_append, ← push_keep, ← push_keep]
  rfl

/-- What a push does to the invariant of the sweep of `Difference`: the
sequence stays well formed and its new last interval ends where `w` ends. -/
theorem push_inv {acc : List Interval} {w : Interval} (hne : ∀ i ∈ acc, i.IsEmpty = false)
    (hp : acc.Pairwise Separated) (hw : w.IsEmpty = false)
    (hlt : ∀ a ∈ acc.getLast?, a.LtBeginOf w = true) :
    (∀ i ∈ adjoinOrAppend acc w, i.IsEmpty = false) ∧
    (adjoinOrAppend acc w).Pairwise Separated ∧
    ∀ c, w.LtBeginOf c = true → ∀ a ∈ (adjoinOrAppend acc w).getLast?, a.LtBeginOf c = true := by
  obtain ⟨h1, h2, _⟩ := push_single hne hp hw hlt
  refine ⟨h1, h2, ?_⟩
  obtain ⟨q, z, heq, _, _, hz, he, hi, _, _, _⟩ := push_spec hne hp hw hlt
  intro c hc a ha
  have hl : (q ++ [z]).getLast? = some z := by simp
  rw [heq, hl] at ha
  simp only [Option.mem_def, Option.some.injEq] at ha
  subst ha
  exact ltBeginOf_congr_left hc hz he hi

theorem symmdiff_push_left {A px pxs pY : Prop} (h : px → ¬ pY) :
    ((A ∨ px) ∨ ((pxs ∧ ¬ pY) ∨ (¬ pxs ∧ pY))) ↔
      (A ∨ (((px ∨ pxs) ∧ ¬ pY) ∨ (¬ (px ∨ pxs) ∧ pY))) := by
  by_cases h1 : px <;> by_cases h2 : pY <;> simp_all

theorem symmdiff_push_right {A py pys pX : Prop} (h : py → ¬ pX) :
    ((A ∨ py) ∨ ((pX ∧ ¬ pys) ∨ (¬ pX ∧ pys))) ↔
      (A ∨ ((pX ∧ ¬ (py ∨ pys)) ∨ (¬ pX ∧ (py ∨ pys)))) := by
  by_cases h1 : py <;> by_cases h2 : pX <;> simp_all

theorem symmdiff_overlap_step {A ix iy bx ax by_ ay Pxs Pys l1 r1 l2 r2 : Prop}
    (hl1 : l1 ↔ ix ∧ by_) (hr1 : r1 ↔ ix ∧ ay) (hl2 : l2 ↔ iy ∧ bx) (hr2 : r2 ↔ iy ∧ ax)
    (tx : bx ∨ ix ∨ ax) (ty : by_ ∨ iy ∨ ay) (ex : ix → ¬ bx ∧ ¬ ax) (ey : iy → ¬ by_ ∧ ¬ ay)
    (nx : ¬ (bx ∧ ax)) (ny : ¬ (by_ ∧ ay)) (sx : Pxs → ax) (sy : Pys → ay) :
    (((A ∨ l1) ∨ l2) ∨ (((r1 ∨ Pxs) ∧ ¬ (r2 ∨ Pys)) ∨ (¬ (r1 ∨ Pxs) ∧ (r2 ∨ Pys)))) ↔
      (A ∨ (((ix ∨ Pxs) ∧ ¬ (iy ∨ Pys)) ∨ (¬ (ix ∨ Pxs) ∧ (iy ∨ Pys)))) := by
  rw [hl1, hr1, hl2, hr2]
  by_cases h1 : ix <;> by_cases h2 : iy <;> by_cases h3 : ax <;> by_cases h4 : ay <;>
    by_cases h5 : bx <;> by_cases h6 : by_ <;> simp_all

theorem covers_cons (x : Interval) (xs : List Interval) (p : Int) :
    (∃ i ∈ x :: xs, Interval.Mem p i) ↔ (Interval.Mem p x ∨ ∃ i ∈ xs, Interval.Mem p i) := by
  simp

theorem covers_keep_append (z : Interval) (l : List Interval) (p : Int) :
    (∃ i ∈ keep z ++ l, Interval.Mem p i) ↔ (Interval.Mem p z ∨ ∃ i ∈ l, Interval.Mem p i) := by
  cases hz : z.IsEmpty
  · rw [keep_of_nonempty hz]
    simp
  · rw [keep_of_isEmpty hz]
    have := Interval.not_mem_of_isEmpty hz p
    simp [this]

theorem covers_foldl_keep (acc : List Interval) (z : Interval) (p : Int) :
    (∃ i ∈ (keep z).foldl adjoinOrAppend acc, Interval.Mem p i) ↔
      ((∃ i ∈ acc, Interval.Mem p i) ∨ Interval.Mem p z) := by
  cases hz : z.IsEmpty
  · rw [keep_of_nonempty hz]
    exact covers_adjoinOrAppend acc z p
  · rw [keep_of_isEmpty hz]
    have := Interval.not_mem_of_isEmpty hz p
    simp [this]

theorem not_before_and_after {x : Interval} (hx : x.IsEmpty = false) (p : Int) :
    ¬ ((p < x.Begin ∨ (p = x.Begin ∧ x.IncBegin = false)) ∧
       (x.End < p ∨ (p = x.End ∧ x.IncEnd = false))) := by
  rw [Interval.isEmpty_eq_false_iff] at hx
  rcases x with ⟨xb, xib, xe, xie⟩
  simp only at *
  cases xib <;> cases xie <;> simp_all <;> omega

theorem not_before_after_of_mem {x : Interval} {p : Int} (h : Interval.Mem p x) :
    ¬ (p < x.Begin ∨ (p = x.Begin ∧ x.IncBegin = false)) ∧
    ¬ (x.End < p ∨ (p = x.End ∧ x.IncEnd = false)) := by
  have := (not_mem_iff x p).not.1 (not_not.2 h)
  exact not_or.1 this

theorem after_of_covers {x : Interval} {xs : List Interval} {p : Int}
    (hp : (x :: xs).Pairwise Separated) (h : ∃ i ∈ xs, Interval.Mem p i) :
    x.End < p ∨ (p = x.End ∧ x.IncEnd = false) := by
  obtain ⟨i, hi, hm⟩ := h
  exact after_of_ltBeginOf ((List.pairwise_cons.1 hp).1 i hi).1 hm

theorem pairwise_keep_remnant {x r : Interval} {xs : List Interval}
    (hp : (x :: xs).Pairwise Separated) (hne : ∀ i ∈ x :: xs, i.IsEmpty = false)
    (hw : r.IsEmpty = false → Within r x) :
    (keep r ++ xs).Pairwise Separated ∧ (∀ i ∈ keep r ++ xs, i.IsEmpty = false) ∧
      ∀ i ∈ keep r ++ xs, Within i x ∨ i ∈ xs := by
  cases hr : r.IsEmpty
  · rw [keep_of_nonempty hr]
    obtain ⟨h1, h2⟩ := pairwise_remnant hp hne (hw hr)
    refine ⟨h1, h2, ?_⟩
    intro i hi
    rcases List.mem_cons.1 hi with rfl | hi
    · exact Or.inl (hw hr)
    · exact Or.inr hi
  · rw [keep_of_isEmpty hr]
    refine ⟨(List.pairwise_cons.1 hp).2, fun i hi => hne i (List.mem_cons_of_mem _ hi), ?_⟩
    intro i hi
    exact Or.inr hi

theorem length_keep_le (z : Interval) : (keep z).length ≤ 1 := by
  unfold keep
  split_ifs <;> simp

theorem length_keep_of_isEmpty {z : Interval} (h : z.IsEmpty = true) : (keep z).length = 0 := by
  rw [keep_of_isEmpty h]; rfl

/-! ## The sweep of Difference -/

/-- The sweep of `Difference` over two separated sequences ends within
`|X| + |Y| + 1` iterations. If the sequence built so far is well formed and
its last interval lies before everything still to come, the result is well
formed and covers what was built so far plus the points of exactly one of `X`
and `Y`. -/
theorem differenceLoop_spec : ∀ (n : Nat) (X Y acc : List Interval) (fuel : Nat),
    X.length + Y.length ≤ n → n + 1 ≤ fuel →
    X.Pairwise Separated → (∀ i ∈ X, i.IsEmpty = false) →
    Y.Pairwise Separated → (∀ i ∈ Y, i.IsEmpty = false) →
    acc.Pairwise Separated → (∀ i ∈ acc, i.IsEmpty = false) →
    (∀ a ∈ acc.getLast?, ∀ c ∈ X ++ Y, a.LtBeginOf c = true) →
    ∃ res, differenceLoop fuel (next X).1 (next X).2 (next Y).1 (next Y).2 acc = some res ∧
      res.Pairwise Separated ∧ (∀ i ∈ res, i.IsEmpty = false) ∧
      ∀ p : Int, (∃ i ∈ res, Interval.Mem p i) ↔
        ((∃ i ∈ acc, Interval.Mem p i) ∨
          (((∃ i ∈ X, Interval.Mem p i) ∧ ¬ ∃ j ∈ Y, Interval.Mem p j) ∨
           (¬ (∃ i ∈ X, Interval.Mem p i) ∧ ∃ j ∈ Y, Interval.Mem p j))) := by
  intro n
  induction n with
  | zero =>
    intro X Y acc fuel hlen hfuel _ _ _ _ hap hane _
    have hX : X = [] := List.eq_nil_of_length_eq_zero (by omega)
    have hY : Y = [] := List.eq_nil_of_length_eq_zero (by omega)
    subst hX hY
    obtain ⟨f, rfl⟩ : ∃ f, fuel = f + 1 := ⟨fuel - 1, by omega⟩
    refine ⟨acc, ?_, hap, hane, ?_⟩
    · rw [differenceLoop_step]
      simp [next, Interval.zero_isEmpty]
    · intro p; simp
  | succ n ih =>
    intro X Y acc fuel hlen hfuel hXp hXne hYp hYne hap hane hlast
    obtain ⟨f, rfl⟩ : ∃ f, fuel = f + 1 := ⟨fuel - 1, by omega⟩
    cases X with
    | nil =>
      cases Y with
      | nil =>
        refine ⟨acc, ?_, hap, hane, ?_⟩
        · rw [differenceLoop_step]
          simp [next, Interval.zero_isEmpty]
        · intro p; simp
      | cons y ys =>
        have hye : y.IsEmpty = false := hYne y (by simp)
        have hYp2 := List.pairwise_cons.1 hYp
        have hYne2 : ∀ i ∈ ys, i.IsEmpty = false :=
          fun i hi => hYne i (List.mem_cons_of_mem _ hi)
        simp only [List.length_cons, List.length_nil] at hlen
        change ∃ res, differenceLoop (f + 1) Interval.zero [] y ys acc = some res ∧ _
        rw [differenceLoop_step]
        simp only [Interval.zero_isEmpty, if_true, hye, Bool.false_eq_true, if_false]
        obtain ⟨hne2, hp2, hl2⟩ := push_inv hane hap hye (fun a ha => hlast a ha y (by simp))
        obtain ⟨res, hres, hpw, hrne, hcov⟩ :=
          ih [] ys (adjoinOrAppend acc y) f (by simp; omega) (by omega) hXp hXne hYp2.2 hYne2
            hp2 hne2 (fun a ha c hc => hl2 c (hYp2.1 c (by simpa using hc)).1 a ha)
        change differenceLoop f Interval.zero [] (next ys).1 (next ys).2
          (adjoinOrAppend acc y) = _ at hres
        refine ⟨res, hres, hpw, hrne, ?_⟩
        intro p
        rw [hcov p, covers_adjoinOrAppend, covers_cons]
        exact symmdiff_push_right (fun _ => by simp)
    | cons x xs =>
      have hxe : x.IsEmpty = false := hXne x (by simp)
      have hXp2 := List.pairwise_cons.1 hXp
      have hXne2 : ∀ i ∈ xs, i.IsEmpty = false :=
        fun i hi => hXne i (List.mem_cons_of_mem _ hi)
      cases Y with
      | nil =>
        simp only [List.length_cons, List.length_nil] at hlen
        change ∃ res, differenceLoop (f + 1) x xs Interval.zero [] acc = some res ∧ _
        rw [differenceLoop_step]
        simp only [Interval.zero_isEmpty, if_true, hxe, Bool.false_eq_true, if_false]
        obtain ⟨hne2, hp2, hl2⟩ := push_inv hane hap hxe (fun a ha => hlast a ha x (by simp))
        obtain ⟨res, hres, hpw, hrne, hcov⟩ :=
          ih xs [] (adjoinOrAppend acc x) f (by simp; omega) (by omega) hXp2.2 hXne2 hYp hYne
            hp2 hne2 (fun a ha c hc => hl2 c (hXp2.1 c (by simpa using hc)).1 a ha)
        change differenceLoop f (next xs).1 (next xs).2 Interval.zero []
          (adjoinOrAppend acc x) = _ at hres
        refine ⟨res, hres, hpw, hrne, ?_⟩
        intro p
        rw [hcov p, covers_adjoinOrAppend, covers_cons]
        exact symmdiff_push_left (fun _ => by simp)
      | cons y ys =>
        have hye : y.IsEmpty = false := hYne y (by simp)
        have hYp2 := List.pairwise_cons.1 hYp
        have hYne2 : ∀ i ∈ ys, i.IsEmpty = false :=
          fun i hi => hYne i (List.mem_cons_of_mem _ hi)
        have hXasc := ascending_of_pairwise_separated hXne hXp
        have hYasc := ascending_of_pairwise_separated hYne hYp
        simp only [List.length_cons] at hlen
        change ∃ res, differenceLoop (f + 1) x xs y ys acc = some res ∧ _
        rw [differenceLoop_step]
        simp only [hxe, hye, Bool.false_eq_true, if_false]
        by_cases hxy : x.LtBeginOf y = true
        · -- `x` lies before `y`: push `x`
          rw [if_pos hxy]
          obtain ⟨hne2, hp2, hl2⟩ :=
            push_inv hane hap hxe (fun a ha => hlast a ha x (by simp))
          have hbefore : ∀ c ∈ xs ++ y :: ys, x.LtBeginOf c = true := by
            intro c hc
            rcases List.mem_append.1 hc with hc | hc
            · exact (hXp2.1 c hc).1
            · rcases List.mem_cons.1 hc with rfl | hc
              · exact hxy
              · exact ltBeginOf_trans hxy (hYp2.1 c hc).1
          obtain ⟨res, hres, hpw, hrne, hcov⟩ :=
            ih xs (y :: ys) (adjoinOrAppend acc x) f (by simp; omega) (by omega) hXp2.2 hXne2
              hYp hYne hp2 hne2 (fun a ha c hc => hl2 c (hbefore c hc) a ha)
          change differenceLoop f (next xs).1 (next xs).2 y ys (adjoinOrAppend acc x) = _
            at hres
          refine ⟨res, hres, hpw, hrne, ?_⟩
          intro p
          rw [hcov p, covers_adjoinOrAppend, covers_cons x xs]
          exact symmdiff_push_left (fun hm => not_covers_of_ltBeginOf hxy hYasc hm)
        · rw [if_neg hxy]
          by_cases hyx : y.LtBeginOf x = true
          · -- `y` lies before `x`: push `y`
            rw [if_pos hyx]
            obtain ⟨hne2, hp2, hl2⟩ :=
              push_inv hane hap hye (fun a ha => hlast a ha y (by simp))
            have hbefore : ∀ c ∈ x :: xs ++ ys, y.LtBeginOf c = true := by
              intro c hc
              rcases List.mem_append.1 hc with hc | hc
              · rcases List.mem_cons.1 hc with rfl | hc
                · exact hyx
                · exact ltBeginOf_trans hyx (hXp2.1 c hc).1
              · exact (hYp2.1 c hc).1
            obtain ⟨res, hres, hpw, hrne, hcov⟩ :=
              ih (x :: xs) ys (adjoinOrAppend acc y) f (by simp; omega) (by omega) hXp hXne
                hYp2.2 hYne2 hp2 hne2 (fun a ha c hc => hl2 c (hbefore c hc) a ha)
            change differenceLoop f x xs (next ys).1 (next ys).2 (adjoinOrAppend acc y) = _
              at hres
            refine ⟨res, hres, hpw, hrne, ?_⟩
            intro p
            rw [hcov p, covers_adjoinOrAppend, covers_cons y ys]
            exact symmdiff_push_right (fun hm => not_covers_of_ltBeginOf hyx hXasc hm)
          · -- `x` and `y` overlap
            rw [if_neg hyx]
            have hxy2 : x.LtBeginOf y = false := by simpa using hxy
            have hyx2 : y.LtBeginOf x = false := by simpa using hyx
            have hov := overlap_of_not_ltBeginOf hxe hye hxy2 hyx2
            have hov2 := overlap_of_not_ltBeginOf hye hxe hyx2 hxy2
            obtain ⟨hX2p, hX2ne, hX2w⟩ :=
              pairwise_keep_remnant (r := (x.Bisect y).2) hXp hXne bisect_snd_within
            obtain ⟨hY2p, hY2ne, hY2w⟩ :=
              pairwise_keep_remnant (r := (y.Bisect x).2) hYp hYne bisect_snd_within
            have hlen2 : (keep (x.Bisect y).2 ++ xs).length + (keep (y.Bisect x).2 ++ ys).length
                ≤ n := by
              simp only [List.length_append]
              cases hr : (x.Bisect y).2.IsEmpty
              · have := length_keep_of_isEmpty (bisect_snd_exclusive hov hr)
                have := length_keep_le (x.Bisect y).2
                omega
              · have := length_keep_of_isEmpty hr
                have := length_keep_le (y.Bisect x).2
                omega
            -- everything still to come lies inside or after `x`, or inside or after `y`
            have hcome : ∀ c ∈ (keep (x.Bisect y).2 ++ xs) ++ (keep (y.Bisect x).2 ++ ys),
                (∀ a : Interval, a.LtBeginOf x = true → a.LtBeginOf y = true →
                  a.LtBeginOf c = true) := by
              intro c hc a hax hay
              rcases List.mem_append.1 hc with hc | hc
              · rcases hX2w c hc with hw | hin
                · exact ltBeginOf_of_within_right hax hw
                · exact ltBeginOf_trans hax (hXp2.1 c hin).1
              · rcases hY2w c hc with hw | hin
                · exact ltBeginOf_of_within_right hay hw
                · exact ltBeginOf_trans hay (hYp2.1 c hin).1
            have hlast2 : ∀ a ∈ acc.getLast?,
                ∀ c ∈ (keep (x.Bisect y).2 ++ xs) ++ (keep (y.Bisect x).2 ++ ys),
                  a.LtBeginOf c = true :=
              fun a ha c hc => hcome c hc a (hlast a ha x (by simp)) (hlast a ha y (by simp))
            -- the left remnants lie before everything still to come
            have hL1 : (x.Bisect y).1.IsEmpty = false →
                ∀ c ∈ (keep (x.Bisect y).2 ++ xs) ++ (keep (y.Bisect x).2 ++ ys),
                  (x.Bisect y).1.LtBeginOf c = true := by
              intro hl c hc
              have hly := bisect_fst_ltBeginOf hye hl
              have hlw := bisect_fst_within hl
              rcases List.mem_append.1 hc with hc | hc
              · rcases List.mem_append.1 hc with hc | hc
                · obtain ⟨rfl, hr⟩ := mem_keep.1 hc
                  exact (bisect_separated hye hl hr).1
                · exact ltBeginOf_of_within_left (hXp2.1 c hc).1 hlw
              · rcases hY2w c hc with hw | hin
                · exact ltBeginOf_of_within_right hly hw
                · exact ltBeginOf_trans hly (hYp2.1 c hin).1
            have hL2 : (y.Bisect x).1.IsEmpty = false →
                ∀ c ∈ (keep (x.Bisect y).2 ++ xs) ++ (keep (y.Bisect x).2 ++ ys),
                  (y.Bisect x).1.LtBeginOf c = true := by
              intro hl c hc
              have hlx := bisect_fst_ltBeginOf hxe hl
              have hlw := bisect_fst_within hl
              rcases List.mem_append.1 hc with hc | hc
              · rcases hX2w c hc with hw | hin
                · exact ltBeginOf_of_within_right hlx hw
                · exact ltBeginOf_trans hlx (hXp2.1 c hin).1
              · rcases List.mem_append.1 hc with hc | hc
                · obtain ⟨rfl, hr⟩ := mem_keep.1 hc
                  exact (bisect_separated hxe hl hr).1
                · exact ltBeginOf_of_within_left (hYp2.1 c hc).1 hlw
            -- the sequence after the pushes keeps the invariant
            have hacc2 : ((keep (y.Bisect x).1).foldl adjoinOrAppend
                  ((keep (x.Bisect y).1).foldl adjoinOrAppend acc)).Pairwise Separated ∧
                (∀ i ∈ (keep (y.Bisect x).1).foldl adjoinOrAppend
                  ((keep (x.Bisect y).1).foldl adjoinOrAppend acc), i.IsEmpty = false) ∧
                (∀ a ∈ ((keep (y.Bisect x).1).foldl adjoinOrAppend
                  ((keep (x.Bisect y).1).foldl adjoinOrAppend acc)).getLast?,
                  ∀ c ∈ (keep (x.Bisect y).2 ++ xs) ++ (keep (y.Bisect x).2 ++ ys),
                    a.LtBeginOf c = true) := by
              cases hl1 : (x.Bisect y).1.IsEmpty
              · have hl2 := bisect_fst_exclusive hov hl1
                rw [keep_of_nonempty hl1, keep_of_isEmpty hl2]
                simp only [List.foldl_cons, List.foldl_nil]
                obtain ⟨hne2, hp2, hq2⟩ := push_inv hane hap hl1
                  (fun a ha => ltBeginOf_of_within_right (hlast a ha x (by simp))
                    (bisect_fst_within hl1))
                exact ⟨hp2, hne2, fun a ha c hc => hq2 c (hL1 hl1 c hc) a ha⟩
              · rw [keep_of_isEmpty hl1]
                simp only [List.foldl_nil]
                cases hl2 : (y.Bisect x).1.IsEmpty
                · rw [keep_of_nonempty hl2]
                  simp only [List.foldl_cons, List.foldl_nil]
                  obtain ⟨hne2, hp2, hq2⟩ := push_inv hane hap hl2
                    (fun a ha => ltBeginOf_of_within_right (hlast a ha y (by simp))
                      (bisect_fst_within hl2))
                  exact ⟨hp2, hne2, fun a ha c hc => hq2 c (hL2 hl2 c hc) a ha⟩
                · rw [keep_of_isEmpty hl2]
                  simp only [List.foldl_nil]
                  exact ⟨hap, hane, hlast2⟩
            obtain ⟨hp2, hne2, hq2⟩ := hacc2
            obtain ⟨res, hres, hpw, hrne, hcov⟩ :=
              ih (keep (x.Bisect y).2 ++ xs) (keep (y.Bisect x).2 ++ ys) _ f hlen2 (by omega)
                hX2p hX2ne hY2p hY2ne hp2 hne2 hq2
            refine ⟨res, hres, hpw, hrne, ?_⟩
            intro p
            rw [hcov p, covers_foldl_keep, covers_foldl_keep, covers_keep_append,
              covers_keep_append, covers_cons x xs, covers_cons y ys]
            exact symmdiff_overlap_step (mem_bisect_fst x hye p) (mem_bisect_snd x hye p)
              (mem_bisect_fst y hxe p) (mem_bisect_snd y hxe p)
              (mem_trichotomy p x) (mem_trichotomy p y)
              (fun h => not_before_after_of_mem h) (fun h => not_before_after_of_mem h)
              (not_before_and_after hxe p) (not_before_and_after hye p)
              (after_of_covers hXp) (after_of_covers hYp)

/-! ## Difference computes the symmetric difference -/

theorem dbl_foldl_keep (acc : List Interval) (z : Interval) :
    (keep (dbl z)).foldl adjoinOrAppend (acc.map dbl)
      = ((keep z).foldl adjoinOrAppend acc).map dbl := by
  unfold keep
  rw [dbl_isEmpty]
  split_ifs
  · rfl
  · simp only [List.foldl_cons, List.foldl_nil]
    exact dbl_adjoinOrAppend acc z

theorem dbl_keep_append (z : Interval) (l : List Interval) :
    keep (dbl z) ++ l.map dbl = (keep z ++ l).map dbl := by
  rw [dbl_keep, List.map_append]

theorem dbl_differenceLoop : ∀ (fuel : Nat) (x : Interval) (xit : List Interval) (y : Interval)
    (yit acc : List Interval),
    differenceLoop fuel (dbl x) (xit.map dbl) (dbl y) (yit.map dbl) (acc.map dbl)
      = (differenceLoop fuel x xit y yit acc).map (List.map dbl) := by
  intro fuel
  induction fuel with
  | zero => intro x xit y yit acc; rfl
  | succ f ih =>
    intro x xit y yit acc
    rw [differenceLoop_step, differenceLoop_step]
    simp only [dbl_isEmpty, dbl_bisect, dbl_ltBeginOf, dbl_keep_append, dbl_foldl_keep,
      dbl_next, dbl_adjoinOrAppend]
    split_ifs <;> first | rfl | exact ih _ _ _ _ _

/-- `Difference` on well-formed sets returns a well-formed set that covers,
also between the integer coordinates, exactly what one of `a` and `b` covers
and the other does not. -/
theorem difference_spec (a b : OrderedSet) (ha : WellFormed a) (hb : WellFormed b) :
    ∃ r, Difference a b = some r ∧ WellFormed r ∧
      ∀ p : Int, FineCovers r p ↔
        ((FineCovers a p ∧ ¬ FineCovers b p) ∨ (¬ FineCovers a p ∧ FineCovers b p)) := by
  obtain ⟨hXp, hXne, hXl⟩ := iterator_separated ha a.Bound
  obtain ⟨hYp, hYne, hYl⟩ := iterator_separated hb b.Bound
  obtain ⟨res2, hres2, hpw, hrne, hcov⟩ :=
    differenceLoop_spec (a.Len + b.Len) ((a.Iterator a.Bound true).map dbl)
      ((b.Iterator b.Bound true).map dbl) ([].map dbl) (a.Len + b.Len + 3)
      (by simp only [List.length_map]; omega) (by omega)
      (pairwise_map_dbl hXp) (nonempty_map_dbl hXne) (pairwise_map_dbl hYp)
      (nonempty_map_dbl hYne) List.Pairwise.nil (by simp) (by simp)
  rw [dbl_next, dbl_next, dbl_differenceLoop] at hres2
  cases hres : differenceLoop (a.Len + b.Len + 3) (next (a.Iterator a.Bound true)).1
      (next (a.Iterator a.Bound true)).2 (next (b.Iterator b.Bound true)).1
      (next (b.Iterator b.Bound true)).2 [] with
  | none => rw [hres] at hres2; exact absurd hres2 (by simp)
  | some res =>
    rw [hres] at hres2
    simp only [Option.map_some', Option.some.injEq] at hres2
    subst hres2
    refine ⟨⟨res⟩, ?_, ?_, ?_⟩
    · unfold Difference
      simp only [hres, Option.map_some']
    · apply wellFormed_of_pairwise
      · intro i hi
        have := hrne (dbl i) (List.mem_map_of_mem _ hi)
        rwa [dbl_isEmpty] at this
      · exact pairwise_of_map_dbl hpw
    · intro p
      have hA : (∃ i ∈ List.map dbl (a.Iterator a.Bound true), Interval.Mem p i) ↔
          FineCovers a p := by
        rw [iterator_self ha]
        exact (fineCovers_iff_map a.intervals p).symm
      have hB : (∃ i ∈ List.map dbl (b.Iterator b.Bound true), Interval.Mem p i) ↔
          FineCovers b p := by
        rw [iterator_self hb]
        exact (fineCovers_iff_map b.intervals p).symm
      rw [fineCovers_iff_map, hcov p, hA, hB]
      simp

/-- C12: `Difference` computes the symmetric difference: for all well-formed
sets `a` and `b`, `Difference(a, b)` returns, and for every integer coordinate
`p` the result covers `p` if and only if exactly one of `a` and `b` covers `p`. -/
theorem difference_covers (a b : OrderedSet) (ha : WellFormed a) (hb : WellFormed b) :
    ∃ r, Difference a b = some r ∧
      ∀ p : Int, Covers r p ↔ ((Covers a p ∧ ¬ Covers b p) ∨ (¬ Covers a p ∧ Covers b p)) := by
  obtain ⟨r, hr, _, hcov⟩ := difference_spec a b ha hb
  refine ⟨r, hr, ?_⟩
  intro p
  rw [covers_iff_fineCovers, covers_iff_fineCovers, covers_iff_fineCovers]
  exact hcov (2 * p)

theorem difference_covers_witness :
    WellFormed ⟨[⟨0, true, 10, true⟩, ⟨20, true, 30, false⟩]⟩ ∧
    WellFormed ⟨[⟨3, true, 5, false⟩, ⟨8, false, 25, true⟩, ⟨30, true, 40, true⟩]⟩ ∧
    ∃ r, Difference ⟨[⟨0, true, 10, true⟩, ⟨20, true, 30, false⟩]⟩
        ⟨[⟨3, true, 5, false⟩, ⟨8, false, 25, true⟩, ⟨30, true, 40, true⟩]⟩ = some r ∧
      ∀ p : Int, Covers r p ↔
        ((Covers ⟨[⟨0, true, 10, true⟩, ⟨20, true, 30, false⟩]⟩ p ∧
            ¬ Covers ⟨[⟨3, true, 5, false⟩, ⟨8, false, 25, true⟩, ⟨30, true, 40, true⟩]⟩ p) ∨
         (¬ Covers ⟨[⟨0, true, 10, true⟩, ⟨20, true, 30, false⟩]⟩ p ∧
            Covers ⟨[⟨3, true, 5, false⟩, ⟨8, false, 25, true⟩, ⟨30, true, 40, true⟩]⟩ p)) :=
  ⟨by decide, by decide, difference_covers _ _ (by decide) (by decide)⟩

/-! ## A well-formed set is determined by its coverage; commutativity -/

theorem mem_dbl_iff_lo_hi (p : Int) (i : Interval) :
    Interval.Mem p (dbl i) ↔ (lo i ≤ p ∧ p ≤ hi i) := by
  unfold Interval.Mem dbl lo hi
  rcases i with ⟨b, ib, e, ie⟩
  simp only
  cases ib <;> cases ie <;> simp <;> omega

theorem nonempty_iff_lo_le_hi (i : Interval) : i.IsEmpty = false ↔ lo i ≤ hi i := by
  rw [Interval.isEmpty_eq_false_iff]
  unfold lo hi
  rcases i with ⟨b, ib, e, ie⟩
  simp only
  cases ib <;> cases ie <;> simp <;> omega

theorem gap_of_separated {a b : Interval} (h : Separated a b) : hi a + 2 ≤ lo b := by
  rw [separated_iff] at h
  obtain ⟨_, _, h⟩ := h
  unfold lo hi
  rcases a with ⟨ab, aib, ae, aie⟩
  rcases b with ⟨bb, bib, be, bie⟩
  simp only at *
  cases aie <;> cases bib <;> simp_all <;> omega

theorem eq_of_lo_hi {a b : Interval} (h1 : lo a = lo b) (h2 : hi a = hi b) : a = b := by
  unfold lo at h1
  unfold hi at h2
  rcases a with ⟨ab, aib, ae, aie⟩
  rcases b with ⟨bb, bib, be, bie⟩
  simp only at *
  have e1 : ab = bb ∧ aib = bib := by
    cases aib <;> cases bib <;> simp_all <;> omega
  have e2 : ae = be ∧ aie = bie := by
    cases aie <;> cases bie <;> simp_all <;> omega
  rw [e1.1, e1.2, e2.1, e2.2]

theorem lo_head_le {a j : Interval} {t : List Interval} (hp : (a :: t).Pairwise Separated)
    (hne : ∀ i ∈ a :: t, i.IsEmpty = false) (hj : j ∈ a :: t) : lo a ≤ lo j := by
  rcases List.mem_cons.1 hj with rfl | hj
  · exact le_refl _
  · have h1 := gap_of_separated ((List.pairwise_cons.1 hp).1 j hj)
    have h2 := (nonempty_iff_lo_le_hi a).1 (hne a (by simp))
    omega

theorem lo_head_eq {a1 a2 : Interval} {t1 t2 : List Interval}
    (h1ne : ∀ i ∈ a1 :: t1, i.IsEmpty = false)
    (h2p : (a2 :: t2).Pairwise Separated) (h2ne : ∀ i ∈ a2 :: t2, i.IsEmpty = false)
    (h : ∀ p, FineCovers ⟨a1 :: t1⟩ p → FineCovers ⟨a2 :: t2⟩ p) : lo a2 ≤ lo a1 := by
  have hn := (nonempty_iff_lo_le_hi a1).1 (h1ne a1 (by simp))
  obtain ⟨j, hj, hm⟩ := h (lo a1) ⟨a1, by simp, (mem_dbl_iff_lo_hi _ _).2 ⟨le_refl _, hn⟩⟩
  have := lo_head_le h2p h2ne hj
  rw [mem_dbl_iff_lo_hi] at hm
  omega

theorem hi_head_le {a1 a2 : Interval} {t1 t2 : List Interval}
    (h1p : (a1 :: t1).Pairwise Separated) (hlo : lo a1 = lo a2)
    (h1ne : ∀ i ∈ a1 :: t1, i.IsEmpty = false)
    (h : ∀ p, FineCovers ⟨a2 :: t2⟩ p → FineCovers ⟨a1 :: t1⟩ p) : hi a2 ≤ hi a1 := by
  by_contra hc
  have hn := (nonempty_iff_lo_le_hi a1).1 (h1ne a1 (by simp))
  obtain ⟨j, hj, hm⟩ := h (hi a1 + 1)
    ⟨a2, by simp, (mem_dbl_iff_lo_hi _ _).2 ⟨by omega, by omega⟩⟩
  rw [mem_dbl_iff_lo_hi] at hm
  rcases List.mem_cons.1 hj with rfl | hj
  · omega
  · have := gap_of_separated ((List.pairwise_cons.1 h1p).1 j hj)
    omega

theorem tail_covers_of_eq {a : Interval} {t1 t2 : List Interval}
    (h1p : (a :: t1).Pairwise Separated)
    (h : ∀ p, FineCovers ⟨a :: t1⟩ p → FineCovers ⟨a :: t2⟩ p) (p : Int)
    (hp : FineCovers ⟨t1⟩ p) : FineCovers ⟨t2⟩ p := by
  obtain ⟨j, hj, hm⟩ := hp
  obtain ⟨k, hk, hmk⟩ := h p ⟨j, List.mem_cons_of_mem _ hj, hm⟩
  rcases List.mem_cons.1 hk with rfl | hk
  · have := gap_of_separated ((List.pairwise_cons.1 h1p).1 j hj)
    rw [mem_dbl_iff_lo_hi] at hm hmk
    omega
  · exact ⟨k, hk, hmk⟩

/-- A well-formed sequence is determined by what it covers. -/
theorem eq_of_fineCovers : ∀ (l1 l2 : List Interval),
    l1.Pairwise Separated → (∀ i ∈ l1, i.IsEmpty = false) →
    l2.Pairwise Separated → (∀ i ∈ l2, i.IsEmpty = false) →
    (∀ p : Int, FineCovers ⟨l1⟩ p ↔ FineCovers ⟨l2⟩ p) → l1 = l2 := by
  intro l1
  induction l1 with
  | nil =>
    intro l2 _ _ _ h2ne h
    cases l2 with
    | nil => rfl
    | cons a2 t2 =>
      have hn := (nonempty_iff_lo_le_hi a2).1 (h2ne a2 (by simp))
      obtain ⟨j, hj, _⟩ := (h (lo a2)).2
        ⟨a2, by simp, (mem_dbl_iff_lo_hi _ _).2 ⟨le_refl _, hn⟩⟩
      simp at hj
  | cons a1 t1 ih =>
    intro l2 h1p h1ne h2p h2ne h
    cases l2 with
    | nil =>
      have hn := (nonempty_iff_lo_le_hi a1).1 (h1ne a1 (by simp))
      obtain ⟨j, hj, _⟩ := (h (lo a1)).1
        ⟨a1, by simp, (mem_dbl_iff_lo_hi _ _).2 ⟨le_refl _, hn⟩⟩
      simp at hj
    | cons a2 t2 =>
      have hlo : lo a1 = lo a2 :=
        le_antisymm (lo_head_eq h2ne h1p h1ne (fun p => (h p).2))
          (lo_head_eq h1ne h2p h2ne (fun p => (h p).1))
      have hhi : hi a1 = hi a2 :=
        le_antisymm (hi_head_le h2p hlo.symm h2ne (fun p => (h p).1))
          (hi_head_le h1p hlo h1ne (fun p => (h p).2))
      have ha : a1 = a2 := eq_of_lo_hi hlo hhi
      subst ha
      have ht : t1 = t2 := by
        apply ih t2 (List.pairwise_cons.1 h1p).2
          (fun i hi => h1ne i (List.mem_cons_of_mem _ hi)) (List.pairwise_cons.1 h2p).2
          (fun i hi => h2ne i (List.mem_cons_of_mem _ hi))
        intro p
        exact ⟨tail_covers_of_eq h1p (fun p => (h p).1) p,
          tail_covers_of_eq h2p (fun p => (h p).2) p⟩
      rw [ht]

theorem eq_of_wellFormed_fineCovers {r1 r2 : OrderedSet} (h1 : WellFormed r1)
    (h2 : WellFormed r2) (h : ∀ p : Int, FineCovers r1 p ↔ FineCovers r2 p) : r1 = r2 := by
  rw [wellFormed_iff_pairwise] at h1 h2
  obtain ⟨l1⟩ := r1
  obtain ⟨l2⟩ := r2
  have := eq_of_fineCovers l1 l2 h1.2 h1.1 h2.2 h2.1 h
  rw [this]

theorem set_equal_self (s : OrderedSet) : s.Equal s = true := by
  unfold OrderedSet.Equal
  exact equalIntervals_self s.intervals

/-- C16: `Difference` is commutative: for all well-formed sets `a` and `b`,
both `Difference(a, b)` and `Difference(b, a)` return, and the two results are
`Equal` (they even store the same sequence of intervals). -/
theorem difference_comm (a b : OrderedSet) (ha : WellFormed a) (hb : WellFormed b) :
    ∃ r1 r2, Difference a b = some r1 ∧ Difference b a = some r2 ∧
      r1.Equal r2 = true ∧ r1 = r2 := by
  obtain ⟨r1, hr1, hw1, hc1⟩ := difference_spec a b ha hb
  obtain ⟨r2, hr2, hw2, hc2⟩ := difference_spec b a hb ha
  have heq : r1 = r2 := by
    apply eq_of_wellFormed_fineCovers hw1 hw2
    intro p
    rw [hc1, hc2]
    by_cases h1 : FineCovers a p <;> by_cases h2 : FineCovers b p <;> simp [h1, h2]
  refine ⟨r1, r2, hr1, hr2, ?_, heq⟩
  rw [heq]
  exact set_equal_self r2

theorem difference_comm_witness :
    WellFormed ⟨[⟨0, true, 10, true⟩, ⟨20, true, 30, false⟩]⟩ ∧
    WellFormed ⟨[⟨3, true, 5, false⟩, ⟨8, false, 25, true⟩, ⟨30, true, 40, true⟩]⟩ ∧
    ∃ r1 r2,
      Difference ⟨[⟨0, true, 10, true⟩, ⟨20, true, 30, false⟩]⟩
        ⟨[⟨3, true, 5, false⟩, ⟨8, false, 25, true⟩, ⟨30, true, 40, true⟩]⟩ = some r1 ∧
      Difference ⟨[⟨3, true, 5, false⟩, ⟨8, false, 25, true⟩, ⟨30, true, 40, true⟩]⟩
        ⟨[⟨0, true, 10, true⟩, ⟨20, true, 30, false⟩]⟩ = some r2 ∧
      r1.Equal r2 = true ∧ r1 = r2 :=
  ⟨by decide, by decide, difference_comm _ _ (by decide) (by decide)⟩

/-- C15: set `Intersect` is commutative: for all well-formed sets `a` and `b`,
both `Intersect(a, b)` and `Intersect(b, a)` return, and the two results are
`Equal` (they even store the same sequence of intervals). -/
theorem intersect_comm (a b : OrderedSet) (ha : WellFormed a) (hb : WellFormed b) :
    ∃ r1 r2, Intersect a b = some r1 ∧ Intersect b a = some r2 ∧
      r1.Equal r2 = true ∧ r1 = r2 := by
  obtain ⟨r1, hr1, hw1, hc1⟩ := intersect_spec a b ha hb
  obtain ⟨r2, hr2, hw2, hc2⟩ := intersect_spec b a hb ha
  have heq : r1 = r2 := by
    apply eq_of_wellFormed_fineCovers hw1 hw2
    intro p
    rw [hc1, hc2]
    exact And.comm
  refine ⟨r1, r2, hr1, hr2, ?_, heq⟩
  rw [heq]
  exact set_equal_self r2

theorem intersect_comm_witness :
    WellFormed ⟨[⟨0, true, 10, true⟩, ⟨20, true, 30, false⟩]⟩ ∧
    WellFormed ⟨[⟨3, true, 5, false⟩, ⟨8, false, 25, true⟩, ⟨30, true, 40, true⟩]⟩ ∧
    ∃ r1 r2,
      Intersect ⟨[⟨0, true, 10, true⟩, ⟨20, true, 30, false⟩]⟩
        ⟨[⟨3, true, 5, false⟩, ⟨8, false, 25, true⟩, ⟨30, true, 40, true⟩]⟩ = some r1 ∧
      Intersect ⟨[⟨3, true, 5, false⟩, ⟨8, false, 25, true⟩, ⟨30, true, 40, true⟩]⟩
        ⟨[⟨0, true, 10, true⟩, ⟨20, true, 30, false⟩]⟩ = some r2 ∧
      r1.Equal r2 = true ∧ r1 = r2 :=
  ⟨by decide, by decide, intersect_comm _ _ (by decide) (by decide)⟩

/-! ## Difference is the union of the two subtractions -/

theorem fineCovers_append (a b : List Interval) (p : Int) :
    FineCovers ⟨a ++ b⟩ p ↔ (FineCovers ⟨a⟩ p ∨ FineCovers ⟨b⟩ p) := by
  unfold FineCovers
  simp only [List.mem_append]
  constructor
  · rintro ⟨i, hi | hi, hm⟩
    · exact Or.inl ⟨i, hi, hm⟩
    · exact Or.inr ⟨i, hi, hm⟩
  · rintro (⟨i, hi, hm⟩ | ⟨i, hi, hm⟩)
    · exact ⟨i, Or.inl hi, hm⟩
    · exact ⟨i, Or.inr hi, hm⟩

theorem fineCovers_cons (x : Interval) (l : List Interval) (p : Int) :
    FineCovers ⟨x :: l⟩ p ↔ (Interval.Mem p (dbl x) ∨ FineCovers ⟨l⟩ p) := by
  unfold FineCovers
  simp

theorem fineCovers_adjoinOrAppend (l : List Interval) (y : Interval) (p : Int) :
    FineCovers ⟨adjoinOrAppend l y⟩ p ↔ (FineCovers ⟨l⟩ p ∨ Interval.Mem p (dbl y)) := by
  rw [fineCovers_iff_map, ← dbl_adjoinOrAppend, covers_adjoinOrAppend, ← fineCovers_iff_map]

theorem common_point_of_overlap {i x : Interval} (h : (i.Intersect x).IsEmpty = false) :
    ∃ p, Interval.Mem p (dbl i) ∧ Interval.Mem p (dbl x) := by
  refine ⟨lo (i.Intersect x), ?_⟩
  rw [← Interval.mem_intersect, dbl_intersect, mem_dbl_iff_lo_hi]
  exact ⟨le_refl _, (nonempty_iff_lo_le_hi _).1 h⟩

theorem contains_eq_false_of_ltBeginOf {x sl : Interval} (h : x.LtBeginOf sl = true) :
    sl.Contains x = false := by
  rw [Interval.ltBeginOf_iff] at h
  obtain ⟨hs, hx, h⟩ := h
  unfold Interval.Contains
  simp only [hs, hx, Bool.false_eq_true, if_false]
  rw [Interval.isEmpty_eq_false_iff] at hs hx
  rcases x with ⟨xb, xib, xe, xie⟩
  rcases sl with ⟨sb, sib, se, sie⟩
  simp only at *
  cases xib <;> cases xie <;> cases sib <;> cases sie <;> split_ifs <;> simp_all <;> omega

/-- `Add` of a non-empty interval that overlaps no stored interval pushes it
between its neighbours: the result is well formed and covers the old set and `x`. -/
theorem add_of_disjoint (l : List Interval) (x : Interval) (hwf : WellFormed ⟨l⟩)
    (hx : x.IsEmpty = false) (hd : ∀ i ∈ l, (i.Intersect x).IsEmpty = true) :
    ∃ r, OrderedSet.Add ⟨l⟩ x = some (r, true) ∧ WellFormed r ∧
      ∀ p : Int, FineCovers r p ↔ (FineCovers ⟨l⟩ p ∨ Interval.Mem p (dbl x)) := by
  rw [wellFormed_iff_pairwise] at hwf
  obtain ⟨hne, hp⟩ := hwf
  simp only at hne hp
  obtain ⟨pre, mid, post, rfl, h1, h2, h3⟩ := split3 l x hp
  have hlow := searchLow_split3 pre mid post x h1 h2 h3
  have hpre_ne : ∀ i ∈ pre, i.IsEmpty = false := fun i hi => hne i (by simp [hi])
  have hpre_p : pre.Pairwise Separated := by
    rw [List.pairwise_append, List.pairwise_append] at hp
    exact hp.1.1
  have hlt : ∀ a ∈ pre.getLast?, a.LtBeginOf x = true :=
    fun a ha => h1 a (List.mem_of_getLast?_eq_some ha)
  unfold OrderedSet.Add
  simp only [hx, Bool.false_eq_true, if_false, hlow]
  cases mid with
  | cons sl mid' =>
    exfalso
    have hsl := h2 sl (List.mem_cons_self _ _)
    have hsle : sl.IsEmpty = false := hne sl (by simp)
    have := overlap_of_not_ltBeginOf hsle hx hsl.1 hsl.2
    rw [hd sl (by simp)] at this
    exact absurd this (by decide)
  | nil =>
    cases post with
    | nil =>
      simp only [List.append_nil, if_true]
      obtain ⟨hn, hpw, _⟩ := push_single hpre_ne hpre_p hx hlt
      exact ⟨_, rfl, wellFormed_of_pairwise hn hpw, fun p => fineCovers_adjoinOrAppend pre x p⟩
    | cons sl tl =>
      simp only [List.append_nil] at hp hne ⊢
      rw [if_neg (by simp), getElem?_split]
      simp only
      have hxs := h3 sl (by simp)
      rw [if_neg (by rw [contains_eq_false_of_ltBeginOf hxs]; decide), if_pos hxs, take_split,
        drop_split]
      have hst : (sl :: tl).Pairwise Separated := by
        rw [List.pairwise_append] at hp
        exact hp.2.1
      obtain ⟨hn, hpw, _, _⟩ := push_push hpre_ne hpre_p hx hlt hxs hst
        (fun i hi => hne i (List.mem_append_right _ hi))
      refine ⟨_, rfl, wellFormed_of_pairwise hn hpw, ?_⟩
      intro p
      rw [fineCovers_append, fineCovers_adjoinOrAppend, fineCovers_adjoinOrAppend,
        fineCovers_append, fineCovers_cons]
      by_cases q1 : FineCovers ⟨pre⟩ p <;> by_cases q2 : Interval.Mem p (dbl x) <;>
        by_cases q3 : Interval.Mem p (dbl sl) <;> simp [q1, q2, q3]

/-- The loop of `Union` adding the intervals of a well-formed sequence to a
well-formed set that shares no point with them. -/
theorem unionLoop_of_disjoint : ∀ (l : List Interval) (s : OrderedSet),
    WellFormed s → l.Pairwise Separated → (∀ i ∈ l, i.IsEmpty = false) →
    (∀ p : Int, FineCovers s p → ¬ FineCovers ⟨l⟩ p) →
    ∃ u, unionLoop s l = some u ∧ WellFormed u ∧
      ∀ p : Int, FineCovers u p ↔ (FineCovers s p ∨ FineCovers ⟨l⟩ p) := by
  intro l
  induction l with
  | nil =>
    intro s hs _ _ _
    refine ⟨s, rfl, hs, ?_⟩
    intro p
    simp [FineCovers]
  | cons x rest ih =>
    intro s hs hlp hlne hd
    have hx : x.IsEmpty = false := hlne x (by simp)
    have hdis : ∀ i ∈ s.intervals, (i.Intersect x).IsEmpty = true := by
      intro i hi
      cases hc : (i.Intersect x).IsEmpty
      · exfalso
        obtain ⟨p, hp1, hp2⟩ := common_point_of_overlap hc
        exact hd p ⟨i, hi, hp1⟩ ⟨x, by simp, hp2⟩
      · rfl
    obtain ⟨r, hr, hrw, hrc⟩ := add_of_disjoint s.intervals x hs hx hdis
    have hrd : ∀ p : Int, FineCovers r p → ¬ FineCovers ⟨rest⟩ p := by
      intro p hrp hrest
      rcases (hrc p).1 hrp with h | h
      · exact hd p h ((fineCovers_cons x rest p).2 (Or.inr hrest))
      · obtain ⟨j, hj, hmj⟩ := hrest
        have := gap_of_separated ((List.pairwise_cons.1 hlp).1 j hj)
        rw [mem_dbl_iff_lo_hi] at h hmj
        omega
    obtain ⟨u, hu, huw, huc⟩ := ih r hrw (List.pairwise_cons.1 hlp).2
      (fun i hi => hlne i (List.mem_cons_of_mem _ hi)) hrd
    refine ⟨u, ?_, huw, ?_⟩
    · unfold unionLoop
      rw [if_neg (by rw [hx]; decide)]
      have hs2 : s.Add x = some (r, true) := hr
      rw [hs2]
      exact hu
    · intro p
      rw [huc p, hrc p, fineCovers_cons]
      have e : FineCovers ⟨s.intervals⟩ p ↔ FineCovers s p := Iff.rfl
      rw [e]
      by_cases q1 : FineCovers s p <;> by_cases q2 : Interval.Mem p (dbl x) <;> simp [q1, q2]

/-- `Union` of two well-formed sets that share no point returns a well-formed
set covering what either of them covers. -/
theorem union_of_disjoint (A B : OrderedSet) (hA : WellFormed A) (hB : WellFormed B)
    (hd : ∀ p : Int, FineCovers A p → ¬ FineCovers B p) :
    ∃ u, Union A B = some u ∧ WellFormed u ∧
      ∀ p : Int, FineCovers u p ↔ (FineCovers A p ∨ FineCovers B p) := by
  have hAw := (wellFormed_iff_pairwise A).1 hA
  have hBw := (wellFormed_iff_pairwise B).1 hB
  unfold Union
  by_cases hlen : A.Len < B.Len
  · simp only [if_pos hlen]
    rw [iterator_self hA]
    obtain ⟨u, hu, huw, huc⟩ := unionLoop_of_disjoint A.intervals B hB hAw.2 hAw.1
      (fun p h1 h2 => hd p h2 h1)
    refine ⟨u, hu, huw, ?_⟩
    intro p
    rw [huc p]
    exact Or.comm
  · simp only [if_neg hlen]
    rw [iterator_self hB]
    obtain ⟨u, hu, huw, huc⟩ := unionLoop_of_disjoint B.intervals A hA hBw.2 hBw.1 hd
    exact ⟨u, hu, huw, huc⟩

/-- C13: `Difference` equals the union of the two one-sided subtractions: for
all well-formed sets `a` and `b`, `Difference(a, b)`, `Subtract(a, b)`,
`Subtract(b, a)` and the `Union` of the two subtractions all return, and
`Difference(a, b).Equal(Union(Subtract(a, b), Subtract(b, a)))` holds (the two
sets even store the same sequence of intervals). -/
theorem difference_eq_union_subtract (a b : OrderedSet) (ha : WellFormed a)
    (hb : WellFormed b) :
    ∃ d s1 s2 u, Difference a b = some d ∧ Subtract a b = some s1 ∧
      Subtract b a = some s2 ∧ Union s1 s2 = some u ∧ d.Equal u = true ∧ d = u := by
  obtain ⟨d, hd, hdw, hdc⟩ := difference_spec a b ha hb
  obtain ⟨s1, hs1, hw1, hc1⟩ := subtract_spec a b ha hb
  obtain ⟨s2, hs2, hw2, hc2⟩ := subtract_spec b a hb ha
  obtain ⟨u, hu, huw, huc⟩ := union_of_disjoint s1 s2 hw1 hw2 (by
    intro p h1 h2
    exact ((hc1 p).1 h1).2 ((hc2 p).1 h2).1)
  have heq : d = u := by
    apply eq_of_wellFormed_fineCovers hdw huw
    intro p
    rw [hdc, huc, hc1, hc2]
    by_cases q1 : FineCovers a p <;> by_cases q2 : FineCovers b p <;> simp [q1, q2]
  refine ⟨d, s1, s2, u, hd, hs1, hs2, hu, ?_, heq⟩
  rw [heq]
  exact set_equal_self u

theorem difference_eq_union_subtract_witness :
    WellFormed ⟨[⟨0, true, 10, true⟩, ⟨20, true, 30, false⟩]⟩ ∧
    WellFormed ⟨[⟨3, true, 5, false⟩, ⟨8, false, 25, true⟩, ⟨30, true, 40, true⟩]⟩ ∧
    ∃ d s1 s2 u,
      Difference ⟨[⟨0, true, 10, true⟩, ⟨20, true, 30, false⟩]⟩
        ⟨[⟨3, true, 5, false⟩, ⟨8, false, 25, true⟩, ⟨30, true, 40, true⟩]⟩ = some d ∧
      Subtract ⟨[⟨0, true, 10, true⟩, ⟨20, true, 30, false⟩]⟩
        ⟨[⟨3, true, 5, false⟩, ⟨8, false, 25, true⟩, ⟨30, true, 40, true⟩]⟩ = some s1 ∧
      Subtract ⟨[⟨3, true, 5, false⟩, ⟨8, false, 25, true⟩, ⟨30, true, 40, true⟩]⟩
        ⟨[⟨0, true, 10, true⟩, ⟨20, true, 30, false⟩]⟩ = some s2 ∧
      Union s1 s2 = some u ∧ d.Equal u = true ∧ d = u :=
  ⟨by decide, by decide, difference_eq_union_subtract _ _ (by decide) (by decide)⟩

/-! ## Bisect as subtraction -/

theorem bisect_of_isEmpty_right {i x : Interval} (hx : x.IsEmpty = true) :
    i.Bisect x = (Interval.zero, i) := by
  have hd : (i.Intersect x).IsEmpty = true := by
    rw [Interval.intersect_of_isEmpty (Or.inl hx)]
    exact Interval.zero_isEmpty
  rw [Interval.bisect_of_disjoint hd]
  have hl : i.LtBeginOf x = false := by
    unfold Interval.LtBeginOf
    rw [if_pos hx]
  rw [hl]
  rfl

/-- C21: `Bisect` is the subtraction of `x` from the receiver and stays within
the receiver: for all intervals `i` and `x`, empty ones included, with
`(l, r) = i.Bisect(x)` and every integer coordinate `p`: `p` lies in `l` or in
`r` if and only if `p` lies in `i` and not in `x`; every point of `l` and of
`r` is a point of `i`; and `l` and `r` share no point. -/
theorem bisect_subtraction (i x : Interval) (p : Int) :
    ((Interval.Mem p (i.Bisect x).1 ∨ Interval.Mem p (i.Bisect x).2) ↔
      (Interval.Mem p i ∧ ¬ Interval.Mem p x)) ∧
    (Interval.Mem p (i.Bisect x).1 → Interval.Mem p i) ∧
    (Interval.Mem p (i.Bisect x).2 → Interval.Mem p i) ∧
    ¬ (Interval.Mem p (i.Bisect x).1 ∧ Interval.Mem p (i.Bisect x).2) := by
  cases hx : x.IsEmpty
  · have h1 := mem_bisect_fst i hx p
    have h2 := mem_bisect_snd i hx p
    have h3 := not_mem_iff x p
    have h4 := not_before_and_after hx p
    rw [h1, h2, h3]
    refine ⟨?_, fun h => h.1, fun h => h.1, fun h => h4 ⟨h.1.2, h.2.2⟩⟩
    constructor
    · rintro (⟨hi, hb⟩ | ⟨hi, ha⟩)
      · exact ⟨hi, Or.inl hb⟩
      · exact ⟨hi, Or.inr ha⟩
    · rintro ⟨hi, hb | ha⟩
      · exact Or.inl ⟨hi, hb⟩
      · exact Or.inr ⟨hi, ha⟩
  · rw [bisect_of_isEmpty_right hx]
    have h0 : ¬ Interval.Mem p Interval.zero := Interval.not_mem_of_isEmpty Interval.zero_isEmpty p
    have hnx : ¬ Interval.Mem p x := Interval.not_mem_of_isEmpty hx p
    refine ⟨?_, fun h => absurd h h0, fun h => h, fun h => h0 h.1⟩
    constructor
    · rintro (h | h)
      · exact absurd h h0
      · exact ⟨h, hnx⟩
    · rintro ⟨h, _⟩
      exact Or.inr h

/-- C22: `Bisect` returns the part before `x` first and the part after `x`
second: for every interval `i` and every non-empty interval `x` with
`(l, r) = i.Bisect(x)`, a non-empty `l` satisfies `l.LtBeginOf(x)` and a
non-empty `r` satisfies `x.LtBeginOf(r)`; when `i` and `x` do not overlap, `l`
is `i` and `r` is the empty `Interval{}` if `i.LtBeginOf(x)`, otherwise `l` is
the empty `Interval{}` and `r` is `i`. -/
theorem bisect_before_after (i x : Interval) (hx : x.IsEmpty = false) :
    ((i.Bisect x).1.IsEmpty = false → (i.Bisect x).1.LtBeginOf x = true) ∧
    ((i.Bisect x).2.IsEmpty = false → x.LtBeginOf (i.Bisect x).2 = true) ∧
    ((i.Intersect x).IsEmpty = true →
      (i.LtBeginOf x = true →
        (i.Bisect x).1 = i ∧ (i.Bisect x).2 = Interval.zero ∧ (i.Bisect x).2.IsEmpty = true) ∧
      (i.LtBeginOf x = false →
        (i.Bisect x).1 = Interval.zero ∧ (i.Bisect x).1.IsEmpty = true ∧ (i.Bisect x).2 = i)) := by
  refine ⟨bisect_fst_ltBeginOf hx, ltBeginOf_bisect_snd_of_nonempty hx, ?_⟩
  intro hd
  rw [Interval.bisect_of_disjoint hd]
  constructor
  · intro h
    rw [h]
    exact ⟨rfl, rfl, Interval.zero_isEmpty⟩
  · intro h
    rw [h]
    exact ⟨rfl, Interval.zero_isEmpty, rfl⟩

theorem bisect_before_after_witness :
    Interval.IsEmpty ⟨1, true, 4, true⟩ = false ∧
    (((Interval.Bisect ⟨3, true, 5, true⟩ ⟨1, true, 4, true⟩).1.IsEmpty = false →
      (Interval.Bisect ⟨3, true, 5, true⟩ ⟨1, true, 4, true⟩).1.LtBeginOf ⟨1, true, 4, true⟩
        = true) ∧
    ((Interval.Bisect ⟨3, true, 5, true⟩ ⟨1, true, 4, true⟩).2.IsEmpty = false →
      Interval.LtBeginOf ⟨1, true, 4, true⟩
        (Interval.Bisect ⟨3, true, 5, true⟩ ⟨1, true, 4, true⟩).2 = true) ∧
    ((Interval.Intersect ⟨3, true, 5, true⟩ ⟨1, true, 4, true⟩).IsEmpty = true →
      (Interval.LtBeginOf ⟨3, true, 5, true⟩ ⟨1, true, 4, true⟩ = true →
        (Interval.Bisect ⟨3, true, 5, true⟩ ⟨1, true, 4, true⟩).1 = ⟨3, true, 5, true⟩ ∧
        (Interval.Bisect ⟨3, true, 5, true⟩ ⟨1, true, 4, true⟩).2 = Interval.zero ∧
        (Interval.Bisect ⟨3, true, 5, true⟩ ⟨1, true, 4, true⟩).2.IsEmpty = true) ∧
      (Interval.LtBeginOf ⟨3, true, 5, true⟩ ⟨1, true, 4, true⟩ = false →
        (Interval.Bisect ⟨3, true, 5, true⟩ ⟨1, true, 4, true⟩).1 = Interval.zero ∧
        (Interval.Bisect ⟨3, true, 5, true⟩ ⟨1, true, 4, true⟩).1.IsEmpty = true ∧
        (Interval.Bisect ⟨3, true, 5, true⟩ ⟨1, true, 4, true⟩).2 = ⟨3, true, 5, true⟩))) :=
  ⟨by decide, bisect_before_after ⟨3, true, 5, true⟩ ⟨1, true, 4, true⟩ (by decide)⟩

/-- The scenario of the specification: `[3,5].Bisect([1,4])` is empty before
and `(4,5]` after. -/
theorem bisect_example :
    Interval.Bisect ⟨3, true, 5, true⟩ ⟨1, true, 4, true⟩
      = (Interval.zero, ⟨4, false, 5, true⟩) := by
  decide

/-! ## Adjoin merges intervals that touch -/

theorem adjoin_of_isEmpty {i x : Interval} (h : i.IsEmpty = true ∨ x.IsEmpty = true) :
    i.Adjoin x = Interval.zero := by
  unfold Interval.Adjoin
  rw [if_pos]
  rcases h with h | h <;> simp [h]

theorem adjoin_eq_zero_of_isEmpty {i x : Interval} (h : (i.Adjoin x).IsEmpty = true) :
    i.Adjoin x = Interval.zero := by
  cases hi : i.IsEmpty
  · cases hx : x.IsEmpty
    · unfold Interval.Adjoin at h ⊢
      simp only [hi, hx, Bool.or_self, Bool.false_eq_true, if_false] at h ⊢
      rw [Interval.isEmpty_eq_false_iff] at hi hx
      rcases i with ⟨ib, iib, ie, iie⟩
      rcases x with ⟨xb, xib, xe, xie⟩
      simp only at *
      by_cases c1 : ib = xe ∧ (iib || xie) = true
      · exfalso
        simp only [if_pos c1] at h
        rw [Interval.isEmpty_eq_true_iff] at h
        simp only at h
        obtain ⟨c1, c2⟩ := c1
        cases iib <;> cases iie <;> cases xib <;> cases xie <;> simp_all <;> omega
      · simp only [if_neg c1] at h ⊢
        by_cases c2 : ie = xb ∧ (iie || xib) = true
        · exfalso
          simp only [if_pos c2] at h
          rw [Interval.isEmpty_eq_true_iff] at h
          simp only at h
          obtain ⟨c2, c3⟩ := c2
          clear c1
          cases iib <;> cases iie <;> cases xib <;> cases xie <;> simp_all <;> omega
        · simp only [if_neg c2]
    · exact adjoin_of_isEmpty (Or.inr hx)
  · exact adjoin_of_isEmpty (Or.inl hi)

theorem adjoin_nonempty_iff {i x : Interval} (hi : i.IsEmpty = false) (hx : x.IsEmpty = false) :
    (i.Adjoin x).IsEmpty = false ↔
      ((i.Begin = x.End ∧ (i.IncBegin = true ∨ x.IncEnd = true)) ∨
       (i.End = x.Begin ∧ (i.IncEnd = true ∨ x.IncBegin = true))) := by
  constructor
  · intro h
    unfold Interval.Adjoin at h
    simp only [hi, hx, Bool.or_self, Bool.false_eq_true, if_false] at h
    by_cases c1 : i.Begin = x.End ∧ (i.IncBegin || x.IncEnd) = true
    · left
      simpa using c1
    · rw [if_neg c1] at h
      by_cases c2 : i.End = x.Begin ∧ (i.IncEnd || x.IncBegin) = true
      · right
        simpa using c2
      · rw [if_neg c2] at h
        exact absurd h (by simp [Interval.zero_isEmpty])
  · intro h
    cases hc : (i.Adjoin x).IsEmpty
    · rfl
    · exfalso
      have hz := adjoin_eq_zero_of_isEmpty hc
      unfold Interval.Adjoin at hz
      simp only [hi, hx, Bool.or_self, Bool.false_eq_true, if_false] at hz
      rw [Interval.isEmpty_eq_false_iff] at hi hx
      by_cases c1 : i.Begin = x.End ∧ (i.IncBegin || x.IncEnd) = true
      · rw [if_pos c1] at hz
        have e1 := congrArg Interval.Begin hz
        have e2 := congrArg Interval.End hz
        have e3 := congrArg Interval.IncBegin hz
        have e4 := congrArg Interval.IncEnd hz
        simp only [Interval.zero] at e1 e2 e3 e4
        obtain ⟨c1, _⟩ := c1
        cases hA : i.IncBegin <;> cases hB : i.IncEnd <;> cases hC : x.IncBegin <;>
          cases hD : x.IncEnd <;> simp_all <;> omega
      · rw [if_neg c1] at hz
        by_cases c2 : i.End = x.Begin ∧ (i.IncEnd || x.IncBegin) = true
        · rw [if_pos c2] at hz
          have e1 := congrArg Interval.Begin hz
          have e2 := congrArg Interval.End hz
          have e3 := congrArg Interval.IncBegin hz
          have e4 := congrArg Interval.IncEnd hz
          simp only [Interval.zero] at e1 e2 e3 e4
          obtain ⟨c2, _⟩ := c2
          clear c1
          cases hA : i.IncBegin <;> cases hB : i.IncEnd <;> cases hC : x.IncBegin <;>
            cases hD : x.IncEnd <;> simp_all <;> omega
        · rcases h with ⟨h1, h2⟩ | ⟨h1, h2⟩
          · exact c1 ⟨h1, by simpa using h2⟩
          · exact c2 ⟨h1, by simpa using h2⟩

/-- C23: `Adjoin` merges exactly when the intervals touch: for all non-empty
intervals `i` and `x`, `i.Adjoin(x)` is non-empty if and only if
`i.Begin == x.End` and (`i.IncBegin` or `x.IncEnd`), or `i.End == x.Begin` and
(`i.IncEnd` or `x.IncBegin`); if either operand is empty the result is the
all-zero interval; `[0,10).Adjoin([10,20)) = [0,20)` and
`[0,10).Adjoin((10,20))` is empty. -/
theorem adjoin_iff_touch (i x : Interval) :
    (i.IsEmpty = false → x.IsEmpty = false →
      ((i.Adjoin x).IsEmpty = false ↔
        ((i.Begin = x.End ∧ (i.IncBegin = true ∨ x.IncEnd = true)) ∨
         (i.End = x.Begin ∧ (i.IncEnd = true ∨ x.IncBegin = true))))) ∧
    ((i.IsEmpty = true ∨ x.IsEmpty = true) → i.Adjoin x = Interval.zero) ∧
    Interval.Adjoin ⟨0, true, 10, false⟩ ⟨10, true, 20, false⟩ = ⟨0, true, 20, false⟩ ∧
    (Interval.Adjoin ⟨0, true, 10, false⟩ ⟨10, false, 20, false⟩).IsEmpty = true :=
  ⟨fun hi hx => adjoin_nonempty_iff hi hx, adjoin_of_isEmpty, by decide, by decide⟩

theorem adjoin_iff_touch_witness :
    Interval.IsEmpty ⟨0, true, 10, false⟩ = false ∧
    Interval.IsEmpty ⟨10, true, 20, false⟩ = false ∧
    ((Interval.Adjoin ⟨0, true, 10, false⟩ ⟨10, true, 20, false⟩).IsEmpty = false ↔
      (((0 : Int) = 20 ∧ (true = true ∨ false = true)) ∨
       ((10 : Int) = 10 ∧ (false = true ∨ true = true)))) :=
  ⟨by decide, by decide,
    (adjoin_iff_touch ⟨0, true, 10, false⟩ ⟨10, true, 20, false⟩).1 (by decide) (by decide)⟩

/-- C24, the claim as stated fails: `[0,4]` and `[4,12]` overlap in `[4,4]`,
yet `[0,4].Adjoin([4,12])` is `[0,12]`, not the all-zero interval. -/
theorem adjoin_merges_shared_endpoint :
    (Interval.Intersect ⟨0, true, 4, true⟩ ⟨4, true, 12, true⟩).IsEmpty = false ∧
    Interval.Intersect ⟨0, true, 4, true⟩ ⟨4, true, 12, true⟩ = ⟨4, true, 4, true⟩ ∧
    Interval.Adjoin ⟨0, true, 4, true⟩ ⟨4, true, 12, true⟩ = ⟨0, true, 12, true⟩ ∧
    Interval.Adjoin ⟨0, true, 4, true⟩ ⟨4, true, 12, true⟩ ≠ Interval.zero := by
  decide

/-! ## Adjoin as a union -/

theorem adjoin_operands_nonempty {i x : Interval} (h : (i.Adjoin x).IsEmpty = false) :
    i.IsEmpty = false ∧ x.IsEmpty = false := by
  constructor
  · cases hc : i.IsEmpty
    · rfl
    · rw [adjoin_of_isEmpty (Or.inl hc)] at h
      exact absurd h (by simp [Interval.zero_isEmpty])
  · cases hc : x.IsEmpty
    · rfl
    · rw [adjoin_of_isEmpty (Or.inr hc)] at h
      exact absurd h (by simp [Interval.zero_isEmpty])

theorem adjoin_comm (i x : Interval) : i.Adjoin x = x.Adjoin i := by
  cases hi : i.IsEmpty
  · cases hx : x.IsEmpty
    · unfold Interval.Adjoin
      simp only [hi, hx, Bool.or_self, Bool.false_eq_true, if_false]
      rw [Interval.isEmpty_eq_false_iff] at hi hx
      rcases i with ⟨ib, iib, ie, iie⟩
      rcases x with ⟨xb, xib, xe, xie⟩
      simp only at *
      by_cases c1 : ib = xe ∧ (iib || xie) = true
      · have c1s : xe = ib ∧ (xie || iib) = true := ⟨c1.1.symm, by rw [Bool.or_comm]; exact c1.2⟩
        by_cases c2 : ie = xb ∧ (iie || xib) = true
        · have c2s : xb = ie ∧ (xib || iie) = true :=
            ⟨c2.1.symm, by rw [Bool.or_comm]; exact c2.2⟩
          simp only [if_pos c1, if_pos c2s, Interval.mk.injEq]
          obtain ⟨c1, _⟩ := c1
          obtain ⟨c2, _⟩ := c2
          have e1 : xb = ib := by omega
          have e2 : ie = xe := by omega
          subst e1 e2 c1
          cases iib <;> cases iie <;> cases xib <;> cases xie <;> simp_all
        · have c2s : ¬ (xb = ie ∧ (xib || iie) = true) := by
            rintro ⟨q1, q2⟩
            exact c2 ⟨q1.symm, by rw [Bool.or_comm]; exact q2⟩
          simp only [if_pos c1, if_neg c2s, if_pos c1s]
      · have c1s : ¬ (xe = ib ∧ (xie || iib) = true) := by
          rintro ⟨q1, q2⟩
          exact c1 ⟨q1.symm, by rw [Bool.or_comm]; exact q2⟩
        by_cases c2 : ie = xb ∧ (iie || xib) = true
        · have c2s : xb = ie ∧ (xib || iie) = true :=
            ⟨c2.1.symm, by rw [Bool.or_comm]; exact c2.2⟩
          simp only [if_neg c1, if_pos c2, if_pos c2s]
        · have c2s : ¬ (xb = ie ∧ (xib || iie) = true) := by
            rintro ⟨q1, q2⟩
            exact c2 ⟨q1.symm, by rw [Bool.or_comm]; exact q2⟩
          simp only [if_neg c1, if_neg c2, if_neg c2s, if_neg c1s]
    · rw [adjoin_of_isEmpty (Or.inr hx), adjoin_of_isEmpty (Or.inl hx)]
  · rw [adjoin_of_isEmpty (Or.inl hi), adjoin_of_isEmpty (Or.inr hi)]

theorem adjoin_eq_encompass {i x : Interval} (h : (i.Adjoin x).IsEmpty = false) :
    i.Adjoin x = i.Encompass x := by
  obtain ⟨hi, hx⟩ := adjoin_operands_nonempty h
  obtain ⟨hb, he⟩ := encompass_fields hi hx
  unfold Interval.Adjoin at h ⊢
  simp only [hi, hx, Bool.or_self, Bool.false_eq_true, if_false] at h ⊢
  rw [Interval.isEmpty_eq_false_iff] at hi hx
  by_cases c1 : i.Begin = x.End ∧ (i.IncBegin || x.IncEnd) = true
  · rw [if_pos c1]
    obtain ⟨c1, c1f⟩ := c1
    apply interval_ext
    · simp only
      rcases hb with ⟨q1, q2, _⟩ | ⟨_, q2, _⟩ | ⟨_, q2, _⟩
      · omega
      · exact q2.symm
      · exact q2.symm
    · simp only
      rcases hb with ⟨q1, _, _⟩ | ⟨q1, _, q3⟩ | ⟨_, _, q3⟩
      · omega
      · rw [q3]
        have : x.IncBegin = true := by
          rcases hx with hx | ⟨_, hx, _⟩
          · omega
          · exact hx
        rw [this]; simp
      · exact q3.symm
    · simp only
      rcases he with ⟨q1, _, _⟩ | ⟨q1, q2, _⟩ | ⟨_, q2, _⟩
      · omega
      · rw [q2]; exact q1
      · exact q2.symm
    · simp only
      rcases he with ⟨q1, _, _⟩ | ⟨q1, _, q3⟩ | ⟨_, _, q3⟩
      · omega
      · rw [q3]
        have : i.IncEnd = true := by
          rcases hi with hi | ⟨_, _, hi⟩
          · omega
          · exact hi
        rw [this]; simp
      · exact q3.symm
  · rw [if_neg c1] at h ⊢
    by_cases c2 : i.End = x.Begin ∧ (i.IncEnd || x.IncBegin) = true
    · rw [if_pos c2]
      obtain ⟨c2, c2f⟩ := c2
      apply interval_ext
      · simp only
        rcases hb with ⟨_, q2, _⟩ | ⟨q1, q2, _⟩ | ⟨q1, _, _⟩
        · exact q2.symm
        · rw [q2]; exact q1
        · omega
      · simp only
        rcases hb with ⟨_, _, q3⟩ | ⟨q1, _, q3⟩ | ⟨q1, _, _⟩
        · exact q3.symm
        · rw [q3]
          have : i.IncBegin = true := by
            rcases hi with hi | ⟨_, hi, _⟩
            · omega
            · exact hi
          rw [this]; simp
        · omega
      · simp only
        rcases he with ⟨_, q2, _⟩ | ⟨_, q2, _⟩ | ⟨q1, _, _⟩
        · exact q2.symm
        · exact q2.symm
        · omega
      · simp only
        rcases he with ⟨_, _, q3⟩ | ⟨q1, _, q3⟩ | ⟨q1, _, _⟩
        · exact q3.symm
        · rw [q3]
          have : x.IncEnd = true := by
            rcases hx with hx | ⟨_, _, hx⟩
            · omega
            · exact hx
          rw [this]; simp
        · omega
    · rw [if_neg c2] at h
      exact absurd h (by simp [Interval.zero_isEmpty])

/-! ## Adjoin on overlapping intervals -/

/-- C24, amended: `Adjoin` refuses intervals that overlap in more than a shared
endpoint: for all intervals `i` and `x` whose overlap `i.Intersect(x)` is
non-empty, `i.Adjoin(x)` is non-empty exactly when the two meet in one endpoint
that is closed on both sides (`i.Begin == x.End` with `i.IncBegin` and
`x.IncEnd`, or `i.End == x.Begin` with `i.IncEnd` and `x.IncBegin`), and then
the overlap is that single point and the result is the union of the two: an
integer coordinate lies in `i.Adjoin(x)` if and only if it lies in `i` or in
`x`, the result equals `i.Encompass(x)`, and field for field it runs from the
begin of the lower operand to the end of the upper one; in every other case, in
particular whenever the overlap is longer than one point, `i.Adjoin(x)` is the
all-zero interval. -/
theorem adjoin_of_overlap (i x : Interval) (h : (i.Intersect x).IsEmpty = false) :
    ((i.Adjoin x).IsEmpty = false ↔
      ((i.Begin = x.End ∧ i.IncBegin = true ∧ x.IncEnd = true) ∨
       (i.End = x.Begin ∧ i.IncEnd = true ∧ x.IncBegin = true))) ∧
    ((i.Adjoin x).IsEmpty = false →
      (i.Intersect x).Begin = (i.Intersect x).End) ∧
    ((i.Adjoin x).IsEmpty = false →
      (∀ p : Int, Interval.Mem p (i.Adjoin x) ↔ (Interval.Mem p i ∨ Interval.Mem p x)) ∧
      i.Adjoin x = i.Encompass x) ∧
    ((i.Begin = x.End ∧ i.IncBegin = true ∧ x.IncEnd = true) →
      i.Adjoin x = ⟨x.Begin, x.IncBegin, i.End, i.IncEnd⟩) ∧
    ((i.End = x.Begin ∧ i.IncEnd = true ∧ x.IncBegin = true) →
      i.Adjoin x = ⟨i.Begin, i.IncBegin, x.End, x.IncEnd⟩) ∧
    ((i.Adjoin x).IsEmpty = true → i.Adjoin x = Interval.zero) ∧
    ((i.Intersect x).Begin < (i.Intersect x).End → i.Adjoin x = Interval.zero) := by
  obtain ⟨hi, hx, hb, he⟩ := Interval.intersect_fields h
  obtain ⟨hn1, hn2⟩ := overlap_not_ltBeginOf h
  rw [not_ltBeginOf_iff hi hx] at hn1
  rw [not_ltBeginOf_iff hx hi] at hn2
  have hiff : (i.Adjoin x).IsEmpty = false ↔
      ((i.Begin = x.End ∧ i.IncBegin = true ∧ x.IncEnd = true) ∨
       (i.End = x.Begin ∧ i.IncEnd = true ∧ x.IncBegin = true)) := by
    rw [adjoin_nonempty_iff hi hx]
    constructor
    · rintro (⟨c1, _⟩ | ⟨c2, _⟩)
      · rcases hn2 with q | ⟨_, q2, q3⟩
        · omega
        · exact Or.inl ⟨c1, q3, q2⟩
      · rcases hn1 with q | ⟨_, q2, q3⟩
        · omega
        · exact Or.inr ⟨c2, q2, q3⟩
    · rintro (⟨c1, c2, _⟩ | ⟨c1, c2, _⟩)
      · exact Or.inl ⟨c1, Or.inl c2⟩
      · exact Or.inr ⟨c1, Or.inl c2⟩
  have hfirst : (i.Begin = x.End ∧ i.IncBegin = true ∧ x.IncEnd = true) →
      i.Adjoin x = ⟨x.Begin, x.IncBegin, i.End, i.IncEnd⟩ := by
    rintro ⟨c1, c2, _⟩
    unfold Interval.Adjoin
    simp only [hi, hx, Bool.or_self, Bool.false_eq_true, if_false]
    rw [if_pos ⟨c1, by rw [c2]; rfl⟩]
  have hsecond : (i.End = x.Begin ∧ i.IncEnd = true ∧ x.IncBegin = true) →
      i.Adjoin x = ⟨i.Begin, i.IncBegin, x.End, x.IncEnd⟩ := by
    rintro ⟨c1, c2, c3⟩
    by_cases d : i.Begin = x.End ∧ (i.IncBegin || x.IncEnd) = true
    · have hi2 := (Interval.isEmpty_eq_false_iff i).1 hi
      have hx2 := (Interval.isEmpty_eq_false_iff x).1 hx
      obtain ⟨d1, _⟩ := d
      have e1 : i.Begin = i.End := by
        rcases hi2 with q | ⟨q, _, _⟩
        · rcases hx2 with r | ⟨r, _, _⟩ <;> omega
        · exact q
      have e2 : x.Begin = x.End := by omega
      have f1 : i.IncBegin = true := by
        rcases hi2 with q | ⟨_, q, _⟩
        · omega
        · exact q
      have f2 : x.IncEnd = true := by
        rcases hx2 with q | ⟨_, _, q⟩
        · omega
        · exact q
      rw [hfirst ⟨d1, f1, f2⟩]
      apply interval_ext
      · simp only; omega
      · simp only; rw [c3, f1]
      · simp only; omega
      · simp only; rw [c2, f2]
    · unfold Interval.Adjoin
      simp only [hi, hx, Bool.or_self, Bool.false_eq_true, if_false]
      rw [if_neg d, if_pos ⟨c1, by rw [c2]; rfl⟩]
  have hpoint : (i.Adjoin x).IsEmpty = false →
      (i.Intersect x).Begin = (i.Intersect x).End := by
    intro hne
    rw [Interval.isEmpty_eq_false_iff] at hi hx
    rcases hiff.1 hne with ⟨c1, _, _⟩ | ⟨c1, _, _⟩
    · rcases hb with ⟨_, q2, _⟩ | ⟨_, q2, _⟩ | ⟨_, q2, _⟩ <;>
        rcases he with ⟨_, r2, _⟩ | ⟨_, r2, _⟩ | ⟨_, r2, _⟩ <;> rw [q2, r2] <;> omega
    · rcases hb with ⟨_, q2, _⟩ | ⟨_, q2, _⟩ | ⟨_, q2, _⟩ <;>
        rcases he with ⟨_, r2, _⟩ | ⟨_, r2, _⟩ | ⟨_, r2, _⟩ <;> rw [q2, r2] <;> omega
  refine ⟨hiff, hpoint, fun hne => ⟨fun p => mem_adjoin hne p, adjoin_eq_encompass hne⟩,
    hfirst, hsecond, adjoin_eq_zero_of_isEmpty, ?_⟩
  intro hlong
  apply adjoin_eq_zero_of_isEmpty
  cases hc : (i.Adjoin x).IsEmpty
  · have := hpoint hc
    omega
  · rfl

theorem adjoin_of_overlap_witness :
    (Interval.Intersect ⟨0, true, 6, true⟩ ⟨6, true, 9, false⟩).IsEmpty = false ∧
    (((Interval.Adjoin ⟨0, true, 6, true⟩ ⟨6, true, 9, false⟩).IsEmpty = false ↔
      (((0 : Int) = 9 ∧ true = true ∧ false = true) ∨
       ((6 : Int) = 6 ∧ true = true ∧ true = true))) ∧
    ((Interval.Adjoin ⟨0, true, 6, true⟩ ⟨6, true, 9, false⟩).IsEmpty = false →
      (Interval.Intersect ⟨0, true, 6, true⟩ ⟨6, true, 9, false⟩).Begin =
        (Interval.Intersect ⟨0, true, 6, true⟩ ⟨6, true, 9, false⟩).End) ∧
    ((Interval.Adjoin ⟨0, true, 6, true⟩ ⟨6, true, 9, false⟩).IsEmpty = false →
      (∀ p : Int, Interval.Mem p (Interval.Adjoin ⟨0, true, 6, true⟩ ⟨6, true, 9, false⟩) ↔
        (Interval.Mem p ⟨0, true, 6, true⟩ ∨ Interval.Mem p ⟨6, true, 9, false⟩)) ∧
      Interval.Adjoin ⟨0, true, 6, true⟩ ⟨6, true, 9, false⟩ =
        Interval.Encompass ⟨0, true, 6, true⟩ ⟨6, true, 9, false⟩) ∧
    (((0 : Int) = 9 ∧ true = true ∧ false = true) →
      Interval.Adjoin ⟨0, true, 6, true⟩ ⟨6, true, 9, false⟩ = ⟨6, true, 6, true⟩) ∧
    (((6 : Int) = 6 ∧ true = true ∧ true = true) →
      Interval.Adjoin ⟨0, true, 6, true⟩ ⟨6, true, 9, false⟩ = ⟨0, true, 9, false⟩) ∧
    ((Interval.Adjoin ⟨0, true, 6, true⟩ ⟨6, true, 9, false⟩).IsEmpty = true →
      Interval.Adjoin ⟨0, true, 6, true⟩ ⟨6, true, 9, false⟩ = Interval.zero) ∧
    ((Interval.Intersect ⟨0, true, 6, true⟩ ⟨6, true, 9, false⟩).Begin <
        (Interval.Intersect ⟨0, true, 6, true⟩ ⟨6, true, 9, false⟩).End →
      Interval.Adjoin ⟨0, true, 6, true⟩ ⟨6, true, 9, false⟩ = Interval.zero)) :=
  ⟨by decide, adjoin_of_overlap ⟨0, true, 6, true⟩ ⟨6, true, 9, false⟩ (by decide)⟩

/-! ## Adjoin returns the union -/

/-- C25: when `Adjoin` merges, the result is the union of the two intervals:
for all intervals `i` and `x` such that `m = i.Adjoin(x)` is non-empty, every
integer coordinate `p` lies in `m` if and only if `p` lies in `i` or in `x`,
and `m` equals `i.Encompass(x)`; moreover `i.Adjoin(x)` and `x.Adjoin(i)` are
`Equal` for all `i` and `x` (they are even the same interval field for field). -/
theorem adjoin_union (i x : Interval) :
    ((i.Adjoin x).IsEmpty = false →
      (∀ p : Int, Interval.Mem p (i.Adjoin x) ↔ (Interval.Mem p i ∨ Interval.Mem p x)) ∧
      i.Adjoin x = i.Encompass x) ∧
    (i.Adjoin x).Equal (x.Adjoin i) = true ∧ i.Adjoin x = x.Adjoin i := by
  refine ⟨fun h => ⟨fun p => mem_adjoin h p, adjoin_eq_encompass h⟩, ?_, adjoin_comm i x⟩
  rw [adjoin_comm i x]
  exact equal_self _

theorem adjoin_union_witness :
    (Interval.Adjoin ⟨0, true, 10, false⟩ ⟨10, true, 20, false⟩).IsEmpty = false ∧
    (∀ p : Int, Interval.Mem p (Interval.Adjoin ⟨0, true, 10, false⟩ ⟨10, true, 20, false⟩) ↔
      (Interval.Mem p ⟨0, true, 10, false⟩ ∨ Interval.Mem p ⟨10, true, 20, false⟩)) ∧
    Interval.Adjoin ⟨0, true, 10, false⟩ ⟨10, true, 20, false⟩ =
      Interval.Encompass ⟨0, true, 10, false⟩ ⟨10, true, 20, false⟩ :=
  ⟨by decide, (adjoin_union ⟨0, true, 10, false⟩ ⟨10, true, 20, false⟩).1 (by decide)⟩

/-! ## Encompass is the smallest cover -/

theorem intersect_eq_of_within {z a : Interval} (h : Within z a) : a.Intersect z = z := by
  have ha := within_nonempty h
  have hov : (a.Intersect z).IsEmpty = false :=
    overlap_of_not_ltBeginOf ha h.1 (not_ltBeginOf_of_within h) (not_ltBeginOf_of_within_left h)
  obtain ⟨_, _, hb, he⟩ := Interval.intersect_fields hov
  obtain ⟨_, h1, h2⟩ := h
  apply interval_ext
  · rcases hb with ⟨_, q2, _⟩ | ⟨_, q2, _⟩ | ⟨q1, _, _⟩
    · exact q2
    · exact q2
    · omega
  · rcases hb with ⟨_, _, q3⟩ | ⟨q1, _, q3⟩ | ⟨q1, _, _⟩
    · exact q3
    · rw [q3]
      rcases h1 with h1 | ⟨_, h1⟩
      · omega
      · cases hz : z.IncBegin
        · simp
        · rw [h1 hz]; rfl
    · omega
  · rcases he with ⟨q1, _, _⟩ | ⟨_, q2, _⟩ | ⟨_, q2, _⟩
    · omega
    · exact q2
    · exact q2
  · rcases he with ⟨q1, _, _⟩ | ⟨q1, _, q3⟩ | ⟨_, _, q3⟩
    · omega
    · rw [q3]
      rcases h2 with h2 | ⟨_, h2⟩
      · omega
      · cases hz : z.IncEnd
        · simp
        · rw [h2 hz]; rfl
    · exact q3

theorem equal_of_isEmpty {u z : Interval} (hu : u.IsEmpty = true) (hz : z.IsEmpty = true) :
    u.Equal z = true := by
  unfold Interval.Equal
  simp [hu, hz]

theorem eq_of_equal_of_nonempty_right {u z : Interval} (h : u.Equal z = true)
    (hz : z.IsEmpty = false) : u = z := by
  unfold Interval.Equal at h
  rw [hz] at h
  simp only [Bool.false_and, Bool.or_false, Bool.and_eq_true, decide_eq_true_eq] at h
  obtain ⟨⟨⟨h1, h2⟩, h3⟩, h4⟩ := h
  exact interval_ext h1 h3 h2 h4

/-- The test `h.Intersect(i).Equal(i)` says that `h` covers `i`: `i` is empty
or lies inside `h`. -/
theorem covers_iff_within (h i : Interval) :
    (h.Intersect i).Equal i = true ↔ (i.IsEmpty = true ∨ Within i h) := by
  constructor
  · intro he
    cases hi : i.IsEmpty
    · right
      have heq := eq_of_equal_of_nonempty_right he hi
      have hne : (h.Intersect i).IsEmpty = false := by rw [heq]; exact hi
      have := (intersect_within hne).1
      rw [heq] at this
      exact this
    · left; rfl
  · rintro (hi | hw)
    · rw [Interval.intersect_of_isEmpty (Or.inl hi)]
      exact equal_of_isEmpty Interval.zero_isEmpty hi
    · rw [intersect_eq_of_within hw]
      exact equal_self i

theorem encompass_minimal {i x h : Interval} (hi : Within i h) (hx : Within x h) :
    Within (i.Encompass x) h := by
  have hne := within_nonempty (encompass_within hi.1 hx.1).1
  obtain ⟨hb, he⟩ := encompass_fields hi.1 hx.1
  obtain ⟨_, i1, i2⟩ := hi
  obtain ⟨_, x1, x2⟩ := hx
  refine ⟨hne, ?_, ?_⟩
  · rcases hb with ⟨_, q2, q3⟩ | ⟨q1, q2, q3⟩ | ⟨_, q2, q3⟩
    · rw [q2, q3]; exact i1
    · rw [q2, q3]
      rcases x1 with x1 | ⟨x1, x1f⟩
      · exact Or.inl x1
      · right
        refine ⟨x1, ?_⟩
        intro hor
        rcases i1 with i1 | ⟨_, i1f⟩
        · omega
        · cases hA : i.IncBegin
          · rw [hA] at hor
            exact x1f (by simpa using hor)
          · exact i1f hA
    · rw [q2, q3]; exact x1
  · rcases he with ⟨_, q2, q3⟩ | ⟨q1, q2, q3⟩ | ⟨_, q2, q3⟩
    · rw [q2, q3]; exact x2
    · rw [q2, q3]
      rcases x2 with x2 | ⟨x2, x2f⟩
      · exact Or.inl x2
      · right
        refine ⟨x2, ?_⟩
        intro hor
        rcases i2 with i2 | ⟨_, i2f⟩
        · omega
        · cases hA : i.IncEnd
          · rw [hA] at hor
            exact x2f (by simpa using hor)
          · exact i2f hA
    · rw [q2, q3]; exact i2

theorem encompass_comm_of_nonempty {i x : Interval} (hi : i.IsEmpty = false)
    (hx : x.IsEmpty = false) : i.Encompass x = x.Encompass i := by
  obtain ⟨hb, he⟩ := encompass_fields hi hx
  obtain ⟨hb2, he2⟩ := encompass_fields hx hi
  apply interval_ext
  · rcases hb with ⟨q1, q2, _⟩ | ⟨q1, q2, _⟩ | ⟨q1, q2, _⟩ <;>
      rcases hb2 with ⟨r1, r2, _⟩ | ⟨r1, r2, _⟩ | ⟨r1, r2, _⟩ <;> rw [q2, r2] <;> omega
  · rcases hb with ⟨q1, _, q3⟩ | ⟨q1, _, q3⟩ | ⟨q1, _, q3⟩ <;>
      rcases hb2 with ⟨r1, _, r3⟩ | ⟨r1, _, r3⟩ | ⟨r1, _, r3⟩ <;>
      first
        | omega
        | (rw [q3, r3]; exact Bool.or_comm _ _)
        | (rw [q3, r3])
  · rcases he with ⟨q1, q2, _⟩ | ⟨q1, q2, _⟩ | ⟨q1, q2, _⟩ <;>
      rcases he2 with ⟨r1, r2, _⟩ | ⟨r1, r2, _⟩ | ⟨r1, r2, _⟩ <;> rw [q2, r2] <;> omega
  · rcases he with ⟨q1, _, q3⟩ | ⟨q1, _, q3⟩ | ⟨q1, _, q3⟩ <;>
      rcases he2 with ⟨r1, _, r3⟩ | ⟨r1, _, r3⟩ | ⟨r1, _, r3⟩ <;>
      first
        | omega
        | (rw [q3, r3]; exact Bool.or_comm _ _)
        | (rw [q3, r3])

theorem encompass_of_isEmpty_right {i x : Interval} (hx : x.IsEmpty = true) :
    i.Encompass x = i := by
  unfold Interval.Encompass
  rw [if_pos hx]

theorem encompass_of_isEmpty_left {i x : Interval} (hi : i.IsEmpty = true)
    (hx : x.IsEmpty = false) : i.Encompass x = x := by
  unfold Interval.Encompass
  rw [if_neg (by rw [hx]; decide), if_pos hi]

/-- C26: `Encompass` is the smallest interval covering both operands: for all
intervals `i` and `x` with `e = i.Encompass(x)`, `e` covers `i` and `x`
(`e.Intersect(i).Equal(i)` and `e.Intersect(x).Equal(x)`), every interval `h`
that covers both `i` and `x` also covers `e` (`h.Intersect(e).Equal(e)`), and
`i.Encompass(x).Equal(x.Encompass(i))`. Encompassing with an empty interval
returns the other operand unchanged: an empty `x` returns `i`, and an empty `i`
returns a non-empty `x`; when both are empty the receiver `i` is returned, which
is `Equal` to `x`. -/
theorem encompass_smallest_cover (i x : Interval) :
    ((i.Encompass x).Intersect i).Equal i = true ∧
    ((i.Encompass x).Intersect x).Equal x = true ∧
    (∀ h : Interval, (h.Intersect i).Equal i = true → (h.Intersect x).Equal x = true →
      (h.Intersect (i.Encompass x)).Equal (i.Encompass x) = true) ∧
    (i.Encompass x).Equal (x.Encompass i) = true ∧
    (x.IsEmpty = true → i.Encompass x = i) ∧
    (i.IsEmpty = true → x.IsEmpty = false → i.Encompass x = x) ∧
    (i.IsEmpty = true → (i.Encompass x).Equal x = true) := by
  cases hx : x.IsEmpty
  · cases hi : i.IsEmpty
    · -- both non-empty: the hull
      obtain ⟨w1, w2⟩ := encompass_within hi hx
      refine ⟨(covers_iff_within _ _).2 (Or.inr w1), (covers_iff_within _ _).2 (Or.inr w2),
        ?_, ?_, fun h => absurd h (by decide), fun h => absurd h (by decide),
        fun h => absurd h (by decide)⟩
      · intro h c1 c2
        rw [covers_iff_within] at c1 c2 ⊢
        rcases c1 with c1 | c1
        · rw [hi] at c1; exact absurd c1 (by decide)
        · rcases c2 with c2 | c2
          · rw [hx] at c2; exact absurd c2 (by decide)
          · exact Or.inr (encompass_minimal c1 c2)
      · rw [encompass_comm_of_nonempty hi hx]
        exact equal_self _
    · -- only `i` is empty: the result is `x`
      rw [encompass_of_isEmpty_left hi hx, encompass_of_isEmpty_right hi]
      refine ⟨(covers_iff_within _ _).2 (Or.inl hi),
        (covers_iff_within _ _).2 (Or.inr (within_refl hx)), fun h _ c2 => c2, equal_self _,
        fun h => absurd h (by decide), fun _ _ => rfl, fun _ => equal_self _⟩
  · -- `x` is empty: the result is `i`
    rw [encompass_of_isEmpty_right hx]
    refine ⟨?_, (covers_iff_within _ _).2 (Or.inl hx), fun h c1 _ => c1, ?_, fun _ => rfl,
      fun _ h => absurd h (by decide), ?_⟩
    · cases hi : i.IsEmpty
      · exact (covers_iff_within _ _).2 (Or.inr (within_refl hi))
      · exact (covers_iff_within _ _).2 (Or.inl hi)
    · cases hi : i.IsEmpty
      · rw [encompass_of_isEmpty_left hx hi]
        exact equal_self _
      · rw [encompass_of_isEmpty_right hi]
        exact equal_of_isEmpty hi hx
    · intro hi
      exact equal_of_isEmpty hi hx

theorem encompass_smallest_cover_witness :
    (Interval.Intersect ⟨0, true, 30, false⟩ ⟨0, true, 10, false⟩).Equal ⟨0, true, 10, false⟩
      = true ∧
    (Interval.Intersect ⟨0, true, 30, false⟩ ⟨20, false, 30, false⟩).Equal
      ⟨20, false, 30, false⟩ = true ∧
    (Interval.Intersect ⟨0, true, 30, false⟩
      (Interval.Encompass ⟨0, true, 10, false⟩ ⟨20, false, 30, false⟩)).Equal
      (Interval.Encompass ⟨0, true, 10, false⟩ ⟨20, false, 30, false⟩) = true :=
  ⟨by decide, by decide,
    (encompass_smallest_cover ⟨0, true, 10, false⟩ ⟨20, false, 30, false⟩).2.2.1
      ⟨0, true, 30, false⟩ (by decide) (by decide)⟩

/-- With both operands empty `Encompass` returns the receiver, whatever its
fields are. -/
theorem encompass_both_empty :
    Interval.Encompass ⟨3, false, 3, false⟩ ⟨3, false, 3, true⟩ = ⟨3, false, 3, false⟩ := by
  decide

/-! ## Contains of a set looks at one stored interval -/

theorem contains_eq_false_of_ltBeginOf_left {i x : Interval} (h : i.LtBeginOf x = true) :
    i.Contains x = false := by
  rw [Interval.ltBeginOf_iff] at h
  obtain ⟨hx, hi, h⟩ := h
  unfold Interval.Contains
  simp only [hi, hx, Bool.false_eq_true, if_false]
  rw [Interval.isEmpty_eq_false_iff] at hi hx
  rcases x with ⟨xb, xib, xe, xie⟩
  rcases i with ⟨ib, iib, ie, iie⟩
  simp only at *
  cases xib <;> cases xie <;> cases iib <;> cases iie <;> split_ifs <;> simp_all <;> omega

theorem begin_le_of_contains {i x : Interval} (hc : i.Contains x = true)
    (hx : x.IsEmpty = false) : i.IsEmpty = false ∧ i.Begin ≤ x.Begin := by
  unfold Interval.Contains at hc
  rw [if_neg (by rw [hx]; decide)] at hc
  cases hi : i.IsEmpty
  · refine ⟨rfl, ?_⟩
    rw [hi] at hc
    simp only [Bool.false_eq_true, if_false] at hc
    by_cases c : i.Begin > x.Begin
    · rw [if_pos c] at hc
      exact absurd hc (by decide)
    · omega
  · rw [hi] at hc
    simp at hc

theorem ltBeginOf_of_separated_contains {m i x : Interval} (hs : Separated m i)
    (hc : i.Contains x = true) (hx : x.IsEmpty = false) : m.LtBeginOf x = true := by
  obtain ⟨_, hb⟩ := begin_le_of_contains hc hx
  rw [separated_iff] at hs
  obtain ⟨hm, _, hs⟩ := hs
  rw [Interval.ltBeginOf_iff]
  refine ⟨hx, hm, ?_⟩
  rcases hs with hs | ⟨hs, hf, _⟩
  · left; omega
  · rcases lt_or_eq_of_le hb with hb | hb
    · left; omega
    · right; exact ⟨by omega, Or.inl hf⟩

/-- Where `Contains` of a well-formed set looks: with the stored sequence split
into the intervals `LtBeginOf x` and the rest, the answer is that of the first
interval of the rest, and no other stored interval contains a non-empty `x`. -/
theorem set_contains_split (l : List Interval) (x : Interval)
    (hne : ∀ i ∈ l, i.IsEmpty = false) (hp : l.Pairwise Separated) :
    (OrderedSet.Contains ⟨l⟩ x = true ↔ ∃ i ∈ l, i.Contains x = true) ∧
    (x.IsEmpty = false → ∀ i ∈ l, i.Contains x = true →
      l[OrderedSet.searchLow ⟨l⟩ x]? = some i) := by
  obtain ⟨pre, mid, post, rfl, h1, h2, h3⟩ := split3 l x hp
  have hlow := searchLow_split3 pre mid post x h1 h2 h3
  have hpre : ∀ i ∈ pre, i.Contains x = false :=
    fun i hi => contains_eq_false_of_ltBeginOf_left (h1 i hi)
  rw [hlow]
  unfold OrderedSet.Contains
  simp only [hlow]
  cases hrest : mid ++ post with
  | nil =>
    have hmid : mid = [] := (List.append_eq_nil.1 hrest).1
    have hpost : post = [] := (List.append_eq_nil.1 hrest).2
    subst hmid hpost
    simp only [List.append_nil, if_true]
    constructor
    · constructor
      · intro h; exact absurd h (by decide)
      · rintro ⟨i, hi, hc⟩
        rw [hpre i hi] at hc
        exact absurd hc (by decide)
    · intro _ i hi hc
      rw [hpre i hi] at hc
      exact absurd hc (by decide)
  | cons f rest =>
    have hl : pre ++ mid ++ post = pre ++ f :: rest := by
      rw [List.append_assoc, hrest]
    rw [hl] at hp hne ⊢
    have hfx : f.LtBeginOf x = false := by
      have hf : f ∈ mid ++ post := by rw [hrest]; simp
      rcases List.mem_append.1 hf with hf | hf
      · exact (h2 f hf).1
      · exact ltBeginOf_asymm (h3 f hf)
    have hfr : (f :: rest).Pairwise Separated := by
      rw [List.pairwise_append] at hp
      exact hp.2.1
    have honly : x.IsEmpty = false → ∀ i ∈ pre ++ f :: rest, i.Contains x = true → i = f := by
      intro hx i hi hc
      rcases List.mem_append.1 hi with hi | hi
      · rw [hpre i hi] at hc
        exact absurd hc (by decide)
      · rcases List.mem_cons.1 hi with hi | hi
        · exact hi
        · have := ltBeginOf_of_separated_contains ((List.pairwise_cons.1 hfr).1 i hi) hc hx
          rw [hfx] at this
          exact absurd this (by decide)
    rw [if_neg (by simp), getD_split, getElem?_split]
    constructor
    · constructor
      · intro h
        exact ⟨f, by simp, h⟩
      · rintro ⟨i, hi, hc⟩
        cases hx : x.IsEmpty
        · rw [← honly hx i hi hc]
          exact hc
        · unfold Interval.Contains
          rw [if_pos hx]
    · intro hx i hi hc
      rw [honly hx i hi hc]

/-- C27: `OrderedSet.Contains` finds the one interval that can contain `x`: for
every well-formed set `s` and every interval `x`, `s.Contains(x)` is true if and
only if some stored interval `i` of `s` satisfies `i.Contains(x)`; for a
non-empty `x` every stored interval that does is the one at index
`searchLow(x)`, so at most one does. -/
theorem set_contains_iff (s : OrderedSet) (x : Interval) (h : WellFormed s) :
    (s.Contains x = true ↔ ∃ i ∈ s.intervals, i.Contains x = true) ∧
    (x.IsEmpty = false →
      (∀ i ∈ s.intervals, i.Contains x = true → s.intervals[s.searchLow x]? = some i) ∧
      (∀ i ∈ s.intervals, ∀ j ∈ s.intervals, i.Contains x = true → j.Contains x = true →
        i = j)) := by
  rw [wellFormed_iff_pairwise] at h
  obtain ⟨l⟩ := s
  obtain ⟨h1, h2⟩ := set_contains_split l x h.1 h.2
  refine ⟨h1, fun hx => ⟨h2 hx, ?_⟩⟩
  intro i hi j hj hci hcj
  have e1 := h2 hx i hi hci
  have e2 := h2 hx j hj hcj
  rw [e1] at e2
  exact Option.some.inj e2

theorem set_contains_iff_witness :
    WellFormed ⟨[⟨0, true, 3, true⟩, ⟨5, true, 8, true⟩, ⟨10, false, 12, true⟩]⟩ ∧
    ((OrderedSet.Contains ⟨[⟨0, true, 3, true⟩, ⟨5, true, 8, true⟩, ⟨10, false, 12, true⟩]⟩
        ⟨6, true, 7, false⟩ = true ↔
      ∃ i ∈ [(⟨0, true, 3, true⟩ : Interval), ⟨5, true, 8, true⟩, ⟨10, false, 12, true⟩],
        i.Contains ⟨6, true, 7, false⟩ = true) ∧
    (Interval.IsEmpty ⟨6, true, 7, false⟩ = false →
      (∀ i ∈ [(⟨0, true, 3, true⟩ : Interval), ⟨5, true, 8, true⟩, ⟨10, false, 12, true⟩],
        i.Contains ⟨6, true, 7, false⟩ = true →
        [(⟨0, true, 3, true⟩ : Interval), ⟨5, true, 8, true⟩, ⟨10, false, 12, true⟩][
          OrderedSet.searchLow
            ⟨[⟨0, true, 3, true⟩, ⟨5, true, 8, true⟩, ⟨10, false, 12, true⟩]⟩
            ⟨6, true, 7, false⟩]? = some i) ∧
      (∀ i ∈ [(⟨0, true, 3, true⟩ : Interval), ⟨5, true, 8, true⟩, ⟨10, false, 12, true⟩],
        ∀ j ∈ [(⟨0, true, 3, true⟩ : Interval), ⟨5, true, 8, true⟩, ⟨10, false, 12, true⟩],
          i.Contains ⟨6, true, 7, false⟩ = true → j.Contains ⟨6, true, 7, false⟩ = true →
          i = j))) :=
  ⟨by decide, set_contains_iff _ _ (by decide)⟩

/-! ## Bound is the smallest cover of the stored intervals -/

theorem begin_lt_of_separated {a g : Interval} (h : Separated a g) :
    a.Begin < g.Begin ∧ a.End < g.End := by
  rw [separated_iff] at h
  obtain ⟨ha, hg, h⟩ := h
  rw [Interval.isEmpty_eq_false_iff] at ha hg
  rcases a with ⟨ab, aib, ae, aie⟩
  rcases g with ⟨gb, gib, ge, gie⟩
  simp only at *
  cases aib <;> cases aie <;> cases gib <;> cases gie <;> simp_all <;> omega

/-- The fields of `Bound` of a well-formed sequence: the begin of its first
interval and the end of its last. -/
theorem bound_fields {l : List Interval} (hne : ∀ i ∈ l, i.IsEmpty = false)
    (hp : l.Pairwise Separated) {f g : Interval} (hf : l.head? = some f)
    (hg : l.getLast? = some g) :
    (OrderedSet.Bound ⟨l⟩).Begin = f.Begin ∧ (OrderedSet.Bound ⟨l⟩).IncBegin = f.IncBegin ∧
    (OrderedSet.Bound ⟨l⟩).End = g.End ∧ (OrderedSet.Bound ⟨l⟩).IncEnd = g.IncEnd := by
  unfold OrderedSet.Bound
  cases l with
  | nil => simp at hf
  | cons a t =>
    simp only [List.head?_cons, Option.some.injEq] at hf
    subst hf
    cases t with
    | nil =>
      simp only [List.getLast?_singleton, Option.some.injEq] at hg
      subst hg
      exact ⟨rfl, rfl, rfl, rfl⟩
    | cons b t =>
      simp only
      have hlast : (b :: t).getLastD Interval.zero = g := by
        rw [List.getLast?_cons_cons] at hg
        rw [List.getLastD_eq_getLast?, hg]
        rfl
      rw [hlast]
      have hgm : g ∈ b :: t := by
        rw [List.getLast?_cons_cons] at hg
        exact List.mem_of_getLast?_eq_some hg
      have hs := (List.pairwise_cons.1 hp).1 g hgm
      obtain ⟨q1, q2⟩ := begin_lt_of_separated hs
      obtain ⟨hb, he⟩ := encompass_fields (hne a (by simp)) (hne g (List.mem_cons_of_mem _ hgm))
      refine ⟨?_, ?_, ?_, ?_⟩
      · rcases hb with ⟨_, r2, _⟩ | ⟨r1, _, _⟩ | ⟨r1, _, _⟩
        · exact r2
        · omega
        · omega
      · rcases hb with ⟨_, _, r3⟩ | ⟨r1, _, _⟩ | ⟨r1, _, _⟩
        · exact r3
        · omega
        · omega
      · rcases he with ⟨_, r2, _⟩ | ⟨r1, _, _⟩ | ⟨r1, _, _⟩
        · exact r2
        · omega
        · omega
      · rcases he with ⟨_, _, r3⟩ | ⟨r1, _, _⟩ | ⟨r1, _, _⟩
        · exact r3
        · omega
        · omega

/-- C30: `Bound` is the smallest interval enclosing every stored interval: for
every well-formed set `s`, `s.Bound()` is the all-zero empty interval if `s`
has no intervals; otherwise it covers every stored interval `i`
(`s.Bound().Intersect(i).Equal(i)`), its `Begin`/`IncBegin` are those of the
first stored interval and its `End`/`IncEnd` those of the last, and every
interval `h` that covers all stored intervals covers `s.Bound()` too. -/
theorem bound_smallest_cover (s : OrderedSet) (h : WellFormed s) :
    (s.intervals = [] → s.Bound = Interval.zero) ∧
    (∀ f g : Interval, s.intervals.head? = some f → s.intervals.getLast? = some g →
      (∀ i ∈ s.intervals, (s.Bound.Intersect i).Equal i = true) ∧
      s.Bound.Begin = f.Begin ∧ s.Bound.IncBegin = f.IncBegin ∧
      s.Bound.End = g.End ∧ s.Bound.IncEnd = g.IncEnd ∧
      (∀ c : Interval, (∀ i ∈ s.intervals, (c.Intersect i).Equal i = true) →
        (c.Intersect s.Bound).Equal s.Bound = true)) := by
  rw [wellFormed_iff_pairwise] at h
  obtain ⟨l⟩ := s
  obtain ⟨hne, hp⟩ := h
  simp only at hne hp ⊢
  constructor
  · intro hl
    rw [hl]
    rfl
  · intro f g hf hg
    obtain ⟨e1, e2, e3, e4⟩ := bound_fields hne hp hf hg
    have hfm : f ∈ l := List.mem_of_mem_head? hf
    have hgm : g ∈ l := List.mem_of_getLast?_eq_some hg
    refine ⟨?_, e1, e2, e3, e4, ?_⟩
    · intro i hi
      exact (covers_iff_within _ _).2 (Or.inr (bound_within hne hp hi))
    · intro c hc
      have hcf := (covers_iff_within _ _).1 (hc f hfm)
      have hcg := (covers_iff_within _ _).1 (hc g hgm)
      rw [covers_iff_within]
      right
      rcases hcf with hcf | hcf
      · rw [hne f hfm] at hcf; exact absurd hcf (by decide)
      · rcases hcg with hcg | hcg
        · rw [hne g hgm] at hcg; exact absurd hcg (by decide)
        · refine ⟨within_nonempty (bound_within hne hp hfm), ?_, ?_⟩
          · rw [e1, e2]; exact hcf.2.1
          · rw [e3, e4]; exact hcg.2.2

theorem bound_smallest_cover_witness :
    WellFormed ⟨[⟨0, false, 3, true⟩, ⟨5, true, 8, true⟩, ⟨10, false, 12, false⟩]⟩ ∧
    OrderedSet.Bound ⟨[⟨0, false, 3, true⟩, ⟨5, true, 8, true⟩, ⟨10, false, 12, false⟩]⟩
      = ⟨0, false, 12, false⟩ ∧
    (∀ i ∈ [(⟨0, false, 3, true⟩ : Interval), ⟨5, true, 8, true⟩, ⟨10, false, 12, false⟩],
      ((OrderedSet.Bound
        ⟨[⟨0, false, 3, true⟩, ⟨5, true, 8, true⟩, ⟨10, false, 12, false⟩]⟩).Intersect
          i).Equal i = true) :=
  ⟨by decide, by decide,
    ((bound_smallest_cover
      ⟨[⟨0, false, 3, true⟩, ⟨5, true, 8, true⟩, ⟨10, false, 12, false⟩]⟩ (by decide)).2
        ⟨0, false, 3, true⟩ ⟨10, false, 12, false⟩ rfl rfl).1⟩

/-! ## The iterator closure -/

theorem call_emptyIterator :
    IteratorFunc.call IteratorFunc.emptyIterator
      = some (Interval.zero, IteratorFunc.emptyIterator) := rfl

theorem call_out_of_range (l : List Interval) (low high idx stride : Int)
    (h : idx < low ∨ idx > high) :
    (IteratorFunc.closure l low high idx stride).call
      = some (Interval.zero, IteratorFunc.closure l low high idx stride) := by
  simp only [IteratorFunc.call]
  rw [if_pos h]

theorem call_in_range (pre mid post : List Interval) (t : Nat) (ht : t < mid.length)
    (stride : Int) :
    (IteratorFunc.closure (pre ++ mid ++ post) pre.length
        ((pre.length : Int) + mid.length - 1) ((pre.length : Int) + t) stride).call
      = some (mid[t], IteratorFunc.closure (pre ++ mid ++ post) pre.length
          ((pre.length : Int) + mid.length - 1) ((pre.length : Int) + t + stride) stride) := by
  simp only [IteratorFunc.call]
  rw [if_neg (by omega), if_neg (by omega)]
  have e : ((pre.length : Int) + (t : Int)).toNat = pre.length + t := by omega
  rw [e]
  have hget : (pre ++ mid ++ post)[pre.length + t]? = some mid[t] := by
    rw [List.append_assoc, List.getElem?_append_right (by omega)]
    simp only [Nat.add_sub_cancel_left]
    rw [List.getElem?_append_left ht, List.getElem?_eq_getElem ht]
  rw [hget]

theorem nth_forward (pre mid post : List Interval) : ∀ (k j : Nat), j ≤ mid.length →
    IteratorFunc.nth k (IteratorFunc.closure (pre ++ mid ++ post) pre.length
        ((pre.length : Int) + mid.length - 1) ((pre.length : Int) + j) 1)
      = some ((mid.drop j).getD k Interval.zero) := by
  intro k
  induction k with
  | zero =>
    intro j hj
    simp only [IteratorFunc.nth]
    by_cases hlt : j < mid.length
    · rw [call_in_range pre mid post j hlt 1]
      simp only [Option.map_some', Option.some.injEq]
      rw [List.getD_eq_getElem?_getD, List.getElem?_drop, Nat.add_zero,
        List.getElem?_eq_getElem hlt]
      rfl
    · rw [call_out_of_range _ _ _ _ _ (Or.inr (by omega))]
      rw [List.drop_eq_nil_of_le (by omega)]
      rfl
  | succ k ih =>
    intro j hj
    simp only [IteratorFunc.nth]
    by_cases hlt : j < mid.length
    · rw [call_in_range pre mid post j hlt 1]
      simp only
      have e : (pre.length : Int) + (j : Int) + 1 = (pre.length : Int) + ((j + 1 : Nat) : Int) := by
        push_cast; ring
      rw [e, ih (j + 1) (by omega)]
      rw [List.getD_eq_getElem?_getD, List.getD_eq_getElem?_getD, List.getElem?_drop,
        List.getElem?_drop]
      have e2 : j + 1 + k = j + (k + 1) := by omega
      rw [e2]
    · rw [call_out_of_range _ _ _ _ _ (Or.inr (by omega))]
      simp only
      rw [ih j hj, List.drop_eq_nil_of_le (by omega)]
      rfl

theorem drain_forward (pre mid post : List Interval) (hne : ∀ i ∈ mid, i.IsEmpty = false) :
    ∀ (n j : Nat), j + n = mid.length → ∀ fuel : Nat, n + 1 ≤ fuel →
    IteratorFunc.drain fuel (IteratorFunc.closure (pre ++ mid ++ post) pre.length
        ((pre.length : Int) + mid.length - 1) ((pre.length : Int) + j) 1)
      = some (mid.drop j) := by
  intro n
  induction n with
  | zero =>
    intro j hj fuel hf
    obtain ⟨f, rfl⟩ : ∃ f, fuel = f + 1 := ⟨fuel - 1, by omega⟩
    simp only [IteratorFunc.drain]
    rw [call_out_of_range _ _ _ _ _ (Or.inr (by omega))]
    simp only [Interval.zero_isEmpty, if_true]
    rw [List.drop_eq_nil_of_le (by omega)]
  | succ n ih =>
    intro j hj fuel hf
    obtain ⟨f, rfl⟩ : ∃ f, fuel = f + 1 := ⟨fuel - 1, by omega⟩
    have hlt : j < mid.length := by omega
    simp only [IteratorFunc.drain]
    rw [call_in_range pre mid post j hlt 1]
    simp only [hne mid[j] (List.getElem_mem _), Bool.false_eq_true, if_false]
    have e : (pre.length : Int) + (j : Int) + 1 = (pre.length : Int) + ((j + 1 : Nat) : Int) := by
      push_cast; ring
    rw [e, ih (j + 1) (by omega) f (by omega)]
    simp only [Option.map_some', Option.some.injEq]
    exact (List.drop_eq_getElem_cons hlt).symm

theorem drain_backward (pre mid post : List Interval) (hne : ∀ i ∈ mid, i.IsEmpty = false) :
    ∀ (n : Nat), n ≤ mid.length → ∀ fuel : Nat, n + 1 ≤ fuel →
    IteratorFunc.drain fuel (IteratorFunc.closure (pre ++ mid ++ post) pre.length
        ((pre.length : Int) + mid.length - 1) ((pre.length : Int) + n - 1) (-1))
      = some (mid.take n).reverse := by
  intro n
  induction n with
  | zero =>
    intro _ fuel hf
    obtain ⟨f, rfl⟩ : ∃ f, fuel = f + 1 := ⟨fuel - 1, by omega⟩
    simp only [IteratorFunc.drain]
    rw [call_out_of_range _ _ _ _ _ (Or.inl (by omega))]
    simp only [Interval.zero_isEmpty, if_true]
    rfl
  | succ n ih =>
    intro hn fuel hf
    obtain ⟨f, rfl⟩ : ∃ f, fuel = f + 1 := ⟨fuel - 1, by omega⟩
    have hlt : n < mid.length := by omega
    have e : (pre.length : Int) + ((n + 1 : Nat) : Int) - 1 = (pre.length : Int) + (n : Int) := by
      push_cast; ring
    simp only [IteratorFunc.drain]
    rw [e, call_in_range pre mid post n hlt (-1)]
    simp only [hne mid[n] (List.getElem_mem _), Bool.false_eq_true, if_false]
    have e2 : (pre.length : Int) + (n : Int) + -1 = (pre.length : Int) + (n : Int) - 1 := by ring
    rw [e2, ih (by omega) f (by omega)]
    simp only [Option.map_some', Option.some.injEq]
    rw [List.take_succ, List.getElem?_eq_getElem hlt, Option.toList_some, List.reverse_append]
    rfl

theorem iteratorClosure_eq (pre mid post : List Interval) (b : Interval)
    (hb : b.IsEmpty = false) (h1 : ∀ a ∈ pre, a.LtBeginOf b = true)
    (h2 : ∀ a ∈ mid, a.LtBeginOf b = false ∧ b.LtBeginOf a = false)
    (h3 : ∀ a ∈ post, b.LtBeginOf a = true) (forward : Bool) :
    OrderedSet.IteratorClosure ⟨pre ++ mid ++ post⟩ b forward =
      IteratorFunc.closure (pre ++ mid ++ post) pre.length
        ((pre.length : Int) + mid.length - 1)
        (if forward then (pre.length : Int) + (0 : Nat)
          else (pre.length : Int) + mid.length - 1)
        (if forward then 1 else -1) := by
  unfold OrderedSet.IteratorClosure
  simp only [hb, Bool.false_eq_true, if_false, searchLow_split3 pre mid post b h1 h2 h3,
    searchHigh_split3 pre mid post b h1 h2 h3]
  cases forward
  · simp
  · simp

theorem filter_split3 (pre mid post : List Interval) (b : Interval)
    (h1 : ∀ a ∈ pre, a.LtBeginOf b = true)
    (h2 : ∀ a ∈ mid, a.LtBeginOf b = false ∧ b.LtBeginOf a = false)
    (h3 : ∀ a ∈ post, b.LtBeginOf a = true) :
    (pre ++ mid ++ post).filter (fun i => !i.LtBeginOf b && !b.LtBeginOf i) = mid := by
  rw [List.filter_append, List.filter_append]
  have e1 : pre.filter (fun i => !i.LtBeginOf b && !b.LtBeginOf i) = [] := by
    rw [List.filter_eq_nil_iff]
    intro a ha
    simp [h1 a ha]
  have e2 : mid.filter (fun i => !i.LtBeginOf b && !b.LtBeginOf i) = mid := by
    rw [List.filter_eq_self]
    intro a ha
    simp [(h2 a ha).1, (h2 a ha).2]
  have e3 : post.filter (fun i => !i.LtBeginOf b && !b.LtBeginOf i) = [] := by
    rw [List.filter_eq_nil_iff]
    intro a ha
    simp [h3 a ha]
  rw [e1, e2, e3]
  simp

theorem nth_emptyIterator : ∀ k : Nat,
    IteratorFunc.nth k IteratorFunc.emptyIterator = some Interval.zero := by
  intro k
  induction k with
  | zero => rfl
  | succ k ih =>
    simp only [IteratorFunc.nth, call_emptyIterator]
    exact ih

theorem drain_emptyIterator (fuel : Nat) :
    IteratorFunc.drain (fuel + 1) IteratorFunc.emptyIterator = some [] := by
  simp only [IteratorFunc.drain, call_emptyIterator, Interval.zero_isEmpty, if_true]

theorem iterator_split3 (pre mid post : List Interval) (b : Interval)
    (hb : b.IsEmpty = false) (h1 : ∀ a ∈ pre, a.LtBeginOf b = true)
    (h2 : ∀ a ∈ mid, a.LtBeginOf b = false ∧ b.LtBeginOf a = false)
    (h3 : ∀ a ∈ post, b.LtBeginOf a = true) (forward : Bool) :
    OrderedSet.Iterator ⟨pre ++ mid ++ post⟩ b forward
      = if forward then mid else mid.reverse := by
  unfold OrderedSet.Iterator
  simp only [hb, Bool.false_eq_true, if_false, searchLow_split3 pre mid post b h1 h2 h3,
    searchHigh_split3 pre mid post b h1 h2 h3]
  rw [← List.length_append, List.take_left' rfl, List.drop_left' rfl]

/-- C28: the forward iterator yields exactly the stored intervals that touch
the bound, whole and in order: for every well-formed set `s` and every
non-empty bound `b`, call number `k` of `s.Iterator(b, true)` returns the
`k`-th of those stored intervals `i`, in stored order, for which neither
`i.LtBeginOf(b)` nor `b.LtBeginOf(i)` holds, and the empty `Interval{}` once
`k` is past their number; each of them is a non-empty stored interval and each
is `LtBeginOf` the later ones. For an empty bound every call, the first
included, returns the empty `Interval{}`. -/
theorem iterator_forward (s : OrderedSet) (b : Interval) (h : WellFormed s) :
    (b.IsEmpty = false →
      (∀ k : Nat, (s.IteratorClosure b true).nth k =
        some ((s.intervals.filter (fun i => !i.LtBeginOf b && !b.LtBeginOf i)).getD k
          Interval.zero)) ∧
      (∀ i ∈ s.intervals.filter (fun i => !i.LtBeginOf b && !b.LtBeginOf i),
        i.IsEmpty = false ∧ i ∈ s.intervals) ∧
      (s.intervals.filter (fun i => !i.LtBeginOf b && !b.LtBeginOf i)).Pairwise
        (fun a c => a.LtBeginOf c = true)) ∧
    (b.IsEmpty = true → ∀ k : Nat, (s.IteratorClosure b true).nth k = some Interval.zero) := by
  rw [wellFormed_iff_pairwise] at h
  obtain ⟨l⟩ := s
  obtain ⟨hne, hp⟩ := h
  simp only at hne hp ⊢
  constructor
  · intro hb
    obtain ⟨pre, mid, post, rfl, h1, h2, h3⟩ := split3 l b hp
    rw [filter_split3 pre mid post b h1 h2 h3, iteratorClosure_eq pre mid post b hb h1 h2 h3]
    simp only [if_true]
    refine ⟨?_, ?_, ?_⟩
    · intro k
      rw [nth_forward pre mid post k 0 (Nat.zero_le _), List.drop_zero]
    · intro i hi
      have hm : i ∈ pre ++ mid ++ post := List.mem_append_left _ (List.mem_append_right _ hi)
      exact ⟨hne i hm, hm⟩
    · rw [List.pairwise_append, List.pairwise_append] at hp
      exact hp.1.2.1.imp (fun hs => hs.1)
  · intro hb k
    unfold OrderedSet.IteratorClosure
    rw [if_pos hb]
    exact nth_emptyIterator k

theorem iterator_forward_witness :
    WellFormed ⟨[⟨0, true, 3, true⟩, ⟨5, true, 8, true⟩, ⟨10, false, 12, true⟩]⟩ ∧
    (∀ k : Nat,
      (OrderedSet.IteratorClosure
          ⟨[⟨0, true, 3, true⟩, ⟨5, true, 8, true⟩, ⟨10, false, 12, true⟩]⟩
          ⟨6, true, 11, true⟩ true).nth k =
        some (([(⟨0, true, 3, true⟩ : Interval), ⟨5, true, 8, true⟩,
            ⟨10, false, 12, true⟩].filter
          (fun i => !i.LtBeginOf ⟨6, true, 11, true⟩ &&
            !Interval.LtBeginOf ⟨6, true, 11, true⟩ i)).getD k Interval.zero)) ∧
    [(⟨0, true, 3, true⟩ : Interval), ⟨5, true, 8, true⟩, ⟨10, false, 12, true⟩].filter
        (fun i => !i.LtBeginOf ⟨6, true, 11, true⟩ &&
          !Interval.LtBeginOf ⟨6, true, 11, true⟩ i)
      = [⟨5, true, 8, true⟩, ⟨10, false, 12, true⟩] :=
  ⟨by decide,
    ((iterator_forward ⟨[⟨0, true, 3, true⟩, ⟨5, true, 8, true⟩, ⟨10, false, 12, true⟩]⟩
      ⟨6, true, 11, true⟩ (by decide)).1 (by decide)).1,
    by decide⟩

/-- What the two closures return before their first empty interval, and the
list model `OrderedSet.Iterator` of it, for a well-formed set. -/
theorem drain_iteratorClosure (s : OrderedSet) (b : Interval) (h : WellFormed s) :
    (s.IteratorClosure b true).drain (s.Len + 1) = some (s.Iterator b true) ∧
    (s.IteratorClosure b false).drain (s.Len + 1) = some (s.Iterator b false) ∧
    s.Iterator b false = (s.Iterator b true).reverse := by
  rw [wellFormed_iff_pairwise] at h
  obtain ⟨l⟩ := s
  obtain ⟨hne, hp⟩ := h
  simp only at hne hp
  cases hb : b.IsEmpty
  · obtain ⟨pre, mid, post, rfl, h1, h2, h3⟩ := split3 l b hp
    have hmid : ∀ i ∈ mid, i.IsEmpty = false :=
      fun i hi => hne i (List.mem_append_left _ (List.mem_append_right _ hi))
    rw [iterator_split3 pre mid post b hb h1 h2 h3, iterator_split3 pre mid post b hb h1 h2 h3,
      iteratorClosure_eq pre mid post b hb h1 h2 h3,
      iteratorClosure_eq pre mid post b hb h1 h2 h3]
    simp only [if_true, Bool.false_eq_true, if_false]
    have hlen : mid.length + 1 ≤ OrderedSet.Len ⟨pre ++ mid ++ post⟩ + 1 := by
      simp only [OrderedSet.Len, List.length_append]
      omega
    refine ⟨?_, ?_, trivial⟩
    · rw [drain_forward pre mid post hmid mid.length 0 (by omega) _ hlen, List.drop_zero]
    · rw [drain_backward pre mid post hmid mid.length (le_refl _) _ hlen, List.take_length]
  · have e1 : ∀ fw, OrderedSet.IteratorClosure ⟨l⟩ b fw = IteratorFunc.emptyIterator := by
      intro fw
      unfold OrderedSet.IteratorClosure
      rw [if_pos hb]
    have e2 : ∀ fw, OrderedSet.Iterator ⟨l⟩ b fw = [] := by
      intro fw
      unfold OrderedSet.Iterator
      rw [if_pos hb]
    rw [e1, e1, e2, e2]
    exact ⟨drain_emptyIterator _, drain_emptyIterator _, rfl⟩

/-- C29: the backward iterator is the forward iterator reversed: for every
well-formed set `s` and every bound `b`, calling `s.Iterator(b, true)` until
its first empty result yields a finite sequence `xs` of intervals, and calling
`s.Iterator(b, false)` until its first empty result yields the reverse of
`xs`. -/
theorem iterator_backward_reverse (s : OrderedSet) (b : Interval) (h : WellFormed s) :
    ∃ xs : List Interval, (s.IteratorClosure b true).drain (s.Len + 1) = some xs ∧
      (s.IteratorClosure b false).drain (s.Len + 1) = some xs.reverse := by
  obtain ⟨h1, h2, h3⟩ := drain_iteratorClosure s b h
  refine ⟨s.Iterator b true, h1, ?_⟩
  rw [h2, h3]

theorem iterator_backward_reverse_witness :
    WellFormed ⟨[⟨0, true, 3, true⟩, ⟨5, true, 8, true⟩, ⟨10, false, 12, true⟩]⟩ ∧
    ∃ xs : List Interval,
      (OrderedSet.IteratorClosure
          ⟨[⟨0, true, 3, true⟩, ⟨5, true, 8, true⟩, ⟨10, false, 12, true⟩]⟩
          ⟨6, true, 11, true⟩ true).drain
        (OrderedSet.Len ⟨[⟨0, true, 3, true⟩, ⟨5, true, 8, true⟩, ⟨10, false, 12, true⟩]⟩ + 1)
        = some xs ∧
      (OrderedSet.IteratorClosure
          ⟨[⟨0, true, 3, true⟩, ⟨5, true, 8, true⟩, ⟨10, false, 12, true⟩]⟩
          ⟨6, true, 11, true⟩ false).drain
        (OrderedSet.Len ⟨[⟨0, true, 3, true⟩, ⟨5, true, 8, true⟩, ⟨10, false, 12, true⟩]⟩ + 1)
        = some xs.reverse :=
  ⟨by decide, iterator_backward_reverse _ _ (by decide)⟩

/-- The closures on a concrete set: forward `[5,8], (10,12]`, backward
`(10,12], [5,8]`. -/
theorem iterator_example :
    (OrderedSet.IteratorClosure
        ⟨[⟨0, true, 3, true⟩, ⟨5, true, 8, true⟩, ⟨10, false, 12, true⟩]⟩
        ⟨6, true, 11, true⟩ true).drain 4
      = some [⟨5, true, 8, true⟩, ⟨10, false, 12, true⟩] ∧
    (OrderedSet.IteratorClosure
        ⟨[⟨0, true, 3, true⟩, ⟨5, true, 8, true⟩, ⟨10, false, 12, true⟩]⟩
        ⟨6, true, 11, true⟩ false).drain 4
      = some [⟨10, false, 12, true⟩, ⟨5, true, 8, true⟩] := by
  decide

/-! ## The four combinators return well-formed sets -/

/-- The loop of `Union` keeps the set well formed, whatever it adds. -/
theorem unionLoop_wellFormed : ∀ (l : List Interval) (s : OrderedSet), WellFormed s →
    ∃ u, unionLoop s l = some u ∧ WellFormed u := by
  intro l
  induction l with
  | nil =>
    intro s hs
    exact ⟨s, rfl, hs⟩
  | cons x rest ih =>
    intro s hs
    unfold unionLoop
    cases hx : x.IsEmpty
    · obtain ⟨r, b, hr, hrw, _⟩ := add_spec s.intervals x hs hx
      have hs2 : s.Add x = some (r, b) := hr
      simp only [Bool.false_eq_true, if_false, hs2]
      exact ih r hrw
    · simp only [if_true]
      exact ⟨s, rfl, hs⟩

theorem union_wellFormed (a b : OrderedSet) (ha : WellFormed a) (hb : WellFormed b) :
    ∃ u, Union a b = some u ∧ WellFormed u := by
  unfold Union
  by_cases hlen : a.Len < b.Len
  · simp only [if_pos hlen]
    exact unionLoop_wellFormed _ b hb
  · simp only [if_neg hlen]
    exact unionLoop_wellFormed _ a ha

/-- C31: the four set combinators return well-formed sets: for all well-formed
sets `a` and `b`, each of `Union(a, b)`, `Intersect(a, b)`, `Subtract(a, b)`
and `Difference(a, b)` returns a set that stores only non-empty intervals, each
`LtBeginOf` the next, with no consecutive pair having a non-empty `Adjoin`. -/
theorem combinators_wellFormed (a b : OrderedSet) (ha : WellFormed a) (hb : WellFormed b) :
    (∃ u, Union a b = some u ∧ (∀ i ∈ u.intervals, i.IsEmpty = false) ∧
      List.Chain' (fun p q => p.LtBeginOf q = true ∧ (p.Adjoin q).IsEmpty = true)
        u.intervals) ∧
    (∃ r, Intersect a b = some r ∧ (∀ i ∈ r.intervals, i.IsEmpty = false) ∧
      List.Chain' (fun p q => p.LtBeginOf q = true ∧ (p.Adjoin q).IsEmpty = true)
        r.intervals) ∧
    (∃ r, Subtract a b = some r ∧ (∀ i ∈ r.intervals, i.IsEmpty = false) ∧
      List.Chain' (fun p q => p.LtBeginOf q = true ∧ (p.Adjoin q).IsEmpty = true)
        r.intervals) ∧
    (∃ r, Difference a b = some r ∧ (∀ i ∈ r.intervals, i.IsEmpty = false) ∧
      List.Chain' (fun p q => p.LtBeginOf q = true ∧ (p.Adjoin q).IsEmpty = true)
        r.intervals) ∧
    (∀ u, Union a b = some u → WellFormed u) ∧
    (∀ r, Intersect a b = some r → WellFormed r) ∧
    (∀ r, Subtract a b = some r → WellFormed r) ∧
    (∀ r, Difference a b = some r → WellFormed r) := by
  obtain ⟨u, hu, huw⟩ := union_wellFormed a b ha hb
  obtain ⟨r1, h1, h1w, _⟩ := intersect_spec a b ha hb
  obtain ⟨r2, h2, h2w, _⟩ := subtract_spec a b ha hb
  obtain ⟨r3, h3, h3w, _⟩ := difference_spec a b ha hb
  refine ⟨⟨u, hu, huw⟩, ⟨r1, h1, h1w⟩, ⟨r2, h2, h2w⟩, ⟨r3, h3, h3w⟩, ?_, ?_, ?_, ?_⟩
  · intro v hv
    rw [hu] at hv
    rw [← Option.some.inj hv]
    exact huw
  · intro v hv
    rw [h1] at hv
    rw [← Option.some.inj hv]
    exact h1w
  · intro v hv
    rw [h2] at hv
    rw [← Option.some.inj hv]
    exact h2w
  · intro v hv
    rw [h3] at hv
    rw [← Option.some.inj hv]
    exact h3w

theorem combinators_wellFormed_witness :
    WellFormed ⟨[⟨0, true, 10, true⟩, ⟨20, true, 30, false⟩]⟩ ∧
    WellFormed ⟨[⟨3, true, 5, false⟩, ⟨8, false, 25, true⟩, ⟨30, true, 40, true⟩]⟩ ∧
    (∃ u, Union ⟨[⟨0, true, 10, true⟩, ⟨20, true, 30, false⟩]⟩
        ⟨[⟨3, true, 5, false⟩, ⟨8, false, 25, true⟩, ⟨30, true, 40, true⟩]⟩ = some u ∧
      (∀ i ∈ u.intervals, i.IsEmpty = false) ∧
      List.Chain' (fun p q => p.LtBeginOf q = true ∧ (p.Adjoin q).IsEmpty = true)
        u.intervals) ∧
    (∃ r, Intersect ⟨[⟨0, true, 10, true⟩, ⟨20, true, 30, false⟩]⟩
        ⟨[⟨3, true, 5, false⟩, ⟨8, false, 25, true⟩, ⟨30, true, 40, true⟩]⟩ = some r ∧
      (∀ i ∈ r.intervals, i.IsEmpty = false) ∧
      List.Chain' (fun p q => p.LtBeginOf q = true ∧ (p.Adjoin q).IsEmpty = true)
        r.intervals) ∧
    (∃ r, Subtract ⟨[⟨0, true, 10, true⟩, ⟨20, true, 30, false⟩]⟩
        ⟨[⟨3, true, 5, false⟩, ⟨8, false, 25, true⟩, ⟨30, true, 40, true⟩]⟩ = some r ∧
      (∀ i ∈ r.intervals, i.IsEmpty = false) ∧
      List.Chain' (fun p q => p.LtBeginOf q = true ∧ (p.Adjoin q).IsEmpty = true)
        r.intervals) ∧
    (∃ r, Difference ⟨[⟨0, true, 10, true⟩, ⟨20, true, 30, false⟩]⟩
        ⟨[⟨3, true, 5, false⟩, ⟨8, false, 25, true⟩, ⟨30, true, 40, true⟩]⟩ = some r ∧
      (∀ i ∈ r.intervals, i.IsEmpty = false) ∧
      List.Chain' (fun p q => p.LtBeginOf q = true ∧ (p.Adjoin q).IsEmpty = true)
        r.intervals) :=
  ⟨by decide, by decide,
    (combinators_wellFormed _ _ (by decide) (by decide)).1,
    (combinators_wellFormed _ _ (by decide) (by decide)).2.1,
    (combinators_wellFormed _ _ (by decide) (by decide)).2.2.1,
    (combinators_wellFormed _ _ (by decide) (by decide)).2.2.2.1⟩

/-- The four combinators on a concrete pair of sets. -/
theorem combinators_example :
    Union ⟨[⟨0, true, 10, true⟩, ⟨20, true, 30, false⟩]⟩
        ⟨[⟨3, true, 5, false⟩, ⟨8, false, 25, true⟩, ⟨30, true, 40, true⟩]⟩
      = some ⟨[⟨0, true, 40, true⟩]⟩ ∧
    Intersect ⟨[⟨0, true, 10, true⟩, ⟨20, true, 30, false⟩]⟩
        ⟨[⟨3, true, 5, false⟩, ⟨8, false, 25, true⟩, ⟨30, true, 40, true⟩]⟩
      = some ⟨[⟨3, true, 5, false⟩, ⟨8, false, 10, true⟩, ⟨20, true, 25, true⟩]⟩ ∧
    Subtract ⟨[⟨0, true, 10, true⟩, ⟨20, true, 30, false⟩]⟩
        ⟨[⟨3, true, 5, false⟩, ⟨8, false, 25, true⟩, ⟨30, true, 40, true⟩]⟩
      = some ⟨[⟨0, true, 3, false⟩, ⟨5, true, 8, true⟩, ⟨25, false, 30, false⟩]⟩ ∧
    Difference ⟨[⟨0, true, 10, true⟩, ⟨20, true, 30, false⟩]⟩
        ⟨[⟨3, true, 5, false⟩, ⟨8, false, 25, true⟩, ⟨30, true, 40, true⟩]⟩
      = some ⟨[⟨0, true, 3, false⟩, ⟨5, true, 8, true⟩, ⟨10, false, 20, false⟩,
          ⟨25, false, 40, true⟩]⟩ := by
  decide

/-! ## The sweep of Intersect always terminates -/

theorem intersectLoop_of_isEmpty (f : Nat) (x : Interval) (xit : List Interval) (y : Interval)
    (yit acc : List Interval) (h : x.IsEmpty = true ∨ y.IsEmpty = true) :
    intersectLoop (f + 1) x xit y yit acc = some acc := by
  rw [intersectLoop_step]
  rw [if_neg]
  rcases h with h | h <;> simp [h]

theorem intersectLoop_advance_left (n f : Nat)
    (hT : 1 ≤ n → ∀ (x : Interval) (xit : List Interval) (y : Interval) (yit acc : List Interval),
      xit.length + yit.length ≤ n - 1 → ∃ res, intersectLoop f x xit y yit acc = some res)
    (hf : 1 ≤ f) (xit : List Interval) (y : Interval) (yit acc : List Interval)
    (hlen : xit.length + yit.length ≤ n) :
    ∃ res, intersectLoop f (next xit).1 (next xit).2 y yit acc = some res := by
  cases xit with
  | nil =>
    obtain ⟨g, rfl⟩ : ∃ g, f = g + 1 := ⟨f - 1, by omega⟩
    exact ⟨acc, intersectLoop_of_isEmpty g _ _ _ _ _ (Or.inl Interval.zero_isEmpty)⟩
  | cons x2 rest =>
    simp only [List.length_cons] at hlen
    exact hT (by omega) x2 rest y yit acc (by omega)

theorem intersectLoop_advance_right (n f : Nat)
    (hT : 1 ≤ n → ∀ (x : Interval) (xit : List Interval) (y : Interval) (yit acc : List Interval),
      xit.length + yit.length ≤ n - 1 → ∃ res, intersectLoop f x xit y yit acc = some res)
    (hf : 1 ≤ f) (x : Interval) (xit yit acc : List Interval)
    (hlen : xit.length + yit.length ≤ n) :
    ∃ res, intersectLoop f x xit (next yit).1 (next yit).2 acc = some res := by
  cases yit with
  | nil =>
    obtain ⟨g, rfl⟩ : ∃ g, f = g + 1 := ⟨f - 1, by omega⟩
    exact ⟨acc, intersectLoop_of_isEmpty g _ _ _ _ _ (Or.inr Interval.zero_isEmpty)⟩
  | cons y2 rest =>
    simp only [List.length_cons] at hlen
    exact hT (by omega) x xit y2 rest acc (by omega)

/-- One round of the termination argument for the sweep of `Intersect`: with
`n` values left in the two iterators, `2 * n + 3` iterations are enough, and
`2 * n + 2` when the current `y` is `LtBeginOf` the current `x`. -/
theorem intersectLoop_terminates_step (n : Nat)
    (hT : 1 ≤ n → ∀ f : Nat, 2 * n + 1 ≤ f →
      ∀ (x : Interval) (xit : List Interval) (y : Interval) (yit acc : List Interval),
      xit.length + yit.length ≤ n - 1 → ∃ res, intersectLoop f x xit y yit acc = some res) :
    (∀ f : Nat, 2 * n + 3 ≤ f →
      ∀ (x : Interval) (xit : List Interval) (y : Interval) (yit acc : List Interval),
      xit.length + yit.length ≤ n → ∃ res, intersectLoop f x xit y yit acc = some res) ∧
    (∀ f : Nat, 2 * n + 2 ≤ f →
      ∀ (x : Interval) (xit : List Interval) (y : Interval) (yit acc : List Interval),
      xit.length + yit.length ≤ n → y.LtBeginOf x = true →
      ∃ res, intersectLoop f x xit y yit acc = some res) := by
  have hB : ∀ f : Nat, 2 * n + 2 ≤ f →
      ∀ (x : Interval) (xit : List Interval) (y : Interval) (yit acc : List Interval),
      xit.length + yit.length ≤ n → y.LtBeginOf x = true →
      ∃ res, intersectLoop f x xit y yit acc = some res := by
    intro f hf x xit y yit acc hlen hyx
    obtain ⟨g, rfl⟩ : ∃ g, f = g + 1 := ⟨f - 1, by omega⟩
    have hxy := ltBeginOf_asymm hyx
    obtain ⟨hxe, hye, _⟩ := (Interval.ltBeginOf_iff y x).1 hyx
    rw [intersectLoop_step]
    simp only [hxe, hye, Bool.not_false, Bool.and_self, if_true, hxy, Bool.false_eq_true,
      if_false, hyx]
    exact intersectLoop_advance_right n g (fun h1 => hT h1 g (by omega)) (by omega) x xit yit acc
      hlen
  refine ⟨?_, hB⟩
  intro f hf x xit y yit acc hlen
  obtain ⟨g, rfl⟩ : ∃ g, f = g + 1 := ⟨f - 1, by omega⟩
  cases hxe : x.IsEmpty
  · cases hye : y.IsEmpty
    · rw [intersectLoop_step]
      simp only [hxe, hye, Bool.not_false, Bool.and_self, if_true]
      by_cases hxy : x.LtBeginOf y = true
      · rw [if_pos hxy]
        exact intersectLoop_advance_left n g (fun h1 => hT h1 g (by omega)) (by omega) xit y yit
          acc hlen
      · rw [if_neg hxy]
        by_cases hyx : y.LtBeginOf x = true
        · rw [if_pos hyx]
          exact intersectLoop_advance_right n g (fun h1 => hT h1 g (by omega)) (by omega) x xit
            yit acc hlen
        · rw [if_neg hyx]
          have hov := overlap_of_not_ltBeginOf hxe hye (by simpa using hxy) (by simpa using hyx)
          rw [if_pos (by rw [hov]; rfl)]
          cases hr : (x.Bisect y).2.IsEmpty
          · rw [if_pos (by rfl)]
            exact hB g (by omega) _ xit y yit _ hlen (ltBeginOf_bisect_snd hov hr)
          · rw [if_neg (by simp)]
            exact intersectLoop_advance_left n g (fun h1 => hT h1 g (by omega)) (by omega) xit y
              yit _ hlen
    · exact ⟨acc, intersectLoop_of_isEmpty g _ _ _ _ _ (Or.inr hye)⟩
  · exact ⟨acc, intersectLoop_of_isEmpty g _ _ _ _ _ (Or.inl hxe)⟩

/-- The sweep of `Intersect` ends for all sequences, well formed or not: with
`n` values left in the two iterators, `2 * n + 3` iterations are enough. -/
theorem intersectLoop_terminates : ∀ (n f : Nat), 2 * n + 3 ≤ f →
    ∀ (x : Interval) (xit : List Interval) (y : Interval) (yit acc : List Interval),
    xit.length + yit.length ≤ n → ∃ res, intersectLoop f x xit y yit acc = some res := by
  intro n
  induction n with
  | zero =>
    exact (intersectLoop_terminates_step 0 (fun h => absurd h (by decide))).1
  | succ n ih =>
    apply (intersectLoop_terminates_step (n + 1) ?_).1
    intro _ f hf x xit y yit acc hlen
    exact ih f (by omega) x xit y yit acc (by simpa using hlen)

theorem iterator_length_le (s : OrderedSet) (B : Interval) (fw : Bool) :
    (s.Iterator B fw).length ≤ s.Len := by
  unfold OrderedSet.Iterator OrderedSet.Len
  split_ifs <;> simp

theorem length_next_le (l : List Interval) : (next l).2.length ≤ l.length := by
  cases l <;> simp [next]

theorem bisect_snd_shorter {x y : Interval} (hov : (x.Intersect y).IsEmpty = false)
    (hr : (x.Bisect y).2.IsEmpty = false) :
    (x.Bisect y).2.End = x.End ∧ (x.Bisect y).2.IncEnd = x.IncEnd ∧
    (x.Begin < (x.Bisect y).2.Begin ∨
      (x.Begin = (x.Bisect y).2.Begin ∧ x.IncBegin = true ∧
        (x.Bisect y).2.IncBegin = false)) := by
  obtain ⟨hx, hy, _, _⟩ := Interval.intersect_fields hov
  obtain ⟨_, hn⟩ := overlap_not_ltBeginOf hov
  rw [not_ltBeginOf_iff hy hx] at hn
  rw [Interval.bisect_of_overlap hov] at hr ⊢
  simp only at hr ⊢
  rw [Interval.maybeEmpty_isEmpty] at hr
  rw [Interval.maybeEmpty_of_nonempty hr]
  refine ⟨rfl, rfl, ?_⟩
  simp only
  rcases hn with hn | ⟨h1, h2, h3⟩
  · exact Or.inl hn
  · right
    exact ⟨h1.symm, h3, by rw [h2]; rfl⟩

/-- C32: the sweep in set `Intersect` always terminates: for all sets `a` and
`b`, well formed or not, `Intersect(a, b)` returns, within
`2 * (a.Len + b.Len) + 3` iterations of its loop and with the same result for
every larger bound. Every iteration with non-empty `x` and `y` either advances
one of the two iterators or replaces `x` by the non-empty remnant
`right` of `x.Bisect(y)`, which ends where `x` ends, begins strictly later, and
which the current `y` is `LtBeginOf`. This holds because for any two non-empty
intervals `x` and `y`, if neither `x.LtBeginOf(y)` nor `y.LtBeginOf(x)` then
`x.Intersect(y)` is non-empty, so the branch that leaves `x` and `y` as they
are is never taken. -/
theorem intersect_terminates (a b : OrderedSet) :
    (∃ r, Intersect a b = some r ∧
      ∀ k : Nat, IntersectWithin (2 * (a.Len + b.Len) + 3 + k) a b = some r) ∧
    (∀ x y : Interval, x.IsEmpty = false → y.IsEmpty = false →
      x.LtBeginOf y = false → y.LtBeginOf x = false → (x.Intersect y).IsEmpty = false) ∧
    (∀ (fuel : Nat) (x : Interval) (xit : List Interval) (y : Interval)
        (yit acc : List Interval),
      x.IsEmpty = false → y.IsEmpty = false →
      (x.LtBeginOf y = true →
        intersectLoop (fuel + 1) x xit y yit acc
          = intersectLoop fuel (next xit).1 (next xit).2 y yit acc) ∧
      (x.LtBeginOf y = false → y.LtBeginOf x = true →
        intersectLoop (fuel + 1) x xit y yit acc
          = intersectLoop fuel x xit (next yit).1 (next yit).2 acc) ∧
      (x.LtBeginOf y = false → y.LtBeginOf x = false →
        ((x.Bisect y).2.IsEmpty = true →
          intersectLoop (fuel + 1) x xit y yit acc
            = intersectLoop fuel (next xit).1 (next xit).2 y yit (acc ++ [x.Intersect y])) ∧
        ((x.Bisect y).2.IsEmpty = false →
          intersectLoop (fuel + 1) x xit y yit acc
            = intersectLoop fuel (x.Bisect y).2 xit y yit (acc ++ [x.Intersect y]) ∧
          y.LtBeginOf (x.Bisect y).2 = true ∧
          (x.Bisect y).2.End = x.End ∧ (x.Bisect y).2.IncEnd = x.IncEnd ∧
          (x.Begin < (x.Bisect y).2.Begin ∨
            (x.Begin = (x.Bisect y).2.Begin ∧ x.IncBegin = true ∧
              (x.Bisect y).2.IncBegin = false))))) := by
  refine ⟨?_, fun x y hx hy h1 h2 => overlap_of_not_ltBeginOf hx hy h1 h2, ?_⟩
  · have hX := iterator_length_le a b.Bound true
    have hY := iterator_length_le b a.Bound true
    have hX2 := length_next_le (a.Iterator b.Bound true)
    have hY2 := length_next_le (b.Iterator a.Bound true)
    obtain ⟨res, hres⟩ := intersectLoop_terminates (a.Len + b.Len) (2 * (a.Len + b.Len) + 3)
      (le_refl _) (next (a.Iterator b.Bound true)).1 (next (a.Iterator b.Bound true)).2
      (next (b.Iterator a.Bound true)).1 (next (b.Iterator a.Bound true)).2 [] (by omega)
    refine ⟨⟨res⟩, ?_, ?_⟩
    · unfold Intersect IntersectWithin
      simp only [hres, Option.map_some']
    · intro k
      unfold IntersectWithin
      simp only [intersectLoop_fuel_mono _ _ _ _ _ _ _ hres k, Option.map_some']
  · intro fuel x xit y yit acc hx hy
    refine ⟨?_, ?_, ?_⟩
    · intro hxy
      rw [intersectLoop_step]
      simp only [hx, hy, Bool.not_false, Bool.and_self, if_true, hxy]
    · intro hxy hyx
      rw [intersectLoop_step]
      simp only [hx, hy, Bool.not_false, Bool.and_self, if_true, hxy, hyx,
        Bool.false_eq_true, if_false]
    · intro hxy hyx
      have hov := overlap_of_not_ltBeginOf hx hy hxy hyx
      constructor
      · intro hr
        rw [intersectLoop_step]
        simp only [hx, hy, Bool.not_false, Bool.and_self, if_true, hxy, hyx,
          Bool.false_eq_true, if_false, hov, hr, Bool.not_true]
      · intro hr
        refine ⟨?_, ltBeginOf_bisect_snd hov hr, bisect_snd_shorter hov hr⟩
        rw [intersectLoop_step]
        simp only [hx, hy, Bool.not_false, Bool.and_self, if_true, hxy, hyx,
          Bool.false_eq_true, if_false, hov, hr]

/-- The sweep also ends on sets that are not well formed: here the first set
stores its intervals in the wrong order and the second stores an empty one. -/
theorem intersect_terminates_example :
    Intersect ⟨[⟨5, true, 8, true⟩, ⟨0, true, 3, true⟩]⟩
        ⟨[⟨1, true, 6, true⟩, ⟨7, true, 7, false⟩]⟩ ≠ none := by
  decide

/-! ## Remove touches only the affected run -/

theorem filter_before_split3 (pre mid post : List Interval) (x : Interval)
    (h1 : ∀ a ∈ pre, a.LtBeginOf x = true)
    (h2 : ∀ a ∈ mid, a.LtBeginOf x = false ∧ x.LtBeginOf a = false)
    (h3 : ∀ a ∈ post, x.LtBeginOf a = true) :
    (pre ++ mid ++ post).filter (fun i => i.LtBeginOf x) = pre := by
  rw [List.filter_append, List.filter_append]
  have e1 : pre.filter (fun i => i.LtBeginOf x) = pre := by
    rw [List.filter_eq_self]
    exact h1
  have e2 : mid.filter (fun i => i.LtBeginOf x) = [] := by
    rw [List.filter_eq_nil_iff]
    intro a ha
    simp [(h2 a ha).1]
  have e3 : post.filter (fun i => i.LtBeginOf x) = [] := by
    rw [List.filter_eq_nil_iff]
    intro a ha
    simp [ltBeginOf_asymm (h3 a ha)]
  rw [e1, e2, e3]
  simp

theorem filter_after_split3 (pre mid post : List Interval) (x : Interval)
    (h1 : ∀ a ∈ pre, a.LtBeginOf x = true)
    (h2 : ∀ a ∈ mid, a.LtBeginOf x = false ∧ x.LtBeginOf a = false)
    (h3 : ∀ a ∈ post, x.LtBeginOf a = true) :
    (pre ++ mid ++ post).filter (fun i => x.LtBeginOf i) = post := by
  rw [List.filter_append, List.filter_append]
  have e1 : pre.filter (fun i => x.LtBeginOf i) = [] := by
    rw [List.filter_eq_nil_iff]
    intro a ha
    simp [ltBeginOf_asymm (h1 a ha)]
  have e2 : mid.filter (fun i => x.LtBeginOf i) = [] := by
    rw [List.filter_eq_nil_iff]
    intro a ha
    simp [(h2 a ha).2]
  have e3 : post.filter (fun i => x.LtBeginOf i) = post := by
    rw [List.filter_eq_self]
    exact h3
  rw [e1, e2, e3]
  simp

/-- C33: `Remove` touches only the affected run: for every well-formed set `s`
and every non-empty interval `x`, `s.Remove(x)` returns, and the stored
sequence afterwards is the stored intervals that were `LtBeginOf x`, unchanged
and in order, followed by at most two remnants (what `Bisect` leaves of the
first overlapped interval before `x` and of the last overlapped interval after
`x`, each only if non-empty), followed by the stored intervals that `x` is
`LtBeginOf`, unchanged and in order; the overlapped intervals are those that
are neither. Hence the number of stored intervals grows by at most one. -/
theorem remove_frame (s : OrderedSet) (x : Interval) (h : WellFormed s)
    (hx : x.IsEmpty = false) :
    ∃ r b, s.Remove x = some (r, b) ∧
      r.intervals =
        s.intervals.filter (fun i => i.LtBeginOf x) ++
        keep (leftRemnant (s.intervals.filter (fun i => !i.LtBeginOf x && !x.LtBeginOf i)) x) ++
        keep (rightRemnant (s.intervals.filter (fun i => !i.LtBeginOf x && !x.LtBeginOf i)) x) ++
        s.intervals.filter (fun i => x.LtBeginOf i) ∧
      (keep (leftRemnant (s.intervals.filter
          (fun i => !i.LtBeginOf x && !x.LtBeginOf i)) x)).length ≤ 1 ∧
      (keep (rightRemnant (s.intervals.filter
          (fun i => !i.LtBeginOf x && !x.LtBeginOf i)) x)).length ≤ 1 ∧
      r.intervals.length ≤ s.intervals.length + 1 := by
  obtain ⟨l⟩ := s
  obtain ⟨pre, mid, post, rfl, h1, h2, h3, hrem⟩ := remove_shape l x h hx
  refine ⟨_, _, hrem, ?_, length_keep_le _, length_keep_le _, ?_⟩
  · simp only
    rw [filter_before_split3 pre mid post x h1 h2 h3, filter_split3 pre mid post x h1 h2 h3,
      filter_after_split3 pre mid post x h1 h2 h3]
  · simp only [List.length_append]
    cases mid with
    | nil =>
      rw [(remnant_nil x).1, (remnant_nil x).2]
      simp
    | cons m mid2 =>
      have e1 := length_keep_le (leftRemnant (m :: mid2) x)
      have e2 := length_keep_le (rightRemnant (m :: mid2) x)
      simp only [List.length_cons]
      omega

theorem remove_frame_witness :
    WellFormed ⟨[⟨0, true, 3, true⟩, ⟨5, true, 8, true⟩, ⟨10, false, 12, true⟩]⟩ ∧
    Interval.IsEmpty ⟨6, true, 7, true⟩ = false ∧
    ∃ r b, OrderedSet.Remove
        ⟨[⟨0, true, 3, true⟩, ⟨5, true, 8, true⟩, ⟨10, false, 12, true⟩]⟩ ⟨6, true, 7, true⟩
        = some (r, b) ∧
      r.intervals =
        [(⟨0, true, 3, true⟩ : Interval), ⟨5, true, 8, true⟩, ⟨10, false, 12, true⟩].filter
          (fun i => i.LtBeginOf ⟨6, true, 7, true⟩) ++
        keep (leftRemnant
          ([(⟨0, true, 3, true⟩ : Interval), ⟨5, true, 8, true⟩, ⟨10, false, 12, true⟩].filter
            (fun i => !i.LtBeginOf ⟨6, true, 7, true⟩ &&
              !Interval.LtBeginOf ⟨6, true, 7, true⟩ i)) ⟨6, true, 7, true⟩) ++
        keep (rightRemnant
          ([(⟨0, true, 3, true⟩ : Interval), ⟨5, true, 8, true⟩, ⟨10, false, 12, true⟩].filter
            (fun i => !i.LtBeginOf ⟨6, true, 7, true⟩ &&
              !Interval.LtBeginOf ⟨6, true, 7, true⟩ i)) ⟨6, true, 7, true⟩) ++
        [(⟨0, true, 3, true⟩ : Interval), ⟨5, true, 8, true⟩, ⟨10, false, 12, true⟩].filter
          (fun i => Interval.LtBeginOf ⟨6, true, 7, true⟩ i) ∧
      (keep (leftRemnant
          ([(⟨0, true, 3, true⟩ : Interval), ⟨5, true, 8, true⟩, ⟨10, false, 12, true⟩].filter
            (fun i => !i.LtBeginOf ⟨6, true, 7, true⟩ &&
              !Interval.LtBeginOf ⟨6, true, 7, true⟩ i)) ⟨6, true, 7, true⟩)).length ≤ 1 ∧
      (keep (rightRemnant
          ([(⟨0, true, 3, true⟩ : Interval), ⟨5, true, 8, true⟩, ⟨10, false, 12, true⟩].filter
            (fun i => !i.LtBeginOf ⟨6, true, 7, true⟩ &&
              !Interval.LtBeginOf ⟨6, true, 7, true⟩ i)) ⟨6, true, 7, true⟩)).length ≤ 1 ∧
      r.intervals.length ≤
        [(⟨0, true, 3, true⟩ : Interval), ⟨5, true, 8, true⟩, ⟨10, false, 12, true⟩].length
          + 1 :=
  ⟨by decide, by decide, remove_frame _ _ (by decide) (by decide)⟩

/-- Removing `[6,7]` from `{[0,3], [5,8], (10,12]}` splits the one overlapped
interval in two and leaves the others as they are. -/
theorem remove_frame_example :
    OrderedSet.Remove ⟨[⟨0, true, 3, true⟩, ⟨5, true, 8, true⟩, ⟨10, false, 12, true⟩]⟩
        ⟨6, true, 7, true⟩
      = some (⟨[⟨0, true, 3, true⟩, ⟨5, true, 6, false⟩, ⟨7, false, 8, true⟩,
          ⟨10, false, 12, true⟩]⟩, true) := by
  decide

end interval
